import Mathlib

/-!
compile-expression: a JIT compiler from arithmetic expressions to ARM (A32) code.

Shallow embedding of `compiler.c`.

* C strings are lists of characters; the terminating NUL sits at index
  `length`, and reading past it has no defined result (`none`).
* `node_t *` is the type `Node`, whose constructor `null` is the NULL pointer.
* Loops that the C code runs until the text tells them to stop take a fuel
  argument; `none` also stands for every undefined behaviour of the C code
  (out-of-bounds reads and writes, a NULL dereference).
* 32 bit machine integers are natural numbers reduced modulo `2 ^ 32`.
* `create_node` reads the operands of a binary node, and the fields of an
  ExternFunction node, with several `va_arg` inside one argument list.  C leaves
  the order of these reads open; the parser takes it as a parameter `va_order`.
-/

namespace Jit

/-! ## Data model -/

/-- The constant `MAX_ARGS`. -/
def MAX_ARGS : Nat := 4

/-- The constant `MAX_LENGTH`. -/
def MAX_LENGTH : Nat := 100

/-- One entry of the symbol table, `symbol_t`: the name and the host pointer. -/
structure symbol_t where
  name : List Char
  pointer : Nat
deriving DecidableEq, Repr

/-- The tree `node_t *`.  The constructors follow `node_type_t`; `null` is the
NULL pointer.  An `externFunction` carries `args_n` and the `MAX_ARGS` slots of
its `calloc`-ed argument array. -/
inductive Node where
  | null
  | sum (lhs rhs : Node)
  | sub (lhs rhs : Node)
  | mul (lhs rhs : Node)
  | externValue (value_ptr : Nat)
  | externFunction (function_ptr : Nat) (args_n : Nat) (arg0 arg1 arg2 arg3 : Node)
  | value (val : Int)
  | braced (subexpression : Node)
deriving DecidableEq, Repr

/-- The value of a `uint32_t` read back as an `int` (two's complement). -/
def toInt32 (n : Nat) : Int :=
  if n % 4294967296 < 2147483648 then (n % 4294967296 : Nat) else (n % 4294967296 : Nat) - 4294967296

/-- The cast `(uint32_t) v` of an `int`. -/
def toUInt32 (v : Int) : Nat := (v % 4294967296).toNat

/-- The tags of `node_type_t`. -/
inductive node_type_t where
  | EXPR_SUM
  | EXPR_SUB
  | EXPR_MUL
  | EXPR_EXTERN_VALUE
  | EXPR_EXTERN_FUNCTION
  | EXPR_VALUE
  | EXPR_BRACED_SUBEXPR
deriving DecidableEq, Repr

/-- The order in which `create_node` performs the `va_arg` reads it writes
inside one argument list: the two reads in the call of
`create_binary_expression` and the three reads in the call of
`create_extern_function`.  C leaves the order of evaluation of the arguments of
a call open, so each build of the program fixes one; `true` says that the reads
of that call happen in the order in which they are written, left to right. -/
structure va_order where
  binary_in_order : Bool
  function_in_order : Bool
deriving DecidableEq, Repr

/-- The build in which the arguments of a call are evaluated left to right. -/
def left_to_right : va_order := ⟨true, true⟩

/-- The build in which the arguments of a call are evaluated right to left. -/
def right_to_left : va_order := ⟨false, false⟩

/-- The node `create_node(type, first, second)` for the tags `EXPR_SUM`,
`EXPR_SUB` and `EXPR_MUL`: `create_binary_expression(va_arg(..), va_arg(..))`
stores as `lhs` the value of the read written first and as `rhs` that of the
read written second.  When the reads happen in order these are `first` and
`second`; when the second read happens first, they are exchanged. -/
def create_binary_node (u : va_order) (type : node_type_t) (first second : Node) : Node :=
  match type with
  | .EXPR_SUM => if u.binary_in_order then .sum first second else .sum second first
  | .EXPR_SUB => if u.binary_in_order then .sub first second else .sub second first
  | _ => if u.binary_in_order then .mul first second else .mul second first

/-- The node `create_node(EXPR_EXTERN_FUNCTION, function_ptr, args_n, args)` for
an argument array holding `args` in its first slots and NULL in the others:
`create_extern_function(va_arg(.., void *), va_arg(.., size_t), va_arg(.., node_t **))`.
When the three reads happen in order the fields are `function_ptr`, `args_n` and
the array.  In any other order a read has a type other than that of the argument
it receives, which C leaves undefined (in a right to left build the field
`function_ptr` receives the address of the array and the field `args` the host
pointer); such a node has no result here. -/
def create_extern_function_node (u : va_order) (function_ptr : Nat) (args : List Node) :
    Option Node :=
  if u.function_in_order then
    some (.externFunction function_ptr args.length (args.getD 0 .null) (args.getD 1 .null)
      (args.getD 2 .null) (args.getD 3 .null))
  else none

/-! ## Parser -/

/-- The read `expression[position]` of a NUL-terminated string. -/
def charAt (expression : List Char) (position : Nat) : Option Char :=
  if position < expression.length then expression.get? position
  else if position = expression.length then some (Char.ofNat 0)
  else none

/-- The loop of `fetch_value` over the characters from the cursor on. -/
def fetch_value_loop : List Char → Nat → Nat → Nat × Nat
  | [], number, position => (number, position)
  | c :: cs, number, position =>
    if c.isDigit then
      fetch_value_loop cs (((number * 10) % 4294967296 + (c.toNat - 48)) % 4294967296) (position + 1)
    else (number, position)

/-- The function `fetch_value`: the number read and the new cursor. -/
def fetch_value (position : Nat) (expression : List Char) : Option (Nat × Nat) :=
  if expression.length < position then none
  else some (fetch_value_loop (expression.drop position) 0 position)

/-- The first loop of `fetch_extern`: the alphanumeric run at the cursor. -/
def fetch_extern_name : List Char → List Char
  | [] => []
  | c :: cs => if c.isAlphanum then c :: fetch_extern_name cs else []

/-- The second loop of `fetch_extern`: the pointer of the first entry whose name
is `extern_name`; running off the table has no defined result. -/
def lookup_extern (extern_name : List Char) : List symbol_t → Option Nat
  | [] => none
  | e :: es => if extern_name = e.name then some e.pointer else lookup_extern extern_name es

/-- The local variables of `fetch`. -/
structure FetchState where
  prev_addend : Node
  prev_factor : Node
  last_addend_binary_operation : Char
  last_binary_operation : Char
deriving DecidableEq, Repr

/-- The variables of `fetch` on entry. -/
def FetchState.init : FetchState :=
  ⟨.null, .null, Char.ofNat 0, Char.ofNat 0⟩

/-- The `switch (last_binary_operation)` of `fetch`, with its fall-through from
the unary-minus branch into the `'*'` case; every binary node is built by
`create_node`, in the read order `u`. -/
def merge (u : va_order) (st : FetchState) (operation : Node) : FetchState :=
  if st.last_binary_operation = Char.ofNat 0 then
    { st with prev_factor := operation }
  else if st.last_binary_operation = '+' ∨ st.last_binary_operation = '-' then
    if st.prev_factor = .null then
      { st with prev_factor := create_binary_node u .EXPR_MUL (.value (-1)) operation }
    else
      { prev_addend :=
          if st.last_addend_binary_operation ≠ Char.ofNat 0 then
            (if st.last_addend_binary_operation = '+' then
               create_binary_node u .EXPR_SUM st.prev_addend st.prev_factor
             else create_binary_node u .EXPR_SUB st.prev_addend st.prev_factor)
          else st.prev_factor
        prev_factor := operation
        last_addend_binary_operation := st.last_binary_operation
        last_binary_operation := st.last_binary_operation }
  else if st.last_binary_operation = '*' then
    { st with prev_factor := create_binary_node u .EXPR_MUL st.prev_factor operation }
  else st

/-- Whether `symbol` ends a `fetch`: the cases `0`, `')'` and `','`. -/
def is_parse_end (symbol : Char) : Bool :=
  symbol = Char.ofNat 0 || symbol = ')' || symbol = ','

mutual

/-- The `while (1)` loop of `fetch`, one iteration per unit of fuel. -/
def fetch_loop (u : va_order) (expression : List Char) (externs : List symbol_t) :
    Nat → FetchState → Nat → Option (Node × Nat)
  | 0, _, _ => none
  | fuel + 1, st, position =>
    match charAt expression position with
    | none => none
    | some symbol =>
      if is_parse_end symbol then
        some ((merge u { st with last_binary_operation := '+' } .null).prev_addend, position)
      else if symbol = '+' ∨ symbol = '-' ∨ symbol = '*' then
        fetch_loop u expression externs fuel { st with last_binary_operation := symbol }
          (position + 1)
      else if symbol = '(' then
        match fetch u expression externs fuel (position + 1) with
        | none => none
        | some (subexpression, position) =>
          fetch_loop u expression externs fuel (merge u st (.braced subexpression)) (position + 1)
      else if symbol.isDigit then
        match fetch_value position expression with
        | none => none
        | some (number, position) =>
          fetch_loop u expression externs fuel (merge u st (.value (toInt32 number))) position
      else
        match fetch_extern u expression externs fuel position with
        | none => none
        | some (.null, position) => fetch_loop u expression externs fuel st position
        | some (operation, position) =>
          fetch_loop u expression externs fuel (merge u st operation) position
termination_by structural fuel => fuel

/-- The function `fetch`: the tree and the cursor it leaves. -/
def fetch (u : va_order) (expression : List Char) (externs : List symbol_t) :
    Nat → Nat → Option (Node × Nat)
  | 0, _ => none
  | fuel + 1, position => fetch_loop u expression externs fuel FetchState.init position
termination_by structural fuel => fuel

/-- The function `fetch_extern`. -/
def fetch_extern (u : va_order) (expression : List Char) (externs : List symbol_t) :
    Nat → Nat → Option (Node × Nat)
  | 0, _ => none
  | fuel + 1, position =>
    if expression.length < position then none
    else
      let extern_name := fetch_extern_name (expression.drop position)
      if MAX_LENGTH ≤ extern_name.length then none
      else
        match lookup_extern extern_name externs with
        | none => none
        | some extern_ptr =>
          if charAt expression (position + extern_name.length) = some '(' then
            fetch_extern_function u expression externs fuel extern_ptr []
              (position + extern_name.length + 1)
          else some (.externValue extern_ptr, position + extern_name.length)
termination_by structural fuel => fuel

/-- The function `fetch_extern_function`; `args` are the slots filled so far,
so `args_n` is `args.length`. -/
def fetch_extern_function (u : va_order) (expression : List Char) (externs : List symbol_t) :
    Nat → Nat → List Node → Nat → Option (Node × Nat)
  | 0, _, _, _ => none
  | fuel + 1, function_ptr, args, position =>
    if MAX_ARGS ≤ args.length then none
    else
      match fetch u expression externs fuel position with
      | none => none
      | some (arg, position) =>
        match charAt expression position with
        | none => none
        | some symbol =>
          if symbol = ')' then
            match create_extern_function_node u function_ptr (args ++ [arg]) with
            | none => none
            | some node => some (node, position + 1)
          else
            fetch_extern_function u expression externs fuel function_ptr (args ++ [arg])
              (position + 1)
termination_by structural fuel => fuel

end

/-! ## Instruction encodings -/

/-- The constant `ALWAYS`. -/
def ALWAYS : Nat := 0xE0000000

def R0 : Nat := 0
def R1 : Nat := 1
def R2 : Nat := 2
def R3 : Nat := 3
def R4 : Nat := 4
def R5 : Nat := 5
def R6 : Nat := 6
def R7 : Nat := 7
def SP : Nat := 13
def LR : Nat := 14

/-- The conversion to `instruction_t`, a `uint32_t`. -/
def instruction_t (w : Nat) : Nat := w % 4294967296

def push (mask : Nat) : Nat :=
  instruction_t (ALWAYS ||| (1 <<< 27) ||| (1 <<< 24) ||| (1 <<< 21) ||| (SP <<< 16) ||| mask)

def pop (mask : Nat) : Nat :=
  instruction_t (ALWAYS ||| (1 <<< 27) ||| (1 <<< 23) ||| (1 <<< 21) ||| (1 <<< 20) ||| (SP <<< 16) ||| mask)

def mov (dst src : Nat) : Nat :=
  instruction_t (ALWAYS ||| (1 <<< 24) ||| (1 <<< 23) ||| (1 <<< 21) ||| (dst <<< 12) ||| src)

/-- The helper `ldr`; as in the source, `src` is not used. -/
def ldr (dst _src : Nat) : Nat :=
  instruction_t (ALWAYS ||| (1 <<< 26) ||| (1 <<< 20) ||| (dst <<< 16) ||| (dst <<< 12))

def add (dst src : Nat) : Nat :=
  instruction_t (ALWAYS ||| (1 <<< 23) ||| (dst <<< 16) ||| (dst <<< 12) ||| src)

def sub (dst src : Nat) : Nat :=
  instruction_t (ALWAYS ||| (1 <<< 22) ||| (dst <<< 16) ||| (dst <<< 12) ||| src)

def mul (dst src : Nat) : Nat :=
  instruction_t (ALWAYS ||| (1 <<< 7) ||| (1 <<< 4) ||| (dst <<< 16) ||| (dst <<< 8) ||| src)

def default_push : Nat :=
  push ((1 <<< R4) ||| (1 <<< R5) ||| (1 <<< R6) ||| (1 <<< R7) ||| (1 <<< LR))

def default_pop : Nat :=
  pop ((1 <<< R4) ||| (1 <<< R5) ||| (1 <<< R6) ||| (1 <<< R7) ||| (1 <<< LR))

/-- The `for` loop of `mov_value`; `n` counts the iterations left (`4 - it`). -/
def mov_value_loop (dst value : Nat) : Nat → Nat → Nat → Nat → List Nat
  | 0, _, _, _ => []
  | n + 1, mask, rt, shift =>
    let val := (value &&& mask) >>> shift
    let rot := rt % 16
    instruction_t (ALWAYS ||| (1 <<< 25) ||| (1 <<< 24) ||| (1 <<< 23)
        ||| (dst <<< 16) ||| (dst <<< 12) ||| (rot <<< 8) ||| val)
      :: mov_value_loop dst value n ((mask <<< 8) % 4294967296)
          ((rt + 4294967296 - 4) % 4294967296) (shift + 8)

/-- The words written by `mov_value(dst, value, ..)`. -/
def mov_value (dst value : Nat) : List Nat :=
  instruction_t (ALWAYS ||| (1 <<< 25) ||| (1 <<< 24) ||| (1 <<< 23) ||| (1 <<< 21) ||| (dst <<< 12))
    :: mov_value_loop dst value 4 0xFF 16 0

/-! ## Emitter -/

/-- The words written by `compile_binary`, given the words that `compile`
writes for the two children. -/
def compile_binary (type : node_type_t) (lhs rhs : Option (List Nat)) : Option (List Nat) :=
  match rhs with
  | none => none
  | some rhs_words =>
    match lhs with
    | none => none
    | some lhs_words =>
      some (rhs_words ++ [mov R4 R0] ++ lhs_words ++ [mov R1 R4] ++
        (match type with
         | .EXPR_SUM => [add R0 R1]
         | .EXPR_SUB => [sub R0 R1]
         | .EXPR_MUL => [mul R0 R1]
         | _ => []))

/-- The words written by `compile_extern_value`. -/
def compile_extern_value (value_ptr : Nat) : List Nat :=
  mov_value R0 (value_ptr % 4294967296) ++ [ldr R0 R0]

/-- The first loop of `compile_extern_function`, from index `i` with `n`
iterations left; `args` holds, for each slot of the argument array, the words
that `compile` writes for it.  Reading a slot past the array has no result. -/
def compile_extern_function_args (args : List (Option (List Nat))) : Nat → Nat → Option (List Nat)
  | 0, _ => some []
  | n + 1, i =>
    match args.get? i with
    | some (some words) =>
      match compile_extern_function_args args n (i + 1) with
      | some rest => some (words ++ [mov (4 + i) R0] ++ rest)
      | none => none
    | _ => none

/-- The words written by `compile_extern_function`. -/
def compile_extern_function (function_ptr args_n : Nat) (args : List (Option (List Nat))) :
    Option (List Nat) :=
  match compile_extern_function_args args args_n 0 with
  | none => none
  | some words =>
    some (words ++ (List.range args_n).map (fun i => mov i (4 + i)) ++
      mov_value R4 (function_ptr % 4294967296) ++
      [push (1 <<< LR),
       instruction_t (ALWAYS ||| (1 <<< 24) ||| (1 <<< 21) ||| (0xFFF <<< 8) ||| (1 <<< 5) ||| (1 <<< 4) ||| R4),
       pop (1 <<< LR)])

/-- The words written by `compile_value`. -/
def compile_value (val : Int) : List Nat :=
  mov_value R0 (toUInt32 val)

/-- The words `compile` appends to the output buffer; a NULL node is
dereferenced, which has no result. -/
def compile : Node → Option (List Nat)
  | .null => none
  | .sum lhs rhs =>
    (compile_binary .EXPR_SUM (compile lhs) (compile rhs)).map
      (fun body => [default_push] ++ body ++ [default_pop])
  | .sub lhs rhs =>
    (compile_binary .EXPR_SUB (compile lhs) (compile rhs)).map
      (fun body => [default_push] ++ body ++ [default_pop])
  | .mul lhs rhs =>
    (compile_binary .EXPR_MUL (compile lhs) (compile rhs)).map
      (fun body => [default_push] ++ body ++ [default_pop])
  | .externValue value_ptr =>
    some ([default_push] ++ compile_extern_value value_ptr ++ [default_pop])
  | .externFunction function_ptr args_n arg0 arg1 arg2 arg3 =>
    (compile_extern_function function_ptr args_n
        [compile arg0, compile arg1, compile arg2, compile arg3]).map
      (fun body => [default_push] ++ body ++ [default_pop])
  | .value val =>
    some ([default_push] ++ compile_value val ++ [default_pop])
  | .braced subexpression =>
    (compile subexpression).map (fun body => [default_push] ++ body ++ [default_pop])

/-! ## Normaliser -/

/-- The first loop of `remove_spaces`: the number of characters before the
first NUL. -/
def strlen : List Char → Nat
  | [] => 0
  | c :: cs => if c = Char.ofNat 0 then 0 else strlen cs + 1

/-- The second loop of `remove_spaces` over the characters not yet read; the
buffer cells are `none` while they hold what `malloc` left there. -/
def remove_spaces_loop : List Char → List (Option Char) → Nat → List (Option Char)
  | [], spaceless_expression, _ => spaceless_expression
  | c :: cs, spaceless_expression, spaceless_pos =>
    if c = Char.ofNat 0 then spaceless_expression
    else if c ≠ ' ' then
      remove_spaces_loop cs (spaceless_expression.set spaceless_pos (some c)) (spaceless_pos + 1)
    else remove_spaces_loop cs spaceless_expression spaceless_pos

/-- The buffer `remove_spaces` returns: `pos + 1` cells, the kept characters
from its start, and the NUL stored at index `pos`, the length of the input. -/
def remove_spaces (expression : List Char) : List (Option Char) :=
  (remove_spaces_loop expression (List.replicate (strlen expression + 1) none) 0).set
    (strlen expression) (some (Char.ofNat 0))

/-- The C string held by a buffer: its characters up to the first NUL; there is
none when an uninitialised cell or the end of the buffer comes first. -/
def c_string : List (Option Char) → Option (List Char)
  | [] => none
  | none :: _ => none
  | some c :: cells =>
    if c = Char.ofNat 0 then some []
    else (c_string cells).map (fun cs => c :: cs)

/-! ## ARM (A32) semantics of the emitted instruction forms -/

/-- The registers, each a 32 bit value, and the memory, one word per address. -/
structure Machine where
  reg : Nat → Nat
  mem : Nat → Nat
  reg_lt : ∀ r, reg r < 4294967296

/-- Write a register (the value is reduced to 32 bits). -/
def Machine.setReg (σ : Machine) (r v : Nat) : Machine where
  reg := fun k => if k = r then v % 4294967296 else σ.reg k
  mem := σ.mem
  reg_lt := by
    intro k
    by_cases h : k = r
    · simp only [h, if_true]; exact Nat.mod_lt _ (by decide)
    · simp only [h, if_false]; exact σ.reg_lt k

/-- Store a word at an address (reduced to 32 bits). -/
def Machine.store (σ : Machine) (addr v : Nat) : Machine where
  reg := σ.reg
  mem := fun a => if a = addr % 4294967296 then v else σ.mem a
  reg_lt := σ.reg_lt

/-- The registers named by a 16 bit register list, lowest first. -/
def reg_list (mask : Nat) : List Nat :=
  (List.range 16).filter (fun r => mask.testBit r)

/-- Store the listed registers at ascending addresses from `addr`. -/
def store_multiple : List Nat → Nat → Machine → Machine
  | [], _, σ => σ
  | r :: rs, addr, σ => store_multiple rs (addr + 4) (σ.store addr (σ.reg r))

/-- Load the listed registers from ascending addresses from `addr`. -/
def load_multiple : List Nat → Nat → Machine → Machine
  | [], _, σ => σ
  | r :: rs, addr, σ => load_multiple rs (addr + 4) (σ.setReg r (σ.mem (addr % 4294967296)))

/-- Rotate a 32 bit value right. -/
def ror32 (x n : Nat) : Nat :=
  ((x % 4294967296) >>> (n % 32) ||| (x % 4294967296) <<< (32 - n % 32)) % 4294967296

/-- One instruction.  Decoded are the forms the emitter uses:
`STMDB Rn!, {list}` and `LDMIA Rn!, {list}`, `MUL`, and the data-processing
instructions `SUB`, `ADD`, `ORR`, `MOV` with a rotated 8 bit immediate or an
unshifted register as operand 2; all unconditional, none setting flags, none
naming the program counter.  Every other word has no result here. -/
def exec (w : Nat) (σ : Machine) : Option Machine :=
  if w / 2 ^ 28 ≠ 14 then none
  else if (w / 2 ^ 25) % 8 = 4 then
    let rn := (w / 2 ^ 16) % 16
    let list := reg_list (w % 2 ^ 16)
    if rn = 15 ∨ rn ∈ list ∨ 15 ∈ list then none
    else if (w / 2 ^ 20) % 32 = 18 then
      let addr := (σ.reg rn + 4294967296 - 4 * list.length) % 4294967296
      some ((store_multiple list addr σ).setReg rn addr)
    else if (w / 2 ^ 20) % 32 = 11 then
      some ((load_multiple list (σ.reg rn) σ).setReg rn (σ.reg rn + 4 * list.length))
    else none
  else if (w / 2 ^ 22) % 64 = 0 ∧ (w / 2 ^ 4) % 16 = 9 then
    let rd := (w / 2 ^ 16) % 16
    let rs := (w / 2 ^ 8) % 16
    let rm := w % 16
    if (w / 2 ^ 20) % 4 ≠ 0 ∨ (w / 2 ^ 12) % 16 ≠ 0 ∨ rd = 15 ∨ rs = 15 ∨ rm = 15 then none
    else some (σ.setReg rd (σ.reg rm * σ.reg rs))
  else if (w / 2 ^ 26) % 4 = 0 then
    let opcode := (w / 2 ^ 21) % 16
    let rn := (w / 2 ^ 16) % 16
    let rd := (w / 2 ^ 12) % 16
    if (w / 2 ^ 20) % 2 ≠ 0 ∨ rn = 15 ∨ rd = 15 then none
    else
      let operand2 : Option Nat :=
        if (w / 2 ^ 25) % 2 = 1 then some (ror32 (w % 256) (2 * ((w / 2 ^ 8) % 16)))
        else if (w / 2 ^ 4) % 256 = 0 ∧ w % 16 ≠ 15 then some (σ.reg (w % 16))
        else none
      match operand2 with
      | none => none
      | some op2 =>
        if opcode = 2 then some (σ.setReg rd (σ.reg rn + 4294967296 - op2))
        else if opcode = 4 then some (σ.setReg rd (σ.reg rn + op2))
        else if opcode = 12 then some (σ.setReg rd (σ.reg rn ||| op2))
        else if opcode = 13 then some (σ.setReg rd op2)
        else none
  else none

/-- Run a sequence of instruction words, one after the other. -/
def run : List Nat → Machine → Option Machine
  | [], σ => some σ
  | w :: ws, σ =>
    match exec w σ with
    | none => none
    | some σ1 => run ws σ1

/-- The value a tree stands for, modulo `2 ^ 32`, in the words of the
specification: `Add` is `+`, `Sub` is `lhs - rhs`, `Mul` is `*`, a literal is
its value and a parenthesised node is its child.  Nodes that reach outside
the program (extern values and functions) and NULL have no value here. -/
def denote : Node → Option Nat
  | .value val => some (toUInt32 val)
  | .braced e => denote e
  | .sum l r => (denote l).bind fun a => (denote r).map fun b => (a + b) % 4294967296
  | .sub l r => (denote l).bind fun a => (denote r).map fun b => (a + 4294967296 - b) % 4294967296
  | .mul l r => (denote l).bind fun a => (denote r).map fun b => (a * b) % 4294967296
  | _ => none

/-- Trees built only from `Literal`, `Add`, `Sub`, `Mul` and `Parenthesised`. -/
def arithmetic : Node → Bool
  | .value _ => true
  | .braced e => arithmetic e
  | .sum l r => arithmetic l && arithmetic r
  | .sub l r => arithmetic l && arithmetic r
  | .mul l r => arithmetic l && arithmetic r
  | _ => false

/-- The nesting depth of a tree: the number of nodes on its longest branch. -/
def depth : Node → Nat
  | .null => 0
  | .value _ => 1
  | .externValue _ => 1
  | .braced e => depth e + 1
  | .sum l r => max (depth l) (depth r) + 1
  | .sub l r => max (depth l) (depth r) + 1
  | .mul l r => max (depth l) (depth r) + 1
  | .externFunction _ _ a0 a1 a2 a3 => max (max (depth a0) (depth a1)) (max (depth a2) (depth a3)) + 1

/-- What the words of a node body do from every state: they run to the end,
leave `v` in R0, leave SP as it was, and leave the memory from the entry SP
upwards untouched as far as `d` nested frames of 20 bytes do not wrap around
the address space. -/
def BodyOK (b : List Nat) (d v : Nat) : Prop :=
  ∀ σ1 : Machine, ∃ σ2, run b σ1 = some σ2 ∧ σ2.reg 0 = v ∧ σ2.reg 13 = σ1.reg 13 ∧
    ∀ j, j + 20 * d < 4294967296 →
      σ2.mem ((σ1.reg 13 + j) % 4294967296) = σ1.mem ((σ1.reg 13 + j) % 4294967296)

/-- What the words of a whole node do from every state: as `BodyOK`, and
R4 to R7 and LR are as on entry. -/
def NodeOK (ws : List Nat) (d v : Nat) : Prop :=
  ∀ σ : Machine, ∃ σ', run ws σ = some σ' ∧ σ'.reg 0 = v ∧
    (σ'.reg 13 = σ.reg 13 ∧ σ'.reg 4 = σ.reg 4 ∧ σ'.reg 5 = σ.reg 5 ∧ σ'.reg 6 = σ.reg 6 ∧
      σ'.reg 7 = σ.reg 7 ∧ σ'.reg 14 = σ.reg 14) ∧
    ∀ j, j + 20 * d < 4294967296 →
      σ'.mem ((σ.reg 13 + j) % 4294967296) = σ.mem ((σ.reg 13 + j) % 4294967296)

/-- The decimal value of a digit string, in the words of the specification
(no reduction modulo `2 ^ 32`). -/
def decimal (d : List Char) : Nat :=
  d.foldl (fun n c => 10 * n + (c.toNat - 48)) 0

/-- The node `fetch` builds for the digit string `d`:
`create_node(EXPR_VALUE, fetch_value(..))`. -/
def literal (d : List Char) : Node :=
  .value (toInt32 (decimal d % 4294967296))

/-- Whether `f` is a non-empty string of decimal digits. -/
def is_digits (f : List Char) : Bool :=
  !f.isEmpty && f.all Char.isDigit

/-- The text `*f1*f2...` of the factors that follow the first one of a term. -/
def factors_text : List (List Char) → List Char
  | [] => []
  | f :: fs => '*' :: f ++ factors_text fs

/-- The text `f1*f2*...*fm` of a term, given as its first factor and the others. -/
def term_text (t : List Char × List (List Char)) : List Char :=
  t.1 ++ factors_text t.2

/-- The tree of a term: the left fold over its literals of the Mul node that
`create_node` builds from the earlier result and the next literal. -/
def term_tree (u : va_order) (t : List Char × List (List Char)) : Node :=
  t.2.foldl (fun acc f => create_binary_node u .EXPR_MUL acc (literal f)) (literal t.1)

/-- Whether every factor of a term is a non-empty digit string. -/
def term_ok (t : List Char × List (List Char)) : Bool :=
  is_digits t.1 && t.2.all is_digits

/-- The text `o1 t2 o2 t3 ...` of the terms that follow the first one. -/
def terms_text : List (Char × (List Char × List (List Char))) → List Char
  | [] => []
  | ot :: rest => ot.1 :: term_text ot.2 ++ terms_text rest

/-- The text `t1 o1 t2 ... tn` of an expression, given as its first term and
the following operators and terms. -/
def expr_text (e : (List Char × List (List Char)) ×
    List (Char × (List Char × List (List Char)))) : List Char :=
  term_text e.1 ++ terms_text e.2

/-- The tree of an expression: the left fold over the trees of its terms of
the Sum or Sub node, chosen by the operator, that `create_node` builds from the
earlier result and the next term. -/
def expr_tree (u : va_order) (e : (List Char × List (List Char)) ×
    List (Char × (List Char × List (List Char)))) : Node :=
  e.2.foldl (fun acc ot =>
    if ot.1 = '+' then create_binary_node u .EXPR_SUM acc (term_tree u ot.2)
    else create_binary_node u .EXPR_SUB acc (term_tree u ot.2))
    (term_tree u e.1)

/-- Whether every operator is `'+'` or `'-'` and every term is well formed. -/
def expr_ok (e : (List Char × List (List Char)) ×
    List (Char × (List Char × List (List Char)))) : Bool :=
  term_ok e.1 && e.2.all (fun ot => (ot.1 = '+' || ot.1 = '-') && term_ok ot.2)

/-- The factors of the grammar, each with the tree the parser builds for it
under the symbol table `x`: a literal (a non-empty digit string), an extern
value (an identifier of the table that fits the name buffer), and a
parenthesised group `(e)` around a text `e` that `fetch` parses to its end. -/
inductive Factor (u : va_order) (x : List symbol_t) : List Char → Node → Prop where
  | literal (d : List Char) (hd : is_digits d = true) : Factor u x d (literal d)
  | extern_value (name : List Char) (p : Nat) (hne : name ≠ [])
      (halnum : ∀ c ∈ name, c.isAlphanum = true)
      (hfirst : ∀ c rest, name = c :: rest → c.isDigit = false)
      (hlen : name.length < MAX_LENGTH)
      (hlook : lookup_extern name x = some p) : Factor u x name (.externValue p)
  | group (e : List Char) (t : Node) (fuel : Nat)
      (he : fetch u e x fuel 0 = some (t, e.length)) : Factor u x ('(' :: e ++ [')']) (.braced t)

/-- The text `e1,e2,...,ek` of an argument list. -/
def args_text : List (List Char) → List Char
  | [] => []
  | [e] => e
  | e :: es => e ++ ',' :: args_text es

/-- What `fetch` returns when it meets a terminator in state `st`. -/
def pending (u : va_order) (st : FetchState) : Node :=
  (merge u { st with last_binary_operation := '+' } .null).prev_addend

/-- Whether the text after an expression lets it end there: nothing, or a
text that starts with `')'` or `','`. -/
def ends_expression : List Char → Bool
  | [] => true
  | c :: _ => c = ')' || c = ','

/-- A machine state whose stack pointer is 8, so that the first frame pushed
wraps around address zero; register `r` holds `r` otherwise. -/
def sample_machine : Machine where
  reg := fun r => if r = 13 then 8 else r % 16
  mem := fun _ => 0
  reg_lt := by
    intro r
    dsimp only
    split <;> omega

/-! ## The entry point -/

/-- What `fetch` can read in a buffer: the characters before the first NUL or
the first cell never written, and whether it was a NUL that ended them. -/
def buffer_text : List (Option Char) → List Char × Bool
  | [] => ([], false)
  | none :: _ => ([], false)
  | some c :: cells =>
    if c = Char.ofNat 0 then ([], true)
    else (c :: (buffer_text cells).1, (buffer_text cells).2)

/-- The call `fetch(&position, buffer, externs)` with `position = 0` on a buffer
that may hold cells never written.  `fetch` reads no cell beyond the cursor it
leaves, so the call is defined when a NUL ends the text that was written, or
when the cursor it leaves is before the first cell never written. -/
def fetch_buffer (u : va_order) (buffer : List (Option Char)) (externs : List symbol_t)
    (fuel : Nat) : Option (Node × Nat) :=
  match fetch u (buffer_text buffer).1 externs fuel 0 with
  | none => none
  | some (tree, position) =>
    if (buffer_text buffer).2 = true ∨ position < (buffer_text buffer).1.length then
      some (tree, position)
    else none

/-- The words `jit_compile_expression_to_arm` writes, in order, from the start
of `out_buffer` on (the buffer is the caller's and is taken to be large enough). -/
def jit_compile_expression_to_arm (u : va_order) (expression : List Char)
    (externs : List symbol_t) (fuel : Nat) : Option (List Nat) :=
  match fetch_buffer u (remove_spaces expression) externs fuel with
  | none => none
  | some (tree, _) =>
    match compile tree with
    | none => none
    | some words => some (words ++ [instruction_t (ALWAYS ||| 0x12FFF1E)])

/-! ## Vocabulary of the properties of the emitted code -/

/-- Trees `compile` can walk: no NULL among the nodes it visits, and at most
`MAX_ARGS` arguments in every ExternFunction (the slots past `args_n` are not
visited). -/
def well_formed : Node → Bool
  | .null => false
  | .value _ => true
  | .externValue _ => true
  | .braced e => well_formed e
  | .sum l r => well_formed l && well_formed r
  | .sub l r => well_formed l && well_formed r
  | .mul l r => well_formed l && well_formed r
  | .externFunction _ n a0 a1 a2 a3 =>
    decide (n ≤ 4) &&
      ([well_formed a0, well_formed a1, well_formed a2, well_formed a3].take n).all id

/-- The number of nodes of a tree (the arguments of an ExternFunction are its
first `args_n` slots). -/
def nodes : Node → Nat
  | .null => 0
  | .value _ => 1
  | .externValue _ => 1
  | .braced e => nodes e + 1
  | .sum l r => nodes l + nodes r + 1
  | .sub l r => nodes l + nodes r + 1
  | .mul l r => nodes l + nodes r + 1
  | .externFunction _ n a0 a1 a2 a3 => ([nodes a0, nodes a1, nodes a2, nodes a3].take n).sum + 1

/-- The word count `W` of the specification: 7 for a Literal, 8 for an
ExternValue, `W(e) + 2` for Parenthesised, `W(l) + W(r) + 5` for Add, Sub and
Mul, and `10 + 2k + W(a1) + ... + W(ak)` for an ExternFunction of `k` arguments. -/
def word_count : Node → Nat
  | .null => 0
  | .value _ => 7
  | .externValue _ => 8
  | .braced e => word_count e + 2
  | .sum l r => word_count l + word_count r + 5
  | .sub l r => word_count l + word_count r + 5
  | .mul l r => word_count l + word_count r + 5
  | .externFunction _ n a0 a1 a2 a3 =>
    10 + 2 * n + ([word_count a0, word_count a1, word_count a2, word_count a3].take n).sum

/-- The words of the first loop of `compile_extern_function` in the words of
the specification: for each argument, from index `i` on, its words and then
`mov r(4+i), r0`. -/
def stage_args : List (List Nat) → Nat → List Nat
  | [], _ => []
  | words :: rest, i => words ++ [0xE1A00000 ||| ((4 + i) <<< 12)] ++ stage_args rest (i + 1)

/-- The words of the second loop of `compile_extern_function` in the words of
the specification: `mov r(i), r(4+i)` for `i` below `k`. -/
def move_args (k : Nat) : List Nat :=
  (List.range k).map (fun i => 0xE1A00000 ||| (i <<< 12) ||| (4 + i))

/-- The push and pop words of a word list are well nested with `k` pairs: `k`
words `push {r4-r7,lr}`, `k` words `pop {r4-r7,lr}`, and no prefix with more
pops than pushes. -/
def well_nested (ws : List Nat) (k : Nat) : Prop :=
  ws.count 0xE92D40F0 = k ∧ ws.count 0xE8BD40F0 = k ∧
    ∀ n, (ws.take n).count 0xE8BD40F0 ≤ (ws.take n).count 0xE92D40F0

/-! ## The emitted code on the machine -/

theorem default_push_eq : default_push = 0xE92D40F0 := by decide

theorem default_pop_eq : default_pop = 0xE8BD40F0 := by decide

theorem run_append (a b : List Nat) (σ : Machine) :
    run (a ++ b) σ = (run a σ).bind (run b) := by
  induction a generalizing σ with
  | nil => rfl
  | cons w ws ih =>
    simp only [List.cons_append, run]
    cases exec w σ with
    | none => rfl
    | some σ1 => exact ih σ1

theorem exec_push (σ : Machine) :
    exec 0xE92D40F0 σ =
      some ((store_multiple [4, 5, 6, 7, 14] ((σ.reg 13 + 4294967296 - 20) % 4294967296) σ).setReg 13
        ((σ.reg 13 + 4294967296 - 20) % 4294967296)) := by
  rfl

theorem exec_pop (σ : Machine) :
    exec 0xE8BD40F0 σ =
      some ((load_multiple [4, 5, 6, 7, 14] (σ.reg 13) σ).setReg 13 (σ.reg 13 + 20)) := by
  rfl

theorem run_cons (w : Nat) (ws : List Nat) (σ : Machine) :
    run (w :: ws) σ = (exec w σ).bind (run ws) := by
  simp only [run]
  cases exec w σ <;> rfl

theorem node_of_body (b : List Nat) (d v : Nat) (hb : BodyOK b d v)
    (hd : 20 * (d + 1) ≤ 4294967296) :
    NodeOK ([default_push] ++ b ++ [default_pop]) (d + 1) v := by
  intro σ
  have hlt := σ.reg_lt 13
  obtain ⟨σ2, h2, hr0, hsp, hmem⟩ := hb ((store_multiple [4, 5, 6, 7, 14]
    ((σ.reg 13 + 4294967296 - 20) % 4294967296) σ).setReg 13
        ((σ.reg 13 + 4294967296 - 20) % 4294967296))
  rw [default_push_eq, default_pop_eq, List.append_assoc, List.singleton_append, run_cons,
    exec_push, Option.bind, run_append, h2, Option.bind, run_cons, exec_pop, Option.bind, run]
  simp only [store_multiple, Machine.store, Machine.setReg, if_true] at hsp hmem
  have aux : ∀ y x r, y = x → σ2.mem x = σ.reg r → σ2.mem y % 4294967296 = σ.reg r := by
    intro y x r e hx
    subst e
    rw [hx]
    exact Nat.mod_eq_of_lt (σ.reg_lt r)
  refine ⟨_, rfl, ?_, ?_, ?_⟩
  · simp [Machine.setReg, load_multiple, hr0]
  · simp only [Machine.setReg, load_multiple, hsp]
    simp
    refine ⟨by omega, ?_, ?_, ?_, ?_, ?_⟩
    · have h := hmem 0 (by omega)
      rw [if_neg (by omega), if_neg (by omega), if_neg (by omega), if_neg (by omega),
        if_pos (by omega)] at h
      exact aux _ _ _ (by omega) h
    · have h := hmem 4 (by omega)
      rw [if_neg (by omega), if_neg (by omega), if_neg (by omega), if_pos (by omega)] at h
      exact aux _ _ _ (by omega) h
    · have h := hmem 8 (by omega)
      rw [if_neg (by omega), if_neg (by omega), if_pos (by omega)] at h
      exact aux _ _ _ (by omega) h
    · have h := hmem 12 (by omega)
      rw [if_neg (by omega), if_pos (by omega)] at h
      exact aux _ _ _ (by omega) h
    · have h := hmem 16 (by omega)
      rw [if_pos (by omega)] at h
      exact aux _ _ _ (by omega) h
  · intro j hj
    simp only [Machine.setReg, load_multiple, hsp]
    have h := hmem (j + 20) (by omega)
    rw [if_neg (by omega), if_neg (by omega), if_neg (by omega), if_neg (by omega),
      if_neg (by omega)] at h
    rw [show (σ.reg 13 + j) % 4294967296 =
      ((σ.reg 13 + 4294967296 - 20) % 4294967296 % 4294967296 + (j + 20)) % 4294967296 from by omega]
    exact h

theorem mov_value_R0_words (v : Nat) :
    mov_value 0 v =
      [0xE3A00000,
       (0xE3800000 ||| (v &&& 0xFF) >>> 0) % 4294967296,
       (0xE3800C00 ||| (v &&& 0xFF00) >>> 8) % 4294967296,
       (0xE3800800 ||| (v &&& 0xFF0000) >>> 16) % 4294967296,
       (0xE3800400 ||| (v &&& 0xFF000000) >>> 24) % 4294967296] := by
  rfl

theorem byte_extract (v k : Nat) : (v &&& (255 <<< k)) >>> k = (v / 2 ^ k) % 256 := by
  apply Nat.eq_of_testBit_eq
  intro i
  rw [show (255 : Nat) = 2 ^ 8 - 1 from rfl, show (256 : Nat) = 2 ^ 8 from rfl,
    ← Nat.shiftRight_eq_div_pow]
  simp only [Nat.testBit_shiftRight, Nat.testBit_and, Nat.testBit_shiftLeft,
    Nat.testBit_two_pow_sub_one, Nat.testBit_mod_two_pow]
  have h1 : k + i ≥ k := by omega
  have h2 : k + i - k = i := by omega
  simp only [h1, h2, decide_True, Bool.true_and]
  exact Bool.and_comm _ _

theorem or_low_byte (k b : Nat) (hb : b < 256) : 256 * k ||| b = 256 * k + b := by
  have h := Nat.mul_add_lt_is_or (i := 8) (b := b) (by simpa using hb) k
  simpa using h.symm

theorem exec_orr_imm_R0 (rot b : Nat) (hrot : rot < 16) (hb : b < 256) (σ : Machine) :
    exec (0xE3800000 + 256 * rot + b) σ = some (σ.setReg 0 (σ.reg 0 ||| ror32 b (2 * rot))) := by
  have h1 : (3816816640 + 256 * rot + b) / 268435456 = 14 := by omega
  have h2 : (3816816640 + 256 * rot + b) / 33554432 % 8 = 1 := by omega
  have h3 : (3816816640 + 256 * rot + b) / 4194304 % 64 = 14 := by omega
  have h4 : (3816816640 + 256 * rot + b) / 67108864 % 4 = 0 := by omega
  have h5 : (3816816640 + 256 * rot + b) / 2097152 % 16 = 12 := by omega
  have h6 : (3816816640 + 256 * rot + b) / 65536 % 16 = 0 := by omega
  have h7 : (3816816640 + 256 * rot + b) / 4096 % 16 = 0 := by omega
  have h8 : (3816816640 + 256 * rot + b) / 1048576 % 2 = 0 := by omega
  have h9 : (3816816640 + 256 * rot + b) / 33554432 % 2 = 1 := by omega
  have h10 : (3816816640 + 256 * rot + b) % 256 = b := by omega
  have h11 : (3816816640 + 256 * rot + b) / 256 % 16 = rot := by omega
  simp [exec, h1, h2, h3, h4, h5, h6, h7, h8, h9, h10, h11]

theorem ror32_zero (b : Nat) (hb : b < 256) : ror32 b 0 = b := by
  have h : 4294967296 * b ||| b = 4294967296 * b + b :=
    (Nat.mul_add_lt_is_or (i := 32) (b := b) (by simp; omega) b).symm
  simp only [ror32, Nat.zero_mod, Nat.shiftRight_zero, Nat.sub_zero, Nat.shiftLeft_eq]
  rw [Nat.mod_eq_of_lt (by omega : b < 4294967296), Nat.lor_comm,
    show b * 2 ^ 32 = 4294967296 * b from by omega, h]
  omega

theorem ror32_byte (b n : Nat) (hb : b < 256) (hn : n = 8 ∨ n = 16 ∨ n = 24) :
    ror32 b n = b * 2 ^ (32 - n) := by
  have hM : b % 4294967296 = b := Nat.mod_eq_of_lt (by omega)
  rcases hn with h | h | h <;> subst h <;>
    simp only [ror32, hM, Nat.shiftRight_eq_div_pow, Nat.shiftLeft_eq] <;>
    rw [show b / 2 ^ (_ % 32) = 0 from Nat.div_eq_of_lt (by simp; omega)] <;>
    simp only [Nat.zero_or] <;> norm_num <;> omega

theorem run_mov_value_R0 (v : Nat) (hv : v < 4294967296) (σ : Machine) :
    ∃ σ', run (mov_value 0 v) σ = some σ' ∧ σ'.reg 0 = v ∧
      (∀ r, r ≠ 0 → σ'.reg r = σ.reg r) ∧ σ'.mem = σ.mem := by
  have e0 : (v &&& 0xFF) >>> 0 = v / 2 ^ 0 % 256 := byte_extract v 0
  have e1 : (v &&& 0xFF00) >>> 8 = v / 2 ^ 8 % 256 := byte_extract v 8
  have e2 : (v &&& 0xFF0000) >>> 16 = v / 2 ^ 16 % 256 := byte_extract v 16
  have e3 : (v &&& 0xFF000000) >>> 24 = v / 2 ^ 24 % 256 := byte_extract v 24
  have w0 : exec 0xE3A00000 σ = some (σ.setReg 0 0) := by rfl
  rw [mov_value_R0_words, e0, e1, e2, e3]
  rw [show (0xE3800000 : Nat) = 256 * 14909440 from rfl, show (0xE3800C00 : Nat) = 256 * 14909452 from rfl,
    show (0xE3800800 : Nat) = 256 * 14909448 from rfl, show (0xE3800400 : Nat) = 256 * 14909444 from rfl,
    or_low_byte _ _ (Nat.mod_lt _ (by decide)), or_low_byte _ _ (Nat.mod_lt _ (by decide)),
    or_low_byte _ _ (Nat.mod_lt _ (by decide)), or_low_byte _ _ (Nat.mod_lt _ (by decide))]
  have hb0 : v / 2 ^ 0 % 256 < 256 := Nat.mod_lt _ (by decide)
  have hb1 : v / 2 ^ 8 % 256 < 256 := Nat.mod_lt _ (by decide)
  have hb2 : v / 2 ^ 16 % 256 < 256 := Nat.mod_lt _ (by decide)
  have hb3 : v / 2 ^ 24 % 256 < 256 := Nat.mod_lt _ (by decide)
  have hsum : v / 2 ^ 0 % 256 + 256 * (v / 2 ^ 8 % 256) + 65536 * (v / 2 ^ 16 % 256) +
      16777216 * (v / 2 ^ 24 % 256) = v := by
    norm_num
    omega
  generalize v / 2 ^ 0 % 256 = b0 at *
  generalize v / 2 ^ 8 % 256 = b1 at *
  generalize v / 2 ^ 16 % 256 = b2 at *
  generalize v / 2 ^ 24 % 256 = b3 at *
  rw [show (256 * 14909440 + b0) % 4294967296 = 0xE3800000 + 256 * 0 + b0 from by omega,
    show (256 * 14909452 + b1) % 4294967296 = 0xE3800000 + 256 * 12 + b1 from by omega,
    show (256 * 14909448 + b2) % 4294967296 = 0xE3800000 + 256 * 8 + b2 from by omega,
    show (256 * 14909444 + b3) % 4294967296 = 0xE3800000 + 256 * 4 + b3 from by omega]
  simp only [run, w0, exec_orr_imm_R0 0 _ (by decide) hb0, exec_orr_imm_R0 12 _ (by decide) hb1,
    exec_orr_imm_R0 8 _ (by decide) hb2, exec_orr_imm_R0 4 _ (by decide) hb3]
  refine ⟨_, rfl, ?_, ?_, rfl⟩
  · simp only [Machine.setReg, if_true, ror32_zero _ hb0, ror32_byte _ 24 hb1 (by simp),
      ror32_byte _ 16 hb2 (by simp), ror32_byte _ 8 hb3 (by simp), Nat.zero_mod, Nat.zero_or]
    have s1 : b0 ||| b1 * 256 = 256 * b1 + b0 := by
      rw [Nat.lor_comm, Nat.mul_comm]
      exact (Nat.mul_add_lt_is_or (i := 8) (show b0 < 2 ^ 8 by omega) b1).symm
    have s2 : (256 * b1 + b0) ||| b2 * 65536 = 65536 * b2 + (256 * b1 + b0) := by
      rw [Nat.lor_comm, Nat.mul_comm]
      exact (Nat.mul_add_lt_is_or (i := 16) (show 256 * b1 + b0 < 2 ^ 16 by omega) b2).symm
    have s3 : (65536 * b2 + (256 * b1 + b0)) ||| b3 * 16777216 =
        16777216 * b3 + (65536 * b2 + (256 * b1 + b0)) := by
      rw [Nat.lor_comm, Nat.mul_comm]
      exact (Nat.mul_add_lt_is_or (i := 24) (show 65536 * b2 + (256 * b1 + b0) < 2 ^ 24 by omega) b3).symm
    norm_num
    rw [Nat.mod_eq_of_lt (show b0 < 4294967296 by omega), s1,
      Nat.mod_eq_of_lt (show 256 * b1 + b0 < 4294967296 by omega), s2,
      Nat.mod_eq_of_lt (show 65536 * b2 + (256 * b1 + b0) < 4294967296 by omega), s3]
    omega
  · intro r hr
    simp [Machine.setReg, hr]

theorem NodeOK.mono {ws : List Nat} {d d' v : Nat} (h : NodeOK ws d v) (hd : d ≤ d') :
    NodeOK ws d' v := by
  intro σ
  obtain ⟨σ', h1, h2, h3, h4⟩ := h σ
  exact ⟨σ', h1, h2, h3, fun j hj => h4 j (by
    have : 20 * d ≤ 20 * d' := Nat.mul_le_mul_left 20 hd
    omega)⟩

theorem NodeOK.body {ws : List Nat} {d v : Nat} (h : NodeOK ws d v) : BodyOK ws d v := by
  intro σ
  obtain ⟨σ', h1, h2, h3, h4⟩ := h σ
  exact ⟨σ', h1, h2, h3.1, h4⟩

theorem body_value (val : Int) : BodyOK (compile_value val) 0 (toUInt32 val) := by
  intro σ
  have hv : toUInt32 val < 4294967296 := by
    unfold toUInt32
    omega
  obtain ⟨σ', h1, h2, h3, h4⟩ := run_mov_value_R0 (toUInt32 val) hv σ
  refine ⟨σ', h1, h2, h3 13 (by decide), ?_⟩
  intro j _
  rw [h4]

theorem body_binary (opword : Nat) (f : Nat → Nat → Nat)
    (hexec : ∀ σ : Machine, exec opword σ = some (σ.setReg 0 (f (σ.reg 0) (σ.reg 1))))
    (r l : List Nat) (dr dl vr vl : Nat) (hr : NodeOK r dr vr) (hl : NodeOK l dl vl) :
    BodyOK (r ++ [mov R4 R0] ++ l ++ [mov R1 R4] ++ [opword]) (max dl dr) (f vl vr % 4294967296) := by
  intro σ1
  obtain ⟨σ2, r1, r2, r3, r4⟩ := hr σ1
  obtain ⟨σ4, l1, l2, l3, l4⟩ := hl (σ2.setReg 4 (σ2.reg 0))
  have m1 : ∀ σ : Machine, exec (mov R4 R0) σ = some (σ.setReg 4 (σ.reg 0)) := fun _ => rfl
  have m2 : ∀ σ : Machine, exec (mov R1 R4) σ = some (σ.setReg 1 (σ.reg 4)) := fun _ => rfl
  have hvr : σ2.reg 0 % 4294967296 = vr := by
    rw [Nat.mod_eq_of_lt (σ2.reg_lt 0), r2]
  simp only [run_append, r1, Option.bind, run_cons, m1, m2, l1, hexec, run]
  refine ⟨_, rfl, ?_, ?_, ?_⟩
  · simp only [Machine.setReg] at l3 ⊢
    simp at l3 ⊢
    have hlt : vr < 4294967296 := r2 ▸ σ2.reg_lt 0
    rw [l2, l3.2.1, hvr, Nat.mod_eq_of_lt hlt]
  · simp only [Machine.setReg] at l3 ⊢
    simp at l3 ⊢
    rw [l3.1, r3.1]
  · intro j hj
    simp only [Machine.setReg] at l4 ⊢
    have hj1 : j + 20 * dl < 4294967296 := by
      have : 20 * dl ≤ 20 * max dl dr := Nat.mul_le_mul_left 20 (le_max_left _ _)
      omega
    have hj2 : j + 20 * dr < 4294967296 := by
      have : 20 * dr ≤ 20 * max dl dr := Nat.mul_le_mul_left 20 (le_max_right _ _)
      omega
    have e := l4 j hj1
    simp only [if_neg (show ¬ (13 = 4) by decide)] at e
    rw [← r3.1, e, r3.1, r4 j hj2]

theorem compile_arithmetic (t : Node) (ha : arithmetic t = true)
    (hd : 20 * depth t ≤ 4294967296) :
    ∃ ws v, compile t = some ws ∧ denote t = some v ∧ NodeOK ws (depth t) v := by
  induction t with
  | null => simp [arithmetic] at ha
  | externValue p => simp [arithmetic] at ha
  | externFunction p n a0 a1 a2 a3 => simp [arithmetic] at ha
  | value val =>
    exact ⟨_, _, rfl, rfl, node_of_body _ 0 _ (body_value val) (by decide)⟩
  | braced e ih =>
    simp only [arithmetic] at ha
    simp only [depth] at hd
    obtain ⟨ws, v, h1, h2, h3⟩ := ih ha (by omega)
    refine ⟨_, v, ?_, ?_, node_of_body ws (depth e) v h3.body hd⟩
    · simp [compile, h1]
    · simp [denote, h2]
  | sum l r ihl ihr =>
    simp only [arithmetic, Bool.and_eq_true] at ha
    simp only [depth] at hd
    have hl := le_max_left (depth l) (depth r)
    have hr := le_max_right (depth l) (depth r)
    obtain ⟨wl, vl, l1, l2, l3⟩ := ihl ha.1 (by omega)
    obtain ⟨wr, vr, r1, r2, r3⟩ := ihr ha.2 (by omega)
    refine ⟨_, (vl + vr) % 4294967296, ?_, ?_, node_of_body _ _ _
      (body_binary (add R0 R1) (fun a b => a + b) (fun _ => rfl) wr wl _ _ _ _ r3 l3) hd⟩
    · simp [compile, compile_binary, l1, r1]
    · simp [denote, l2, r2]
  | sub l r ihl ihr =>
    simp only [arithmetic, Bool.and_eq_true] at ha
    simp only [depth] at hd
    have hl := le_max_left (depth l) (depth r)
    have hr := le_max_right (depth l) (depth r)
    obtain ⟨wl, vl, l1, l2, l3⟩ := ihl ha.1 (by omega)
    obtain ⟨wr, vr, r1, r2, r3⟩ := ihr ha.2 (by omega)
    refine ⟨_, (vl + 4294967296 - vr) % 4294967296, ?_, ?_, node_of_body _ _ _
      (body_binary (sub R0 R1) (fun a b => a + 4294967296 - b) (fun _ => rfl) wr wl _ _ _ _ r3 l3) hd⟩
    · simp [compile, compile_binary, l1, r1]
    · simp [denote, l2, r2]
  | mul l r ihl ihr =>
    simp only [arithmetic, Bool.and_eq_true] at ha
    simp only [depth] at hd
    have hl := le_max_left (depth l) (depth r)
    have hr := le_max_right (depth l) (depth r)
    obtain ⟨wl, vl, l1, l2, l3⟩ := ihl ha.1 (by omega)
    obtain ⟨wr, vr, r1, r2, r3⟩ := ihr ha.2 (by omega)
    have h := node_of_body _ _ _
      (body_binary (mul R0 R1) (fun a b => b * a) (fun _ => rfl) wr wl _ _ _ _ r3 l3) hd
    simp only [Nat.mul_comm vr vl] at h
    refine ⟨_, (vl * vr) % 4294967296, ?_, ?_, h⟩
    · simp [compile, compile_binary, l1, r1]
    · simp [denote, l2, r2]

/-- C1: for every tree built only from Literal, Add, Sub, Mul and Parenthesised
nodes, whose nested 20 byte stack frames fit the 32 bit address space, `compile`
emits words, and running them from any machine state ends with R0 equal to the
value of the tree modulo `2 ^ 32` and with SP, R4 to R7 and LR as on entry. -/
theorem C1_compile_evaluates (t : Node) (ha : arithmetic t = true)
    (hd : 20 * depth t ≤ 4294967296) (σ : Machine) :
    ∃ ws v σ', compile t = some ws ∧ denote t = some v ∧ run ws σ = some σ' ∧
      σ'.reg R0 = v ∧ σ'.reg SP = σ.reg SP ∧ σ'.reg R4 = σ.reg R4 ∧ σ'.reg R5 = σ.reg R5 ∧
      σ'.reg R6 = σ.reg R6 ∧ σ'.reg R7 = σ.reg R7 ∧ σ'.reg LR = σ.reg LR := by
  obtain ⟨ws, v, h1, h2, h3⟩ := compile_arithmetic t ha hd
  obtain ⟨σ', r1, r2, r3, _⟩ := h3 σ
  exact ⟨ws, v, σ', h1, h2, r1, r2, r3.1, r3.2.1, r3.2.2.1, r3.2.2.2.1, r3.2.2.2.2.1, r3.2.2.2.2.2⟩

/-- C1 at the tree of `2 - 3 * (4)` and a machine with `SP = 8`, where the
stack wraps around address zero. -/
theorem C1_compile_evaluates_witness :
    arithmetic (.sub (.value 2) (.mul (.value 3) (.braced (.value 4)))) = true ∧
    20 * depth (.sub (.value 2) (.mul (.value 3) (.braced (.value 4)))) ≤ 4294967296 ∧
    denote (.sub (.value 2) (.mul (.value 3) (.braced (.value 4)))) = some 4294967286 ∧
    ∃ ws v σ', compile (.sub (.value 2) (.mul (.value 3) (.braced (.value 4)))) = some ws ∧
      denote (.sub (.value 2) (.mul (.value 3) (.braced (.value 4)))) = some v ∧
      run ws sample_machine = some σ' ∧
      σ'.reg R0 = v ∧ σ'.reg SP = 8 ∧ σ'.reg R4 = 4 ∧ σ'.reg R5 = 5 ∧
      σ'.reg R6 = 6 ∧ σ'.reg R7 = 7 ∧ σ'.reg LR = 14 :=
  ⟨by decide, by decide, by decide,
    C1_compile_evaluates (.sub (.value 2) (.mul (.value 3) (.braced (.value 4)))) (by decide)
      (by decide) sample_machine⟩

/-! ## The parser -/

theorem create_binary_node_ne_null (u : va_order) (type : node_type_t) (first second : Node) :
    create_binary_node u type first second ≠ Node.null := by
  unfold create_binary_node
  cases type <;> cases u.binary_in_order <;> simp

/-- The binary node `create_node` builds when its two reads happen in order. -/
theorem create_binary_node_in_order {u : va_order} (h : u.binary_in_order = true)
    (first second : Node) :
    create_binary_node u .EXPR_SUM first second = .sum first second ∧
    create_binary_node u .EXPR_SUB first second = .sub first second ∧
    create_binary_node u .EXPR_MUL first second = .mul first second := by
  simp [create_binary_node, h]

/-- The binary node `create_node` builds when its second read happens first. -/
theorem create_binary_node_reversed {u : va_order} (h : u.binary_in_order = false)
    (first second : Node) :
    create_binary_node u .EXPR_SUM first second = .sum second first ∧
    create_binary_node u .EXPR_SUB first second = .sub second first ∧
    create_binary_node u .EXPR_MUL first second = .mul second first := by
  simp [create_binary_node, h]

theorem create_extern_function_node_in_order {u : va_order} (h : u.function_in_order = true)
    (ptr : Nat) (args : List Node) :
    create_extern_function_node u ptr args =
      some (.externFunction ptr args.length (args.getD 0 .null) (args.getD 1 .null)
        (args.getD 2 .null) (args.getD 3 .null)) := by
  simp [create_extern_function_node, h]

theorem create_extern_function_node_reversed {u : va_order} (h : u.function_in_order = false)
    (ptr : Nat) (args : List Node) : create_extern_function_node u ptr args = none := by
  simp [create_extern_function_node, h]

theorem charAt_lt {s : List Char} {p : Nat} (h : p < s.length) :
    charAt s p = some (s.get ⟨p, h⟩) := by
  simp [charAt, h, List.getElem?_eq_getElem]

theorem charAt_length (s : List Char) : charAt s s.length = some (Char.ofNat 0) := by
  simp [charAt]

theorem charAt_gt {s : List Char} {p : Nat} (h : s.length < p) : charAt s p = none := by
  have h1 : ¬ p < s.length := by omega
  have h2 : ¬ p = s.length := by omega
  simp [charAt, h1, h2]

theorem charAt_append_cons (pre : List Char) (c : Char) (rest : List Char) :
    charAt (pre ++ c :: rest) pre.length = some c := by
  have h : pre.length < (pre ++ c :: rest).length := by simp
  rw [charAt_lt h]
  simp [List.getElem_append_right]

theorem charAt_frame_lt (pre s post : List Char) {p : Nat} (h : p < s.length) :
    charAt (pre ++ s ++ post) (pre.length + p) = charAt s p := by
  have h1 : pre.length + p < (pre ++ s ++ post).length := by
    simp only [List.length_append]
    omega
  rw [charAt_lt h, charAt_lt h1]
  simp [List.getElem_append_left, List.getElem_append_right, h]

theorem fetch_loop_succ (u : va_order) (s : List Char) (x : List symbol_t) (fuel : Nat) (st : FetchState)
    (p : Nat) :
    fetch_loop u s x (fuel + 1) st p =
    match charAt s p with
    | none => none
    | some symbol =>
      if is_parse_end symbol then
        some ((merge u { st with last_binary_operation := '+' } .null).prev_addend, p)
      else if symbol = '+' ∨ symbol = '-' ∨ symbol = '*' then
        fetch_loop u s x fuel { st with last_binary_operation := symbol } (p + 1)
      else if symbol = '(' then
        match fetch u s x fuel (p + 1) with
        | none => none
        | some (subexpression, position) =>
          fetch_loop u s x fuel (merge u st (.braced subexpression)) (position + 1)
      else if symbol.isDigit then
        match fetch_value p s with
        | none => none
        | some (number, position) =>
          fetch_loop u s x fuel (merge u st (.value (toInt32 number))) position
      else
        match fetch_extern u s x fuel p with
        | none => none
        | some (.null, position) => fetch_loop u s x fuel st position
        | some (operation, position) =>
          fetch_loop u s x fuel (merge u st operation) position := by
  rw [fetch_loop]

theorem fetch_succ (u : va_order) (s : List Char) (x : List symbol_t) (fuel p : Nat) :
    fetch u s x (fuel + 1) p = fetch_loop u s x fuel FetchState.init p := by
  rw [fetch]

theorem fetch_extern_succ (u : va_order) (s : List Char) (x : List symbol_t) (fuel p : Nat) :
    fetch_extern u s x (fuel + 1) p =
    if s.length < p then none
    else
      if MAX_LENGTH ≤ (fetch_extern_name (s.drop p)).length then none
      else
        match lookup_extern (fetch_extern_name (s.drop p)) x with
        | none => none
        | some extern_ptr =>
          if charAt s (p + (fetch_extern_name (s.drop p)).length) = some '(' then
            fetch_extern_function u s x fuel extern_ptr []
              (p + (fetch_extern_name (s.drop p)).length + 1)
          else some (.externValue extern_ptr, p + (fetch_extern_name (s.drop p)).length) := by
  rw [ fetch_extern]

theorem fetch_extern_function_succ (u : va_order) (s : List Char) (x : List symbol_t) (fuel ptr : Nat)
    (args : List Node) (p : Nat) :
    fetch_extern_function u s x (fuel + 1) ptr args p =
    if MAX_ARGS ≤ args.length then none
    else
      match fetch u s x fuel p with
      | none => none
      | some (arg, position) =>
        match charAt s position with
        | none => none
        | some symbol =>
          if symbol = ')' then
            match create_extern_function_node u ptr (args ++ [arg]) with
            | none => none
            | some node => some (node, position + 1)
          else
            fetch_extern_function u s x fuel ptr (args ++ [arg]) (position + 1) := by
  rw [fetch_extern_function]

theorem is_parse_end_iff (c : Char) :
    is_parse_end c = true ↔ c = Char.ofNat 0 ∨ c = ')' ∨ c = ',' := by
  simp [is_parse_end, or_assoc]

theorem charAt_frame_end (pre s post : List Char) (hpost : ends_expression post = true) :
    ∃ c, charAt (pre ++ s ++ post) (pre.length + s.length) = some c ∧
      (c = Char.ofNat 0 ∨ c = ')' ∨ c = ',') := by
  cases post with
  | nil =>
    refine ⟨Char.ofNat 0, ?_, Or.inl rfl⟩
    have h := charAt_length (pre ++ s ++ [])
    simpa using h
  | cons c rest =>
    refine ⟨c, ?_, ?_⟩
    · have h := charAt_append_cons (pre ++ s) c rest
      simpa using h
    · simp only [ends_expression, Bool.or_eq_true, decide_eq_true_eq] at hpost
      exact Or.inr hpost

theorem fetch_value_loop_shift (l : List Char) (n k p : Nat) :
    fetch_value_loop l n (k + p) = ((fetch_value_loop l n p).1, k + (fetch_value_loop l n p).2) := by
  induction l generalizing n p with
  | nil => rfl
  | cons c cs ih =>
    simp only [fetch_value_loop]
    split
    · rw [Nat.add_assoc, ih]
    · rfl

theorem fetch_value_loop_append (l post : List Char) (n p : Nat)
    (hpost : ∀ c rest, post = c :: rest → c.isDigit = false) :
    fetch_value_loop (l ++ post) n p = fetch_value_loop l n p := by
  induction l generalizing n p with
  | nil =>
    cases post with
    | nil => rfl
    | cons c rest => simp [fetch_value_loop, hpost c rest rfl]
  | cons c cs ih =>
    simp only [List.cons_append, fetch_value_loop]
    split
    · exact ih _ _
    · rfl

theorem fetch_extern_name_append (l post : List Char)
    (hpost : ∀ c rest, post = c :: rest → c.isAlphanum = false) :
    fetch_extern_name (l ++ post) = fetch_extern_name l := by
  induction l with
  | nil =>
    cases post with
    | nil => rfl
    | cons c rest => simp [fetch_extern_name, hpost c rest rfl]
  | cons c cs ih =>
    simp only [List.cons_append, fetch_extern_name]
    split
    · exact congrArg (c :: ·) ih
    · rfl

theorem fetch_extern_name_length_le (l : List Char) :
    (fetch_extern_name l).length ≤ l.length := by
  induction l with
  | nil => simp [fetch_extern_name]
  | cons c cs ih =>
    simp only [fetch_extern_name]
    split
    · simp only [List.length_cons]; omega
    · simp

theorem ends_expression_head {post : List Char} (hpost : ends_expression post = true) :
    ∀ c rest, post = c :: rest → c = ')' ∨ c = ',' := by
  intro c rest h
  subst h
  simpa [ends_expression] using hpost

theorem drop_frame (pre s post : List Char) {p : Nat} (h : p ≤ s.length) :
    (pre ++ s ++ post).drop (pre.length + p) = s.drop p ++ post := by
  rw [List.append_assoc, List.drop_append, List.drop_append_of_le_length h]

theorem fetch_loop_gt (u : va_order) (s : List Char) (x : List symbol_t) (fuel : Nat) (st : FetchState)
    {p : Nat} (h : s.length < p) : fetch_loop u s x fuel st p = none := by
  cases fuel with
  | zero => rw [fetch_loop]
  | succ n => rw [fetch_loop_succ, charAt_gt h]

theorem fetch_gt (u : va_order) (s : List Char) (x : List symbol_t) (fuel : Nat)
    {p : Nat} (h : s.length < p) : fetch u s x fuel p = none := by
  cases fuel with
  | zero => rw [fetch]
  | succ n => rw [fetch_succ, fetch_loop_gt u s x n _ h]

theorem fetch_extern_function_gt (u : va_order) (s : List Char) (x : List symbol_t) (fuel ptr : Nat)
    (args : List Node) {p : Nat} (h : s.length < p) :
    fetch_extern_function u s x fuel ptr args p = none := by
  cases fuel with
  | zero => rw [fetch_extern_function]
  | succ n =>
    rw [fetch_extern_function_succ, fetch_gt u s x n h]
    split <;> rfl

theorem fetch_value_frame (pre s post : List Char) {p : Nat} (h : p ≤ s.length)
    (hpost : ends_expression post = true) :
    fetch_value p s = some (fetch_value_loop (s.drop p) 0 p) ∧
    fetch_value (pre.length + p) (pre ++ s ++ post) =
      some ((fetch_value_loop (s.drop p) 0 p).1, pre.length + (fetch_value_loop (s.drop p) 0 p).2) := by
  constructor
  · simp [fetch_value, Nat.not_lt.mpr h]
  · have h1 : ¬ (pre ++ s ++ post).length < pre.length + p := by
      simp only [List.length_append]
      omega
    simp only [fetch_value, h1, if_false, drop_frame pre s post h]
    rw [fetch_value_loop_append, fetch_value_loop_shift]
    intro c rest hc
    rcases ends_expression_head hpost c rest hc with rfl | rfl <;> decide

theorem charAt_frame_paren (pre s post : List Char) {p : Nat} (h : p ≤ s.length)
    (hpost : ends_expression post = true) :
    (charAt (pre ++ s ++ post) (pre.length + p) = some '(') ↔ (charAt s p = some '(') := by
  rcases Nat.lt_or_eq_of_le h with hp | hp
  · rw [charAt_frame_lt pre s post hp]
  · subst hp
    obtain ⟨c, hc, hc'⟩ := charAt_frame_end pre s post hpost
    rw [hc, charAt_length]
    constructor
    · intro e
      injection e with e
      subst e
      rcases hc' with h | h | h <;> revert h <;> decide
    · intro e
      injection e with e
      exact absurd e (by decide)

/-- Framing and fuel monotonicity of the parser: what a call returns on a text
`s`, it returns with at least as much fuel when `s` sits inside a longer text,
provided the text right after `s` is empty or starts with `')'` or `','`. -/
theorem fetch_frame (u : va_order) (s pre post : List Char) (x : List symbol_t)
    (hpost : ends_expression post = true) (fuel k : Nat) :
    (∀ st p r, fetch_loop u s x fuel st p = some r →
      fetch_loop u (pre ++ s ++ post) x (fuel + k) st (pre.length + p) =
        some (r.1, pre.length + r.2)) ∧
    (∀ p r, fetch u s x fuel p = some r →
      fetch u (pre ++ s ++ post) x (fuel + k) (pre.length + p) = some (r.1, pre.length + r.2)) ∧
    (∀ p r, fetch_extern u s x fuel p = some r →
      fetch_extern u (pre ++ s ++ post) x (fuel + k) (pre.length + p) =
        some (r.1, pre.length + r.2)) ∧
    (∀ ptr args p r, fetch_extern_function u s x fuel ptr args p = some r →
      fetch_extern_function u (pre ++ s ++ post) x (fuel + k) ptr args (pre.length + p) =
        some (r.1, pre.length + r.2)) := by
  induction fuel with
  | zero =>
    refine ⟨?_, ?_, ?_, ?_⟩
    · intro st p r h
      rw [fetch_loop] at h
      cases h
    · intro p r h
      rw [fetch] at h
      cases h
    · intro p r h
      rw [ fetch_extern] at h
      cases h
    · intro ptr args p r h
      rw [fetch_extern_function] at h
      cases h
  | succ n ih =>
    obtain ⟨ihL, ihF, ihE, ihEF⟩ := ih
    have hk : n + 1 + k = (n + k) + 1 := by omega
    refine ⟨?_, ?_, ?_, ?_⟩
    · intro st p r h
      rw [hk, fetch_loop_succ]
      rw [fetch_loop_succ] at h
      rcases Nat.lt_trichotomy p s.length with hp | hp | hp
      · rw [charAt_frame_lt pre s post hp]
        cases hc : charAt s p with
        | none =>
          rw [hc] at h
          cases h
        | some sym =>
          rw [hc] at h
          simp only at h ⊢
          split_ifs at h ⊢ with h1 h2 h3 h4
          · cases h
            rfl
          · exact ihL _ _ _ h
          · cases hf : fetch u s x n (p + 1) with
            | none =>
              rw [hf] at h
              cases h
            | some res =>
              obtain ⟨sub, q⟩ := res
              rw [hf] at h
              have e := ihF (p + 1) _ hf
              rw [show pre.length + p + 1 = pre.length + (p + 1) from rfl, e]
              exact ihL _ _ _ h
          · have e := fetch_value_frame pre s post (Nat.le_of_lt hp) hpost
            rw [e.1] at h
            rw [e.2]
            exact ihL _ _ _ h
          · cases he : fetch_extern u s x n p with
            | none =>
              rw [he] at h
              cases h
            | some res =>
              obtain ⟨op, q⟩ := res
              rw [he] at h
              rw [ihE p _ he]
              cases op <;> exact ihL _ _ _ h
      · subst hp
        rw [charAt_length] at h
        obtain ⟨c, hc, hc'⟩ := charAt_frame_end pre s post hpost
        rw [hc]
        simp only [(is_parse_end_iff c).mpr hc', if_true]
        simp only [] at h
        rw [if_pos (show is_parse_end (Char.ofNat 0) = true by decide)] at h
        cases h
        rfl
      · rw [charAt_gt hp] at h
        cases h
    · intro p r h
      rw [hk, fetch_succ]
      rw [fetch_succ] at h
      exact ihL _ _ _ h
    · intro p r h
      rw [hk, fetch_extern_succ]
      rw [fetch_extern_succ] at h
      by_cases hp : s.length < p
      · rw [if_pos hp] at h
        cases h
      · rw [if_neg hp] at h
        have hp' : p ≤ s.length := Nat.not_lt.mp hp
        have h1 : ¬ (pre ++ s ++ post).length < pre.length + p := by
          simp only [List.length_append]
          omega
        have hname : fetch_extern_name (s.drop p ++ post) = fetch_extern_name (s.drop p) := by
          apply fetch_extern_name_append
          intro c rest hc
          rcases ends_expression_head hpost c rest hc with rfl | rfl <;> decide
        have hlen : p + (fetch_extern_name (s.drop p)).length ≤ s.length := by
          have := fetch_extern_name_length_le (s.drop p)
          rw [List.length_drop] at this
          omega
        rw [if_neg h1, drop_frame pre s post hp', hname]
        by_cases hm : MAX_LENGTH ≤ (fetch_extern_name (s.drop p)).length
        · rw [if_pos hm] at h
          cases h
        · rw [if_neg hm] at h
          rw [if_neg hm]
          cases hl : lookup_extern (fetch_extern_name (s.drop p)) x with
          | none =>
            rw [hl] at h
            cases h
          | some ptr =>
            rw [hl] at h
            simp only at h ⊢
            rw [Nat.add_assoc pre.length p]
            by_cases hparen : charAt s (p + (fetch_extern_name (s.drop p)).length) = some '('
            · rw [if_pos hparen] at h
              rw [if_pos ((charAt_frame_paren pre s post hlen hpost).mpr hparen)]
              exact ihEF _ _ _ _ h
            · rw [if_neg hparen] at h
              rw [if_neg (fun e => hparen ((charAt_frame_paren pre s post hlen hpost).mp e))]
              cases h
              rfl
    · intro ptr args p r h
      rw [hk, fetch_extern_function_succ]
      rw [fetch_extern_function_succ] at h
      by_cases ha : MAX_ARGS ≤ args.length
      · rw [if_pos ha] at h
        cases h
      · rw [if_neg ha] at h
        rw [if_neg ha]
        cases hf : fetch u s x n p with
        | none =>
          rw [hf] at h
          cases h
        | some res =>
          obtain ⟨arg, q⟩ := res
          rw [hf] at h
          rw [ihF p _ hf]
          simp only at h ⊢
          rcases Nat.lt_trichotomy q s.length with hq | hq | hq
          · rw [charAt_frame_lt pre s post hq]
            cases hc : charAt s q with
            | none =>
              rw [hc] at h
              cases h
            | some sym =>
              rw [hc] at h
              simp only at h ⊢
              split_ifs at h ⊢ with h1
              · cases hn : create_extern_function_node u ptr (args ++ [arg]) with
                | none =>
                  rw [hn] at h
                  cases h
                | some node =>
                  rw [hn] at h
                  cases h
                  rfl
              · exact ihEF _ _ _ _ h
          · subst hq
            rw [charAt_length] at h
            simp only [] at h
            rw [if_neg (by decide), fetch_extern_function_gt u s x n ptr _ (Nat.lt_succ_self _)] at h
            cases h
          · rw [charAt_gt hq] at h
            cases h

theorem fetch_loop_stops (u : va_order) (s : List Char) (x : List symbol_t) (fuel : Nat) :
    ∀ st p r, fetch_loop u s x fuel st p = some r →
      ∃ c, charAt s r.2 = some c ∧ is_parse_end c = true := by
  induction fuel with
  | zero =>
    intro st p r h
    rw [fetch_loop] at h
    cases h
  | succ n ih =>
    intro st p r h
    rw [fetch_loop_succ] at h
    cases hc : charAt s p with
    | none =>
      rw [hc] at h
      cases h
    | some sym =>
      rw [hc] at h
      simp only at h
      split_ifs at h with h1 h2 h3 h4
      · cases h
        exact ⟨sym, hc, h1⟩
      · exact ih _ _ _ h
      · cases hf : fetch u s x n (p + 1) with
        | none =>
          rw [hf] at h
          cases h
        | some res =>
          rw [hf] at h
          exact ih _ _ _ h
      · cases hf : fetch_value p s with
        | none =>
          rw [hf] at h
          cases h
        | some res =>
          rw [hf] at h
          exact ih _ _ _ h
      · cases he : fetch_extern u s x n p with
        | none =>
          rw [he] at h
          cases h
        | some res =>
          obtain ⟨op, q⟩ := res
          rw [he] at h
          cases op <;> exact ih _ _ _ h

/-- C9: whenever a call of `fetch` returns, in any build, the character at the
cursor it leaves is the end of the text (NUL), `')'` or `','`. -/
theorem C9_fetch_stops_at_terminator (u : va_order) (s : List Char) (x : List symbol_t) (fuel p : Nat)
    (t : Node) (q : Nat) (h : fetch u s x fuel p = some (t, q)) :
    charAt s q = some (Char.ofNat 0) ∨ charAt s q = some ')' ∨ charAt s q = some ',' := by
  cases fuel with
  | zero =>
    rw [fetch] at h
    cases h
  | succ n =>
    rw [fetch_succ] at h
    obtain ⟨c, hc, hc'⟩ := fetch_loop_stops u s x n _ _ _ h
    rw [hc]
    rcases (is_parse_end_iff c).mp hc' with e | e | e
    · exact Or.inl (congrArg some e)
    · exact Or.inr (Or.inl (congrArg some e))
    · exact Or.inr (Or.inr (congrArg some e))

/-- C9 on the text `1+2,3` read from its start, in a left to right and in a
right to left build: the cursor is left on the comma. -/
theorem C9_fetch_stops_at_terminator_witness :
    fetch left_to_right ['1', '+', '2', ',', '3'] [] 6 0 = some (.sum (.value 1) (.value 2), 3) ∧
    fetch right_to_left ['1', '+', '2', ',', '3'] [] 6 0 = some (.sum (.value 2) (.value 1), 3) ∧
    (charAt ['1', '+', '2', ',', '3'] 3 = some (Char.ofNat 0) ∨
      charAt ['1', '+', '2', ',', '3'] 3 = some ')' ∨
      charAt ['1', '+', '2', ',', '3'] 3 = some ',') ∧
    (charAt ['1', '+', '2', ',', '3'] 3 = some (Char.ofNat 0) ∨
      charAt ['1', '+', '2', ',', '3'] 3 = some ')' ∨
      charAt ['1', '+', '2', ',', '3'] 3 = some ',') :=
  ⟨by decide, by decide,
    C9_fetch_stops_at_terminator left_to_right ['1', '+', '2', ',', '3'] [] 6 0
      (.sum (.value 1) (.value 2)) 3 (by decide),
    C9_fetch_stops_at_terminator right_to_left ['1', '+', '2', ',', '3'] [] 6 0
      (.sum (.value 2) (.value 1)) 3 (by decide)⟩

theorem fetch_value_loop_digits (d rest : List Char) (n p : Nat)
    (hd : ∀ c ∈ d, c.isDigit = true) :
    fetch_value_loop (d ++ rest) n p =
      fetch_value_loop rest
        (d.foldl (fun n c => ((n * 10) % 4294967296 + (c.toNat - 48)) % 4294967296) n)
        (p + d.length) := by
  induction d generalizing n p with
  | nil => rfl
  | cons c cs ih =>
    have hc : c.isDigit = true := hd c (List.mem_cons_self _ _)
    rw [List.cons_append, fetch_value_loop, if_pos hc,
      ih _ _ (fun c' h' => hd c' (List.mem_cons_of_mem _ h'))]
    simp only [List.foldl_cons, List.length_cons]
    congr 1
    omega

theorem foldl_mod_eq (d : List Char) (n n' : Nat) (h : n = n' % 4294967296) :
    d.foldl (fun n c => ((n * 10) % 4294967296 + (c.toNat - 48)) % 4294967296) n =
      (d.foldl (fun n c => 10 * n + (c.toNat - 48)) n') % 4294967296 := by
  induction d generalizing n n' with
  | nil => exact h
  | cons c cs ih =>
    simp only [List.foldl_cons]
    apply ih
    subst h
    omega

theorem fetch_value_digits (pre d rest : List Char)
    (hd : ∀ c ∈ d, c.isDigit = true)
    (hrest : ∀ c rest', rest = c :: rest' → c.isDigit = false) :
    fetch_value pre.length (pre ++ d ++ rest) =
      some (decimal d % 4294967296, pre.length + d.length) := by
  have h1 : ¬ (pre ++ d ++ rest).length < pre.length := by
    simp only [List.length_append]
    omega
  have h2 : (pre ++ d ++ rest).drop pre.length = d ++ rest := by
    rw [List.append_assoc, List.drop_left]
  simp only [fetch_value, h1, if_false, h2]
  rw [fetch_value_loop_digits d rest 0 _ hd, foldl_mod_eq d 0 0 rfl]
  cases rest with
  | nil => rfl
  | cons c rest' => simp [fetch_value_loop, hrest c rest' rfl, decimal]

theorem toUInt32_toInt32 (n : Nat) : toUInt32 (toInt32 n) = n % 4294967296 := by
  unfold toUInt32 toInt32
  split <;> omega

theorem ne_of_isDigit {c k : Char} (h : c.isDigit = true) (hk : k.isDigit = false) : c ≠ k := by
  intro e
  subst e
  rw [h] at hk
  cases hk

theorem not_parse_end_of_ne {c : Char} (h0 : c ≠ Char.ofNat 0) (h1 : c ≠ ')') (h2 : c ≠ ',') :
    is_parse_end c = false := by
  cases h : is_parse_end c with
  | false => rfl
  | true =>
    rcases (is_parse_end_iff c).mp h with e | e | e
    · exact absurd e h0
    · exact absurd e h1
    · exact absurd e h2

theorem fetch_loop_end (u : va_order) (s : List Char) (x : List symbol_t) (fuel : Nat) (st : FetchState)
    {p : Nat} {c : Char} (hc : charAt s p = some c) (he : is_parse_end c = true) :
    fetch_loop u s x (fuel + 1) st p =
      some ((merge u { st with last_binary_operation := '+' } .null).prev_addend, p) := by
  rw [fetch_loop_succ, hc]
  simp only [he, if_true]

theorem fetch_loop_operator (u : va_order) (s : List Char) (x : List symbol_t) (fuel : Nat) (st : FetchState)
    {p : Nat} {c : Char} (hc : charAt s p = some c) (hop : c = '+' ∨ c = '-' ∨ c = '*') :
    fetch_loop u s x (fuel + 1) st p =
      fetch_loop u s x fuel { st with last_binary_operation := c } (p + 1) := by
  have he : is_parse_end c = false := by
    rcases hop with e | e | e <;> subst e <;> decide
  rw [fetch_loop_succ, hc]
  simp only [he, hop, if_true, Bool.false_eq_true, if_false]

theorem fetch_loop_digits (u : va_order) (pre d rest : List Char) (x : List symbol_t) (fuel : Nat)
    (st : FetchState) (hne : d ≠ []) (hd : ∀ c ∈ d, c.isDigit = true)
    (hrest : ∀ c rest', rest = c :: rest' → c.isDigit = false) :
    fetch_loop u (pre ++ d ++ rest) x (fuel + 1) st pre.length =
      fetch_loop u (pre ++ d ++ rest) x fuel (merge u st (literal d)) (pre.length + d.length) := by
  obtain ⟨c, cs, rfl⟩ := List.exists_cons_of_ne_nil hne
  have hc : c.isDigit = true := hd c (List.mem_cons_self _ _)
  have hat : charAt (pre ++ c :: cs ++ rest) pre.length = some c := by
    have := charAt_append_cons pre c (cs ++ rest)
    simpa using this
  have he : is_parse_end c = false :=
    not_parse_end_of_ne (ne_of_isDigit hc (by decide)) (ne_of_isDigit hc (by decide))
      (ne_of_isDigit hc (by decide))
  have hop : ¬ (c = '+' ∨ c = '-' ∨ c = '*') := by
    rintro (e | e | e)
    · exact ne_of_isDigit hc (by decide) e
    · exact ne_of_isDigit hc (by decide) e
    · exact ne_of_isDigit hc (by decide) e
  have hpar : c ≠ '(' := ne_of_isDigit hc (by decide)
  rw [fetch_loop_succ, hat]
  simp only [he, hop, hpar, hc, if_true, Bool.false_eq_true, if_false]
  rw [fetch_value_digits pre (c :: cs) rest hd hrest]
  rfl

/-- C6: on a non-empty run `d` of decimal digits followed by a non-digit (or
the end of the text), `fetch_value` returns the decimal value of `d` modulo
`2 ^ 32` and advances the cursor by the length of `d`.  In `fetch`, whatever
follows the run and in every state of the loop, the iteration that meets the
run builds from it the single node Literal of that 32 bit value, hands it to
the merge switch and goes on at the character after the run; so `fetch`
started at the run goes on after it with that Literal as its only factor.
Where the run is the whole expression (what follows is the end, `)` or `,`),
`fetch` returns that Literal node, whose value as a 32 bit word is the number. -/
theorem C6_fetch_value_decimal (u : va_order) (pre d rest : List Char) (x : List symbol_t)
    (hne : d ≠ []) (hd : ∀ c ∈ d, c.isDigit = true)
    (hrest : ∀ c rest', rest = c :: rest' → c.isDigit = false) :
    fetch_value pre.length (pre ++ d ++ rest) =
      some (decimal d % 4294967296, pre.length + d.length) ∧
    (∀ fuel st, fetch_loop u (pre ++ d ++ rest) x (fuel + 1) st pre.length =
      fetch_loop u (pre ++ d ++ rest) x fuel
        (merge u st (.value (toInt32 (decimal d % 4294967296)))) (pre.length + d.length)) ∧
    (∀ fuel, fetch u (pre ++ d ++ rest) x (fuel + 2) pre.length =
      fetch_loop u (pre ++ d ++ rest) x fuel
        ⟨.null, .value (toInt32 (decimal d % 4294967296)), Char.ofNat 0, Char.ofNat 0⟩
        (pre.length + d.length)) ∧
    (ends_expression rest = true → ∀ fuel, 3 ≤ fuel →
      fetch u (pre ++ d ++ rest) x fuel pre.length =
        some (.value (toInt32 (decimal d % 4294967296)), pre.length + d.length)) ∧
    toUInt32 (toInt32 (decimal d % 4294967296)) = decimal d % 4294967296 := by
  have hm : merge u FetchState.init (.value (toInt32 (decimal d % 4294967296))) =
      ⟨.null, .value (toInt32 (decimal d % 4294967296)), Char.ofNat 0, Char.ofNat 0⟩ := by
    simp [merge, FetchState.init]
  refine ⟨fetch_value_digits pre d rest hd hrest, ?_, ?_, ?_, ?_⟩
  · intro fuel st
    exact fetch_loop_digits u pre d rest x fuel st hne hd hrest
  · intro fuel
    rw [fetch_succ, fetch_loop_digits u pre d rest x fuel _ hne hd hrest]
    exact congrArg (fun st => fetch_loop u (pre ++ d ++ rest) x fuel st (pre.length + d.length)) hm
  · intro hend fuel hfuel
    obtain ⟨n, rfl⟩ : ∃ n, fuel = n + 3 := ⟨fuel - 3, by omega⟩
    obtain ⟨c, hc, hc'⟩ := charAt_frame_end pre d rest hend
    rw [fetch_succ, fetch_loop_digits u pre d rest x (n + 1) _ hne hd hrest,
      fetch_loop_end u _ x n _ hc ((is_parse_end_iff c).mpr hc')]
    rfl
  · rw [toUInt32_toInt32]
    exact Nat.mod_mod _ _

/-- C6 on the text `4294967298+1` read from its start, where the value wraps to
2; on the digits of `(42)`, which `fetch` turns into Literal 42; and on the run
`12` of `12+1`, after which `fetch` goes on with Literal 12 as its only factor
and returns the Sum node of 12 and 1. -/
theorem C6_fetch_value_decimal_witness :
    (fetch_value 0 ['4', '2', '9', '4', '9', '6', '7', '2', '9', '8', '+', '1'] = some (2, 10) ∧
      decimal ['4', '2', '9', '4', '9', '6', '7', '2', '9', '8'] = 4294967298) ∧
    fetch_value 1 ['(', '4', '2', ')'] = some (42, 3) ∧
    fetch left_to_right ['(', '4', '2', ')'] [] 3 1 = some (.value 42, 3) ∧
    fetch left_to_right ([] ++ ['1', '2'] ++ ['+', '1']) [] (3 + 2) ([] : List Char).length =
      fetch_loop left_to_right ([] ++ ['1', '2'] ++ ['+', '1']) [] 3
        ⟨.null, .value (toInt32 (decimal ['1', '2'] % 4294967296)), Char.ofNat 0, Char.ofNat 0⟩
        (([] : List Char).length + ['1', '2'].length) ∧
    fetch left_to_right ['1', '2', '+', '1'] [] 5 0 = some (.sum (.value 12) (.value 1), 4) ∧
    fetch right_to_left ['1', '2', '+', '1'] [] 5 0 = some (.sum (.value 1) (.value 12), 4) :=
  ⟨⟨(C6_fetch_value_decimal left_to_right [] ['4', '2', '9', '4', '9', '6', '7', '2', '9', '8']
      ['+', '1'] [] (by decide) (by decide) (by intro c r h; cases h; decide)).1, by decide⟩,
    (C6_fetch_value_decimal left_to_right ['('] ['4', '2'] [')'] [] (by decide) (by decide)
      (by intro c r h; cases h; decide)).1,
    (C6_fetch_value_decimal left_to_right ['('] ['4', '2'] [')'] [] (by decide) (by decide)
      (by intro c r h; cases h; decide)).2.2.2.1 (by decide) 3 (by decide),
    (C6_fetch_value_decimal left_to_right [] ['1', '2'] ['+', '1'] [] (by decide) (by decide)
      (by intro c r h; cases h; decide)).2.2.1 3,
    by decide, by decide⟩

theorem is_digits_iff (f : List Char) :
    is_digits f = true ↔ f ≠ [] ∧ ∀ c ∈ f, c.isDigit = true := by
  cases f <;> simp [is_digits]

theorem fetch_loop_digits_at (u : va_order) (s pre d rest : List Char) (hs : s = pre ++ d ++ rest)
    (x : List symbol_t) (fuel : Nat)
    (st : FetchState) (hd : is_digits d = true)
    (hrest : ∀ c rest', rest = c :: rest' → c.isDigit = false) :
    fetch_loop u s x (fuel + 1) st pre.length =
      fetch_loop u s x fuel (merge u st (literal d)) (pre.length + d.length) := by
  subst hs
  exact fetch_loop_digits u pre d rest x fuel st ((is_digits_iff d).mp hd).1
    ((is_digits_iff d).mp hd).2 hrest

theorem factors_text_head (fs : List (List Char)) (rest : List Char)
    (hrest : ∀ c rest', rest = c :: rest' → c.isDigit = false) :
    ∀ c rest', factors_text fs ++ rest = c :: rest' → c.isDigit = false := by
  intro c rest' h
  cases fs with
  | nil => exact hrest c rest' h
  | cons f fs =>
    simp only [factors_text, List.cons_append, List.cons.injEq] at h
    rw [← h.1]
    decide

theorem factors_loop (u : va_order) (x : List symbol_t) (fs : List (List Char))
    (hfs : fs.all is_digits = true) :
    ∃ N, N ≤ (factors_text fs).length ∧
      ∀ (fuel : Nat) (s pre rest : List Char) (pa pf : Node) (laop lbo : Char),
        s = pre ++ factors_text fs ++ rest →
        (∀ c rest', rest = c :: rest' → c.isDigit = false) →
        ∃ lbo', fetch_loop u s x (fuel + N) ⟨pa, pf, laop, lbo⟩ pre.length =
          fetch_loop u s x fuel
            ⟨pa, fs.foldl (fun acc f => create_binary_node u .EXPR_MUL acc (literal f)) pf,
              laop, lbo'⟩
            (pre.length + (factors_text fs).length) := by
  induction fs with
  | nil =>
    refine ⟨0, Nat.le_refl _, ?_⟩
    intro fuel s pre rest pa pf laop lbo _ _
    exact ⟨lbo, rfl⟩
  | cons f fs ih =>
    simp only [List.all_cons, Bool.and_eq_true] at hfs
    obtain ⟨N, hN, ih⟩ := ih hfs.2
    refine ⟨N + 2, ?_, ?_⟩
    · simp only [factors_text, List.length_cons, List.length_append]
      have := ((is_digits_iff f).mp hfs.1).1
      have : 0 < f.length := List.length_pos.mpr this
      omega
    · intro fuel s pre rest pa pf laop lbo hs hrest
      have hat : charAt s pre.length = some '*' := by
        rw [hs]
        have := charAt_append_cons pre '*' (f ++ factors_text fs ++ rest)
        simpa [factors_text] using this
      have hs1 : s = (pre ++ ['*']) ++ f ++ (factors_text fs ++ rest) := by
        rw [hs]
        simp [factors_text]
      have hs2 : s = (pre ++ '*' :: f) ++ factors_text fs ++ rest := by
        rw [hs]
        simp [factors_text]
      obtain ⟨lbo', e⟩ := ih fuel s (pre ++ '*' :: f) rest pa
        (create_binary_node u .EXPR_MUL pf (literal f)) laop '*' hs2 hrest
      refine ⟨lbo', ?_⟩
      rw [show fuel + (N + 2) = (fuel + N + 1) + 1 from by omega,
        fetch_loop_operator u s x _ _ hat (Or.inr (Or.inr rfl))]
      have hd := fetch_loop_digits_at u s (pre ++ ['*']) f (factors_text fs ++ rest) hs1 x
        (fuel + N) ⟨pa, pf, laop, '*'⟩ hfs.1 (factors_text_head fs rest hrest)
      simp only [List.length_append, List.length_singleton] at hd
      rw [hd]
      have hm : merge u ⟨pa, pf, laop, '*'⟩ (literal f) =
          ⟨pa, create_binary_node u .EXPR_MUL pf (literal f), laop, '*'⟩ := by
        simp [merge]
      rw [hm]
      simp only [List.length_append, List.length_cons] at e
      simp only [List.foldl_cons, factors_text, List.length_cons, List.length_append]
      refine (congrArg (fetch_loop u s x _ _) ?_).trans (e.trans (congrArg (fetch_loop u s x _ _) ?_))
      · omega
      · omega

theorem literal_ne_null (d : List Char) : literal d ≠ Node.null := by
  simp [literal]

theorem term_tree_ne_null (u : va_order) (t : List Char × List (List Char)) : term_tree u t ≠ Node.null := by
  unfold term_tree
  have h : ∀ (fs : List (List Char)) (acc : Node), acc ≠ Node.null →
      fs.foldl (fun acc f => create_binary_node u .EXPR_MUL acc (literal f)) acc ≠ Node.null := by
    intro fs
    induction fs with
    | nil => exact fun acc h => h
    | cons f fs ih => exact fun acc _ => ih _ (create_binary_node_ne_null u _ _ _)
  exact h _ _ (literal_ne_null _)

theorem merge_additive (u : va_order) (pa pf : Node) (laop lbo o : Char) (operation : Node)
    (ho : o = '+' ∨ o = '-') (hpf : pf ≠ Node.null) :
    merge u ⟨pa, pf, laop, o⟩ operation = ⟨pending u ⟨pa, pf, laop, lbo⟩, operation, o, o⟩ := by
  rcases ho with rfl | rfl <;> simp [merge, pending, hpf]

theorem pending_additive (u : va_order) (pa pf : Node) (lbo o : Char) (ho : o = '+' ∨ o = '-')
    (hpf : pf ≠ Node.null) :
    pending u ⟨pa, pf, o, lbo⟩ =
      if o = '+' then create_binary_node u .EXPR_SUM pa pf
      else create_binary_node u .EXPR_SUB pa pf := by
  rcases ho with rfl | rfl <;> simp [merge, pending, hpf]

theorem terms_text_head (ts : List (Char × (List Char × List (List Char)))) (rest : List Char)
    (hts : ts.all (fun ot => (ot.1 = '+' || ot.1 = '-') && term_ok ot.2) = true)
    (hrest : ∀ c rest', rest = c :: rest' → c.isDigit = false) :
    ∀ c rest', terms_text ts ++ rest = c :: rest' → c.isDigit = false := by
  intro c rest' h
  cases ts with
  | nil => exact hrest c rest' h
  | cons ot ts =>
    simp only [List.all_cons, Bool.and_eq_true, Bool.or_eq_true, decide_eq_true_eq] at hts
    simp only [terms_text, List.cons_append, List.cons.injEq] at h
    rw [← h.1]
    rcases hts.1.1 with e | e <;> rw [e] <;> decide

theorem terms_loop (u : va_order) (x : List symbol_t) (ts : List (Char × (List Char × List (List Char))))
    (hts : ts.all (fun ot => (ot.1 = '+' || ot.1 = '-') && term_ok ot.2) = true) :
    ∃ N, N ≤ (terms_text ts).length ∧
      ∀ (fuel : Nat) (s pre rest : List Char) (pa pf : Node) (laop lbo : Char),
        s = pre ++ terms_text ts ++ rest →
        (∀ c rest', rest = c :: rest' → c.isDigit = false) →
        pf ≠ Node.null →
        ∃ st', fetch_loop u s x (fuel + N) ⟨pa, pf, laop, lbo⟩ pre.length =
            fetch_loop u s x fuel st' (pre.length + (terms_text ts).length) ∧
          st'.prev_factor ≠ Node.null ∧
          pending u st' = ts.foldl (fun acc ot =>
            if ot.1 = '+' then create_binary_node u .EXPR_SUM acc (term_tree u ot.2)
            else create_binary_node u .EXPR_SUB acc (term_tree u ot.2))
            (pending u ⟨pa, pf, laop, lbo⟩) := by
  induction ts with
  | nil =>
    refine ⟨0, Nat.le_refl _, ?_⟩
    intro fuel s pre rest pa pf laop lbo _ _ hpf
    exact ⟨⟨pa, pf, laop, lbo⟩, rfl, hpf, rfl⟩
  | cons ot ts ih =>
    obtain ⟨o, t⟩ := ot
    simp only [List.all_cons, Bool.and_eq_true, Bool.or_eq_true, decide_eq_true_eq] at hts
    obtain ⟨⟨ho, ht⟩, hts'⟩ := hts
    have hts'' : ts.all (fun ot => (ot.1 = '+' || ot.1 = '-') && term_ok ot.2) = true := by
      simpa [List.all_eq_true] using hts'
    simp only [term_ok, Bool.and_eq_true] at ht
    obtain ⟨N, hN, ih⟩ := ih hts''
    obtain ⟨Nf, hNf, hf⟩ := factors_loop u x t.2 ht.2
    refine ⟨N + Nf + 2, ?_, ?_⟩
    · simp only [terms_text, term_text, List.length_cons, List.length_append]
      have := ((is_digits_iff t.1).mp ht.1).1
      have : 0 < t.1.length := List.length_pos.mpr this
      omega
    · intro fuel s pre rest pa pf laop lbo hs hrest hpf
      have hat : charAt s pre.length = some o := by
        rw [hs]
        have := charAt_append_cons pre o (term_text t ++ terms_text ts ++ rest)
        simpa [terms_text] using this
      have hs1 : s = (pre ++ [o]) ++ t.1 ++ (factors_text t.2 ++ (terms_text ts ++ rest)) := by
        rw [hs]
        simp [terms_text, term_text]
      have hs2 : s = (pre ++ o :: t.1) ++ factors_text t.2 ++ (terms_text ts ++ rest) := by
        rw [hs]
        simp [terms_text, term_text]
      have hs3 : s = (pre ++ o :: term_text t) ++ terms_text ts ++ rest := by
        rw [hs]
        simp [terms_text, term_text]
      have hhead := terms_text_head ts rest hts'' hrest
      obtain ⟨lbo', e2⟩ := hf (fuel + N) s (pre ++ o :: t.1) (terms_text ts ++ rest)
        (pending u ⟨pa, pf, laop, lbo⟩) (literal t.1) o o hs2 hhead
      obtain ⟨st', e3, hst', hpend⟩ := ih fuel s (pre ++ o :: term_text t) rest
        (pending u ⟨pa, pf, laop, lbo⟩) (term_tree u t) o lbo' hs3 hrest (term_tree_ne_null u t)
      refine ⟨st', ?_, hst', ?_⟩
      · rw [show fuel + (N + Nf + 2) = (fuel + N + Nf + 1) + 1 from by omega,
          fetch_loop_operator u s x _ _ hat (by rcases ho with e | e <;> simp [e])]
        have hd := fetch_loop_digits_at u s (pre ++ [o]) t.1 _ hs1 x
          (fuel + N + Nf) ⟨pa, pf, laop, o⟩ ht.1 (factors_text_head t.2 _ hhead)
        simp only [List.length_append, List.length_singleton] at hd
        rw [hd, merge_additive u pa pf laop lbo o _ ho hpf]
        simp only [List.length_append, List.length_cons, term_text, terms_text] at e2 e3 ⊢
        refine (congrArg (fetch_loop u s x _ _) ?_).trans
          (e2.trans ((congrArg (fetch_loop u s x _ _) ?_).trans
            (e3.trans (congrArg (fetch_loop u s x _ _) ?_))))
        · omega
        · omega
        · omega
      · rw [hpend, pending_additive u _ _ _ _ ho (term_tree_ne_null u t)]
        rfl

theorem fetch_expr (u : va_order) (x : List symbol_t)
    (e : (List Char × List (List Char)) × List (Char × (List Char × List (List Char))))
    (he : expr_ok e = true) (pre rest : List Char) (hrest : ends_expression rest = true)
    (fuel : Nat) (hfuel : (expr_text e).length + 2 ≤ fuel) :
    fetch u (pre ++ expr_text e ++ rest) x fuel pre.length =
      some (expr_tree u e, pre.length + (expr_text e).length) := by
  obtain ⟨t1, ts⟩ := e
  simp only [expr_ok, Bool.and_eq_true] at he
  obtain ⟨ht1, hts⟩ := he
  simp only [term_ok, Bool.and_eq_true] at ht1
  have hrest' : ∀ c rest', rest = c :: rest' → c.isDigit = false := by
    intro c rest' h
    rcases ends_expression_head hrest c rest' h with rfl | rfl <;> decide
  obtain ⟨N, hN, hterms⟩ := terms_loop u x ts hts
  obtain ⟨Nf, hNf, hfactors⟩ := factors_loop u x t1.2 ht1.2
  have hpos : 0 < t1.1.length := List.length_pos.mpr ((is_digits_iff t1.1).mp ht1.1).1
  simp only [expr_text, term_text, List.length_append] at hfuel ⊢
  obtain ⟨k, rfl⟩ : ∃ k, fuel = k + 1 + N + Nf + 1 + 1 := ⟨fuel - (N + Nf + 3), by omega⟩
  have hs1 : pre ++ (t1.1 ++ factors_text t1.2 ++ terms_text ts) ++ rest =
      pre ++ t1.1 ++ (factors_text t1.2 ++ (terms_text ts ++ rest)) := by simp
  have hs2 : pre ++ (t1.1 ++ factors_text t1.2 ++ terms_text ts) ++ rest =
      (pre ++ t1.1) ++ factors_text t1.2 ++ (terms_text ts ++ rest) := by simp
  have hs3 : pre ++ (t1.1 ++ factors_text t1.2 ++ terms_text ts) ++ rest =
      (pre ++ (t1.1 ++ factors_text t1.2)) ++ terms_text ts ++ rest := by simp
  have hhead := terms_text_head ts rest hts hrest'
  obtain ⟨lbo', e2⟩ := hfactors (k + 1 + N) _ (pre ++ t1.1) (terms_text ts ++ rest)
    Node.null (literal t1.1) (Char.ofNat 0) (Char.ofNat 0) hs2 hhead
  obtain ⟨st', e3, hst', hpend⟩ := hterms (k + 1) _ (pre ++ (t1.1 ++ factors_text t1.2)) rest
    Node.null (term_tree u t1) (Char.ofNat 0) lbo' hs3 hrest' (term_tree_ne_null u t1)
  obtain ⟨c, hc, hc'⟩ := charAt_frame_end pre (t1.1 ++ factors_text t1.2 ++ terms_text ts) rest hrest
  have e4 := fetch_loop_end u _ x k st' hc ((is_parse_end_iff c).mpr hc')
  rw [fetch_succ, fetch_loop_digits_at u _ pre t1.1 _ hs1 x _ _ ht1.1 (factors_text_head t1.2 _ hhead)]
  have hm : merge u FetchState.init (literal t1.1) =
      ⟨Node.null, literal t1.1, Char.ofNat 0, Char.ofNat 0⟩ := by
    simp [merge, FetchState.init]
  have hp0 : pending u ⟨Node.null, term_tree u t1, Char.ofNat 0, lbo'⟩ = term_tree u t1 := by
    simp [pending, merge, term_tree_ne_null u t1]
  rw [hm]
  simp only [List.length_append] at e2 e3 e4
  refine (e2.trans ((congrArg (fetch_loop u _ x _ _) ?_).trans
    (e3.trans ((congrArg (fetch_loop u _ x _ _) ?_).trans (e4.trans ?_)))))
  · omega
  · omega
  · rw [show (merge u { st' with last_binary_operation := '+' } Node.null).prev_addend = pending u st'
      from rfl, hpend, hp0]
    rfl

/-- C2 does not hold in every build.  On a text `t1 o1 t2 ... tn` whose
operators are `+` or `-` and whose terms are `f1*...*fm` with non-empty digit
strings as factors, `fetch` started at position 0 returns, with fuel beyond the
length of the text, the left fold over the terms of the nodes
`create_node(EXPR_SUM or EXPR_SUB, earlier result, next term)`, each term the
left fold of `create_node(EXPR_MUL, earlier result, next literal)`, and leaves
the cursor at the end.  Where `create_node` reads its two arguments in order
these are the trees of the claim: `a+b*c` gives Sum(a, Mul(b, c)), `a*b+c`
gives Sum(Mul(a, b), c) and `10-3-2` gives Sub(Sub(10, 3), 2), which denotes 5.
Where it reads the second argument first, every node has its children
exchanged: `a+b*c` gives Sum(Mul(c, b), a), `a*b+c` gives Sum(c, Mul(b, a)) and
`10-3-2` gives Sub(2, Sub(3, 10)), which denotes 9. -/
theorem C2_fetch_precedence (u : va_order) (x : List symbol_t) :
    (∀ e, expr_ok e = true → ∀ fuel, (expr_text e).length + 2 ≤ fuel →
      fetch u (expr_text e) x fuel 0 = some (expr_tree u e, (expr_text e).length)) ∧
    (u.binary_in_order = true →
      (∀ a b c, is_digits a = true → is_digits b = true → is_digits c = true →
        ∀ fuel, a.length + b.length + c.length + 4 ≤ fuel →
          fetch u (a ++ '+' :: b ++ '*' :: c) x fuel 0 =
            some (.sum (literal a) (.mul (literal b) (literal c)),
              a.length + b.length + c.length + 2) ∧
          fetch u (a ++ '*' :: b ++ '+' :: c) x fuel 0 =
            some (.sum (.mul (literal a) (literal b)) (literal c),
              a.length + b.length + c.length + 2)) ∧
      (∀ fuel, 8 ≤ fuel →
        fetch u ['1', '0', '-', '3', '-', '2'] x fuel 0 =
          some (.sub (.sub (.value 10) (.value 3)) (.value 2), 6))) ∧
    (u.binary_in_order = false →
      (∀ a b c, is_digits a = true → is_digits b = true → is_digits c = true →
        ∀ fuel, a.length + b.length + c.length + 4 ≤ fuel →
          fetch u (a ++ '+' :: b ++ '*' :: c) x fuel 0 =
            some (.sum (.mul (literal c) (literal b)) (literal a),
              a.length + b.length + c.length + 2) ∧
          fetch u (a ++ '*' :: b ++ '+' :: c) x fuel 0 =
            some (.sum (literal c) (.mul (literal b) (literal a)),
              a.length + b.length + c.length + 2)) ∧
      (∀ fuel, 8 ≤ fuel →
        fetch u ['1', '0', '-', '3', '-', '2'] x fuel 0 =
          some (.sub (.value 2) (.sub (.value 3) (.value 10)), 6))) ∧
    denote (.sub (.sub (.value 10) (.value 3)) (.value 2)) = some 5 ∧
    denote (.sub (.value 2) (.sub (.value 3) (.value 10))) = some 9 := by
  have main : ∀ e, expr_ok e = true → ∀ fuel, (expr_text e).length + 2 ≤ fuel →
      fetch u (expr_text e) x fuel 0 = some (expr_tree u e, (expr_text e).length) := by
    intro e he fuel hfuel
    have h := fetch_expr u x e he [] [] rfl fuel hfuel
    simpa using h
  have sum_mul : ∀ a b c, is_digits a = true → is_digits b = true → is_digits c = true →
      ∀ fuel, a.length + b.length + c.length + 4 ≤ fuel →
        fetch u (a ++ '+' :: b ++ '*' :: c) x fuel 0 =
          some (create_binary_node u .EXPR_SUM (literal a)
            (create_binary_node u .EXPR_MUL (literal b) (literal c)),
            a.length + b.length + c.length + 2) := by
    intro a b c ha hb hc fuel hfuel
    have h := main ((a, []), [('+', (b, [c]))])
      (by simp [expr_ok, term_ok, ha, hb, hc]) fuel
      (by simp [expr_text, term_text, terms_text, factors_text]; omega)
    simp only [expr_text, term_text, terms_text, factors_text, expr_tree, term_tree] at h
    simp only [List.append_nil, List.foldl_cons, List.foldl_nil, if_true,
      List.length_append, List.length_cons] at h
    rw [show a.length + (b.length + (c.length + 1) + 1) = a.length + b.length + c.length + 2
      from by omega] at h
    simpa using h
  have mul_sum : ∀ a b c, is_digits a = true → is_digits b = true → is_digits c = true →
      ∀ fuel, a.length + b.length + c.length + 4 ≤ fuel →
        fetch u (a ++ '*' :: b ++ '+' :: c) x fuel 0 =
          some (create_binary_node u .EXPR_SUM
            (create_binary_node u .EXPR_MUL (literal a) (literal b)) (literal c),
            a.length + b.length + c.length + 2) := by
    intro a b c ha hb hc fuel hfuel
    have h := main ((a, [b]), [('+', (c, []))])
      (by simp [expr_ok, term_ok, ha, hb, hc]) fuel
      (by simp [expr_text, term_text, terms_text, factors_text]; omega)
    simp only [expr_text, term_text, terms_text, factors_text, expr_tree, term_tree] at h
    simp only [List.append_nil, List.foldl_cons, List.foldl_nil, if_true,
      List.length_append, List.length_cons] at h
    rw [show a.length + (b.length + 1) + (c.length + 1) = a.length + b.length + c.length + 2
      from by omega] at h
    simpa using h
  have ten : ∀ fuel, 8 ≤ fuel →
      fetch u ['1', '0', '-', '3', '-', '2'] x fuel 0 =
        some (create_binary_node u .EXPR_SUB
          (create_binary_node u .EXPR_SUB (.value 10) (.value 3)) (.value 2), 6) := by
    intro fuel hfuel
    exact main ((['1', '0'], []), [('-', (['3'], [])), ('-', (['2'], []))]) (by decide) fuel hfuel
  refine ⟨main, ?_, ?_, by decide, by decide⟩
  · intro h
    simp only [create_binary_node, h, if_true] at sum_mul mul_sum ten
    exact ⟨fun a b c ha hb hc fuel hfuel =>
      ⟨sum_mul a b c ha hb hc fuel hfuel, mul_sum a b c ha hb hc fuel hfuel⟩, ten⟩
  · intro h
    simp only [create_binary_node, h, Bool.false_eq_true, if_false] at sum_mul mul_sum ten
    exact ⟨fun a b c ha hb hc fuel hfuel =>
      ⟨sum_mul a b c ha hb hc fuel hfuel, mul_sum a b c ha hb hc fuel hfuel⟩, ten⟩

/-- C2 on the text `2*3-4*5*6+7`, in a left to right and in a right to left
build, and on `10-3-2` in a right to left build. -/
theorem C2_fetch_precedence_witness :
    expr_text ((['2'], [['3']]), [('-', (['4'], [['5'], ['6']])), ('+', (['7'], []))]) =
      ['2', '*', '3', '-', '4', '*', '5', '*', '6', '+', '7'] ∧
    fetch left_to_right ['2', '*', '3', '-', '4', '*', '5', '*', '6', '+', '7'] [] 13 0 =
      some (.sum (.sub (.mul (.value 2) (.value 3)) (.mul (.mul (.value 4) (.value 5)) (.value 6)))
        (.value 7), 11) ∧
    fetch right_to_left ['2', '*', '3', '-', '4', '*', '5', '*', '6', '+', '7'] [] 13 0 =
      some (.sum (.value 7)
        (.sub (.mul (.value 6) (.mul (.value 5) (.value 4))) (.mul (.value 3) (.value 2))), 11) ∧
    fetch right_to_left ['1', '0', '-', '3', '-', '2'] [] 8 0 =
      some (.sub (.value 2) (.sub (.value 3) (.value 10)), 6) :=
  ⟨by decide,
    (C2_fetch_precedence left_to_right []).1
      ((['2'], [['3']]), [('-', (['4'], [['5'], ['6']])), ('+', (['7'], []))]) (by decide) 13
      (by decide),
    (C2_fetch_precedence right_to_left []).1
      ((['2'], [['3']]), [('-', (['4'], [['5'], ['6']])), ('+', (['7'], []))]) (by decide) 13
      (by decide),
    ((C2_fetch_precedence right_to_left []).2.2.1 rfl).2 8 (by decide)⟩

theorem fetch_ne_zero (u : va_order) {s : List Char} {x : List symbol_t} {fuel p : Nat} {r : Node × Nat}
    (h : fetch u s x fuel p = some r) : ∃ n, fuel = n + 1 := by
  cases fuel with
  | zero =>
    rw [fetch] at h
    cases h
  | succ n => exact ⟨n, rfl⟩

theorem fetch_loop_paren (u : va_order) (s pre e rest : List Char) (hs : s = pre ++ '(' :: e ++ ')' :: rest)
    (x : List symbol_t) (t : Node) (fuel k : Nat) (st : FetchState)
    (he : fetch u e x fuel 0 = some (t, e.length)) :
    fetch_loop u s x (fuel + k + 1) st pre.length =
      fetch_loop u s x (fuel + k) (merge u st (.braced t)) (pre.length + e.length + 2) := by
  have hat : charAt s pre.length = some '(' := by
    rw [hs]
    have := charAt_append_cons pre '(' (e ++ ')' :: rest)
    simpa using this
  have hs' : s = (pre ++ ['(']) ++ e ++ ')' :: rest := by
    rw [hs]
    simp
  have hf := (fetch_frame u e (pre ++ ['(']) (')' :: rest) x rfl fuel k).2.1 0 _ he
  rw [← hs'] at hf
  simp only [List.length_append, List.length_singleton, Nat.add_zero] at hf
  rw [fetch_loop_succ, hat]
  simp only [show is_parse_end '(' = false from by decide, Bool.false_eq_true, if_false, if_true,
    show ¬ ('(' = '+' ∨ '(' = '-' ∨ '(' = '*') from by decide, hf]
  exact congrArg (fetch_loop u s x _ _) (by omega)

/-- C3 does not hold in every build.  If `fetch` started at position 0 of a
text `e` returns a tree `t` with the cursor at the end of `e`, then on the text
`(e)` it returns `Parenthesised(t)` with the cursor at the end of that text, for
any fuel that exceeds the first by two or more; this part holds in every build.
For digit strings `a`, `b`, `c` the text `(a+b)*c` gives
Mul(Parenthesised(Sum(a, b)), c) where `create_node` reads its two arguments
in order, and Mul(c, Parenthesised(Sum(b, a))) where it reads the second
argument first. -/
theorem C3_fetch_parenthesised (u : va_order) (x : List symbol_t) :
    (∀ (e : List Char) (t : Node) (fuel : Nat), fetch u e x fuel 0 = some (t, e.length) →
      ∀ fuel', fuel + 2 ≤ fuel' →
        fetch u ('(' :: e ++ [')']) x fuel' 0 = some (.braced t, e.length + 2)) ∧
    (u.binary_in_order = true →
      ∀ a b c, is_digits a = true → is_digits b = true → is_digits c = true →
        ∀ fuel, a.length + b.length + c.length + 6 ≤ fuel →
          fetch u ('(' :: a ++ '+' :: b ++ ')' :: '*' :: c) x fuel 0 =
            some (.mul (.braced (.sum (literal a) (literal b))) (literal c),
              a.length + b.length + c.length + 4)) ∧
    (u.binary_in_order = false →
      ∀ a b c, is_digits a = true → is_digits b = true → is_digits c = true →
        ∀ fuel, a.length + b.length + c.length + 6 ≤ fuel →
          fetch u ('(' :: a ++ '+' :: b ++ ')' :: '*' :: c) x fuel 0 =
            some (.mul (literal c) (.braced (.sum (literal b) (literal a))),
              a.length + b.length + c.length + 4)) := by
  have group_factor : ∀ a b c, is_digits a = true → is_digits b = true → is_digits c = true →
      ∀ fuel, a.length + b.length + c.length + 6 ≤ fuel →
        fetch u ('(' :: a ++ '+' :: b ++ ')' :: '*' :: c) x fuel 0 =
          some (create_binary_node u .EXPR_MUL
            (.braced (create_binary_node u .EXPR_SUM (literal a) (literal b))) (literal c),
            a.length + b.length + c.length + 4) := by
    intro a b c ha hb hc fuel hfuel
    have he := fetch_expr u x ((a, []), [('+', (b, []))]) (by simp [expr_ok, term_ok, ha, hb])
      [] [] rfl (a.length + b.length + 3)
      (by simp [expr_text, term_text, terms_text, factors_text]; omega)
    simp only [expr_text, term_text, terms_text, factors_text, expr_tree, term_tree,
      List.append_nil, List.nil_append, List.foldl_cons, List.foldl_nil, if_true,
      List.length_nil, Nat.zero_add] at he
    obtain ⟨k, rfl⟩ : ∃ k, fuel = (a.length + b.length + 3) + k + 1 + 1 :=
      ⟨fuel - (a.length + b.length + 5), by omega⟩
    have hp := fetch_loop_paren u ('(' :: a ++ '+' :: b ++ ')' :: '*' :: c) [] (a ++ '+' :: b)
      ('*' :: c) (by simp) x _ (a.length + b.length + 3) k FetchState.init he
    simp only [List.length_nil, Nat.zero_add] at hp
    have hstar : charAt ('(' :: a ++ '+' :: b ++ ')' :: '*' :: c) ((a ++ '+' :: b).length + 2) =
        some '*' := by
      have := charAt_append_cons ('(' :: a ++ '+' :: b ++ [')']) '*' c
      simpa using this
    have hd := fetch_loop_digits_at u ('(' :: a ++ '+' :: b ++ ')' :: '*' :: c)
      ('(' :: a ++ '+' :: b ++ [')', '*']) c [] (by simp) x (a.length + b.length + k + 1)
      ⟨.null, .braced (create_binary_node u .EXPR_SUM (literal a) (literal b)), Char.ofNat 0, '*'⟩
      hc (by intro c r h; cases h)
    have hend : charAt ('(' :: a ++ '+' :: b ++ ')' :: '*' :: c)
        (('(' :: a ++ '+' :: b ++ [')', '*']).length + c.length) = some (Char.ofNat 0) := by
      have := charAt_length ('(' :: a ++ '+' :: b ++ ')' :: '*' :: c)
      simp only [List.length_cons, List.length_append, List.cons_append, List.length_nil] at this ⊢
      rw [← this]
      congr 1
      omega
    rw [fetch_succ, hp, show a.length + b.length + 3 + k = (a.length + b.length + k + 2) + 1
      from by omega, fetch_loop_operator u _ x _ _ hstar (Or.inr (Or.inr rfl))]
    have hm : merge u FetchState.init
        (.braced (create_binary_node u .EXPR_SUM (literal a) (literal b))) =
        ⟨.null, .braced (create_binary_node u .EXPR_SUM (literal a) (literal b)), Char.ofNat 0,
          Char.ofNat 0⟩ := by
      simp [merge, FetchState.init]
    rw [hm]
    refine (congrArg (fetch_loop u _ x _ _) ?_).trans (hd.trans ?_)
    · simp only [List.length_append, List.length_cons, List.length_nil]
      omega
    · rw [fetch_loop_end u _ x _ _ hend (by decide)]
      simp [merge, create_binary_node_ne_null]
      omega
  refine ⟨?_, ?_, ?_⟩
  · intro e t fuel he fuel' hfuel'
    obtain ⟨n, rfl⟩ := fetch_ne_zero u he
    obtain ⟨k, rfl⟩ : ∃ k, fuel' = n + 1 + k + 1 + 1 := ⟨fuel' - (n + 3), by omega⟩
    have hp := fetch_loop_paren u ('(' :: e ++ [')']) [] e [] (by simp) x t (n + 1) k
      FetchState.init he
    have hend : charAt ('(' :: e ++ [')']) (e.length + 2) = some (Char.ofNat 0) := by
      have := charAt_length ('(' :: e ++ [')'])
      simpa using this
    simp only [List.length_nil, Nat.zero_add] at hp
    rw [fetch_succ, hp, show n + 1 + k = (n + k) + 1 from by omega,
      fetch_loop_end u _ x (n + k) _ hend (by decide)]
    simp [merge, FetchState.init]
  · intro h
    simp only [create_binary_node, h, if_true] at group_factor
    exact group_factor
  · intro h
    simp only [create_binary_node, h, Bool.false_eq_true, if_false] at group_factor
    exact group_factor

/-- C3 on the text `1+2`, which `fetch` parses to its end with fuel 5, and on
`(1+2)*3` in a left to right and in a right to left build. -/
theorem C3_fetch_parenthesised_witness :
    fetch left_to_right ['1', '+', '2'] [] 5 0 = some (.sum (.value 1) (.value 2), 3) ∧
    fetch left_to_right ['(', '1', '+', '2', ')'] [] 7 0 =
      some (.braced (.sum (.value 1) (.value 2)), 5) ∧
    fetch left_to_right ['(', '1', '+', '2', ')', '*', '3'] [] 9 0 =
      some (.mul (.braced (.sum (.value 1) (.value 2))) (.value 3), 7) ∧
    fetch right_to_left ['(', '1', '+', '2', ')', '*', '3'] [] 9 0 =
      some (.mul (.value 3) (.braced (.sum (.value 2) (.value 1))), 7) :=
  ⟨by decide,
    (C3_fetch_parenthesised left_to_right []).1 ['1', '+', '2'] (.sum (.value 1) (.value 2)) 5
      (by decide) 7 (by decide),
    by decide,
    (C3_fetch_parenthesised right_to_left []).2.2 rfl ['1'] ['2'] ['3'] (by decide) (by decide)
      (by decide) 9 (by decide)⟩

theorem fetch_extern_name_all (name rest : List Char)
    (halnum : ∀ c ∈ name, c.isAlphanum = true)
    (hrest : ∀ c r, rest = c :: r → c.isAlphanum = false) :
    fetch_extern_name (name ++ rest) = name := by
  induction name with
  | nil =>
    cases rest with
    | nil => rfl
    | cons c r => simp [fetch_extern_name, hrest c r rfl]
  | cons c cs ih =>
    rw [List.cons_append, fetch_extern_name, if_pos (halnum c (List.mem_cons_self _ _)),
      ih (fun c' h' => halnum c' (List.mem_cons_of_mem _ h'))]

theorem charAt_after (pre mid rest : List Char) :
    charAt (pre ++ mid ++ rest) (pre.length + mid.length) =
      some (rest.headD (Char.ofNat 0)) := by
  cases rest with
  | nil =>
    have := charAt_length (pre ++ mid ++ [])
    simpa using this
  | cons c r =>
    have := charAt_append_cons (pre ++ mid) c r
    simpa using this

theorem fetch_extern_value (u : va_order) (s pre name rest : List Char) (hs : s = pre ++ name ++ rest)
    (x : List symbol_t) (ptr fuel : Nat)
    (halnum : ∀ c ∈ name, c.isAlphanum = true)
    (hlen : name.length < MAX_LENGTH)
    (hlook : lookup_extern name x = some ptr)
    (hrest : ∀ c r, rest = c :: r → c.isAlphanum = false ∧ c ≠ '(') :
    fetch_extern u s x (fuel + 1) pre.length =
      some (.externValue ptr, pre.length + name.length) := by
  have h1 : ¬ s.length < pre.length := by
    rw [hs]
    simp only [List.length_append]
    omega
  have h2 : s.drop pre.length = name ++ rest := by
    rw [hs, List.append_assoc, List.drop_left]
  have h3 : fetch_extern_name (name ++ rest) = name :=
    fetch_extern_name_all name rest halnum (fun c r h => (hrest c r h).1)
  have h4 : charAt s (pre.length + name.length) ≠ some '(' := by
    rw [hs, charAt_after]
    cases rest with
    | nil => decide
    | cons c r =>
      intro e
      injection e with e
      exact (hrest c r rfl).2 e
  rw [fetch_extern_succ, if_neg h1, h2, h3, if_neg (Nat.not_le.mpr hlen), hlook]
  simp only [if_neg h4]

theorem ne_of_isAlphanum {c k : Char} (h : c.isAlphanum = true) (hk : k.isAlphanum = false) :
    c ≠ k := by
  intro e
  subst e
  rw [h] at hk
  cases hk

theorem fetch_loop_extern_value (u : va_order) (s pre name rest : List Char) (hs : s = pre ++ name ++ rest)
    (x : List symbol_t) (ptr fuel : Nat) (st : FetchState) (hne : name ≠ [])
    (halnum : ∀ c ∈ name, c.isAlphanum = true)
    (hfirst : ∀ c r, name = c :: r → c.isDigit = false)
    (hlen : name.length < MAX_LENGTH)
    (hlook : lookup_extern name x = some ptr)
    (hrest : ∀ c r, rest = c :: r → c.isAlphanum = false ∧ c ≠ '(') :
    fetch_loop u s x (fuel + 1 + 1) st pre.length =
      fetch_loop u s x (fuel + 1) (merge u st (.externValue ptr)) (pre.length + name.length) := by
  obtain ⟨c, cs, rfl⟩ := List.exists_cons_of_ne_nil hne
  have hc : c.isAlphanum = true := halnum c (List.mem_cons_self _ _)
  have hat : charAt s pre.length = some c := by
    rw [hs]
    have := charAt_append_cons pre c (cs ++ rest)
    simpa using this
  have he : is_parse_end c = false :=
    not_parse_end_of_ne (ne_of_isAlphanum hc (by decide)) (ne_of_isAlphanum hc (by decide))
      (ne_of_isAlphanum hc (by decide))
  have hop : ¬ (c = '+' ∨ c = '-' ∨ c = '*') := by
    rintro (e | e | e)
    · exact ne_of_isAlphanum hc (by decide) e
    · exact ne_of_isAlphanum hc (by decide) e
    · exact ne_of_isAlphanum hc (by decide) e
  have hpar : c ≠ '(' := ne_of_isAlphanum hc (by decide)
  rw [fetch_loop_succ, hat]
  simp only [he, hop, hpar, hfirst c cs rfl, if_true, Bool.false_eq_true, if_false]
  rw [fetch_extern_value u s pre (c :: cs) rest hs x ptr fuel halnum hlen hlook hrest]

theorem Factor.ne_null {u : va_order} {x : List symbol_t} {fx : List Char} {tx : Node} (h : Factor u x fx tx) :
    tx ≠ Node.null := by
  cases h <;> simp [Jit.literal]

theorem fetch_loop_factor (u : va_order) {x : List symbol_t} {fx : List Char} {tx : Node} (h : Factor u x fx tx) :
    ∃ N, ∀ (k : Nat) (s pre rest : List Char) (st : FetchState),
      s = pre ++ fx ++ rest →
      (∀ c r, rest = c :: r → c.isAlphanum = false ∧ c ≠ '(') →
      fetch_loop u s x (N + k + 1) st pre.length =
        fetch_loop u s x (N + k) (merge u st tx) (pre.length + fx.length) := by
  cases h with
  | literal d hd =>
    refine ⟨0, ?_⟩
    intro k s pre rest st hs hrest
    exact fetch_loop_digits_at u s pre fx rest hs x (0 + k) st hd (fun c r hc => by
      have := (hrest c r hc).1
      cases hd' : c.isDigit with
      | false => rfl
      | true =>
        have : c.isAlphanum = true := by simp [Char.isAlphanum, hd']
        simp_all)
  | extern_value name p hne halnum hfirst hlen hlook =>
    refine ⟨1, ?_⟩
    intro k s pre rest st hs hrest
    rw [show 1 + k + 1 = k + 1 + 1 from by omega, show 1 + k = k + 1 from by omega]
    exact fetch_loop_extern_value u s pre fx rest hs x p k st hne halnum hfirst hlen hlook hrest
  | group e t fuel he =>
    refine ⟨fuel, ?_⟩
    intro k s pre rest st hs hrest
    have := fetch_loop_paren u s pre e rest (by rw [hs]; simp) x t fuel k st he
    rw [this]
    exact congrArg (fetch_loop u s x _ _) (by simp; omega)

theorem follows_nil : ∀ c r, ([] : List Char) = c :: r → c.isAlphanum = false ∧ c ≠ '(' := by
  intro c r h
  cases h

theorem follows_operator (o : Char) (ho : o = '+' ∨ o = '-' ∨ o = '*') (rest : List Char) :
    ∀ c r, o :: rest = c :: r → c.isAlphanum = false ∧ c ≠ '(' := by
  intro c r h
  injection h with h1 h2
  subst h1
  rcases ho with e | e | e <;> subst e <;> decide

/-- The trees of a text that starts with `-`, built by `create_node` in the
read order `u`. -/
theorem fetch_leading_minus (u : va_order) (x : List symbol_t) (fx fy : List Char) (tx ty : Node)
    (hx : Factor u x fx tx) (hy : Factor u x fy ty) :
    ∃ N, ∀ fuel, N ≤ fuel →
      fetch u ('-' :: fx) x fuel 0 =
        some (create_binary_node u .EXPR_MUL (.value (-1)) tx, fx.length + 1) ∧
      fetch u ('-' :: fx ++ '*' :: fy) x fuel 0 =
        some (create_binary_node u .EXPR_MUL (create_binary_node u .EXPR_MUL (.value (-1)) tx) ty,
          fx.length + fy.length + 2) ∧
      fetch u ('-' :: fx ++ '+' :: fy) x fuel 0 =
        some (create_binary_node u .EXPR_SUM (create_binary_node u .EXPR_MUL (.value (-1)) tx) ty,
          fx.length + fy.length + 2) := by
  obtain ⟨Nx, hNx⟩ := fetch_loop_factor u hx
  obtain ⟨Ny, hNy⟩ := fetch_loop_factor u hy
  have hty := hy.ne_null
  refine ⟨Nx + Ny + 6, ?_⟩
  intro fuel hfuel
  obtain ⟨j, rfl⟩ : ∃ j, fuel = Nx + (Ny + j + 3) + 1 + 1 + 1 := ⟨fuel - (Nx + Ny + 6), by omega⟩
  have hminus : ∀ rest, charAt ('-' :: fx ++ rest) 0 = some '-' := by
    intro rest
    exact charAt_append_cons [] '-' (fx ++ rest)
  have hm1 : merge u ⟨.null, .null, Char.ofNat 0, '-'⟩ tx =
      ⟨.null, create_binary_node u .EXPR_MUL (.value (-1)) tx, Char.ofNat 0, '-'⟩ := by
    simp [merge, create_binary_node_ne_null]
  refine ⟨?_, ?_, ?_⟩
  · have h0 := hminus []
    rw [List.append_nil] at h0
    have hend : charAt ('-' :: fx) (1 + fx.length) = some (Char.ofNat 0) := by
      have := charAt_length ('-' :: fx)
      simp only [List.length_cons] at this
      rw [Nat.add_comm]
      exact this
    rw [fetch_succ, fetch_loop_operator u _ x _ _ h0 (Or.inr (Or.inl rfl))]
    have hstep := hNx (Ny + j + 3) ('-' :: fx) ['-'] [] ⟨.null, .null, Char.ofNat 0, '-'⟩
      (by simp) follows_nil
    simp only [List.length_singleton] at hstep
    refine hstep.trans ?_
    rw [hm1, show Nx + (Ny + j + 3) = (Nx + Ny + j + 2) + 1 from by omega,
      fetch_loop_end u _ x _ _ hend (by decide)]
    simp [merge, create_binary_node_ne_null]
    omega
  · have h0 := hminus ('*' :: fy)
    have hs : '-' :: fx ++ '*' :: fy = '-' :: (fx ++ '*' :: fy) := rfl
    have hstar : charAt ('-' :: fx ++ '*' :: fy) (1 + fx.length) = some '*' := by
      have := charAt_append_cons ('-' :: fx) '*' fy
      simp only [List.length_cons] at this
      rw [Nat.add_comm]
      exact this
    have hend : charAt ('-' :: fx ++ '*' :: fy) (('-' :: fx ++ ['*']).length + fy.length) =
        some (Char.ofNat 0) := by
      have := charAt_length ('-' :: fx ++ '*' :: fy)
      simp only [List.length_cons, List.length_append, List.cons_append, List.length_nil] at this ⊢
      rw [← this]
      congr 1
      omega
    rw [fetch_succ, fetch_loop_operator u _ x _ _ h0 (Or.inr (Or.inl rfl))]
    have hstep := hNx (Ny + j + 3) ('-' :: fx ++ '*' :: fy) ['-'] ('*' :: fy)
      ⟨.null, .null, Char.ofNat 0, '-'⟩ (by simp) (follows_operator '*' (by simp) fy)
    simp only [List.length_singleton] at hstep
    refine hstep.trans ?_
    rw [hm1, show Nx + (Ny + j + 3) = (Ny + (Nx + j + 1) + 1) + 1 from by omega,
      fetch_loop_operator u _ x _ _ hstar (Or.inr (Or.inr rfl))]
    have hstep2 := hNy (Nx + j + 1) ('-' :: fx ++ '*' :: fy) ('-' :: fx ++ ['*']) []
      ⟨.null, create_binary_node u .EXPR_MUL (.value (-1)) tx, Char.ofNat 0, '*'⟩ (by simp) follows_nil
    refine (congrArg (fetch_loop u _ x _ _) ?_).trans (hstep2.trans ?_)
    · simp only [List.length_append, List.length_cons, List.length_nil]
      omega
    · rw [show Ny + (Nx + j + 1) = (Ny + Nx + j) + 1 from by omega,
        fetch_loop_end u _ x _ _ hend (by decide)]
      simp [merge, create_binary_node_ne_null]
      omega
  · have h0 := hminus ('+' :: fy)
    have hplus : charAt ('-' :: fx ++ '+' :: fy) (1 + fx.length) = some '+' := by
      have := charAt_append_cons ('-' :: fx) '+' fy
      simp only [List.length_cons] at this
      rw [Nat.add_comm]
      exact this
    have hend : charAt ('-' :: fx ++ '+' :: fy) (('-' :: fx ++ ['+']).length + fy.length) =
        some (Char.ofNat 0) := by
      have := charAt_length ('-' :: fx ++ '+' :: fy)
      simp only [List.length_cons, List.length_append, List.cons_append, List.length_nil] at this ⊢
      rw [← this]
      congr 1
      omega
    rw [fetch_succ, fetch_loop_operator u _ x _ _ h0 (Or.inr (Or.inl rfl))]
    have hstep := hNx (Ny + j + 3) ('-' :: fx ++ '+' :: fy) ['-'] ('+' :: fy)
      ⟨.null, .null, Char.ofNat 0, '-'⟩ (by simp) (follows_operator '+' (by simp) fy)
    simp only [List.length_singleton] at hstep
    refine hstep.trans ?_
    rw [hm1, show Nx + (Ny + j + 3) = (Ny + (Nx + j + 1) + 1) + 1 from by omega,
      fetch_loop_operator u _ x _ _ hplus (Or.inl rfl)]
    have hstep2 := hNy (Nx + j + 1) ('-' :: fx ++ '+' :: fy) ('-' :: fx ++ ['+']) []
      ⟨.null, create_binary_node u .EXPR_MUL (.value (-1)) tx, Char.ofNat 0, '+'⟩ (by simp) follows_nil
    refine (congrArg (fetch_loop u _ x _ _) ?_).trans (hstep2.trans ?_)
    · simp only [List.length_append, List.length_cons, List.length_nil]
      omega
    · rw [show Ny + (Nx + j + 1) = (Ny + Nx + j) + 1 from by omega,
        fetch_loop_end u _ x _ _ hend (by decide)]
      simp [merge, hty, create_binary_node_ne_null]
      omega

/-- C4 does not hold in every build.  A `-` at the start of the text is unary
minus, built as the Mul node `create_node(EXPR_MUL, Literal(-1), x)`: for all
factors `x` and `y` (literals, extern values of the table, parenthesised
groups) with trees `tx` and `ty`, given enough fuel and with the cursor left at
the end of the text, where `create_node` reads its two arguments in order
`fetch` returns Mul(Literal(-1), tx) on `-x`, Mul(Mul(Literal(-1), tx), ty) on
`-x*y` and Sum(Mul(Literal(-1), tx), ty) on `-x+y`; where it reads the second
argument first, `fetch` returns Mul(tx, Literal(-1)) on `-x`,
Mul(ty, Mul(tx, Literal(-1))) on `-x*y` and Sum(ty, Mul(tx, Literal(-1))) on
`-x+y`. -/
theorem C4_leading_minus (u : va_order) (x : List symbol_t) (fx fy : List Char) (tx ty : Node)
    (hx : Factor u x fx tx) (hy : Factor u x fy ty) :
    ∃ N, ∀ fuel, N ≤ fuel →
      (u.binary_in_order = true →
        fetch u ('-' :: fx) x fuel 0 = some (.mul (.value (-1)) tx, fx.length + 1) ∧
        fetch u ('-' :: fx ++ '*' :: fy) x fuel 0 =
          some (.mul (.mul (.value (-1)) tx) ty, fx.length + fy.length + 2) ∧
        fetch u ('-' :: fx ++ '+' :: fy) x fuel 0 =
          some (.sum (.mul (.value (-1)) tx) ty, fx.length + fy.length + 2)) ∧
      (u.binary_in_order = false →
        fetch u ('-' :: fx) x fuel 0 = some (.mul tx (.value (-1)), fx.length + 1) ∧
        fetch u ('-' :: fx ++ '*' :: fy) x fuel 0 =
          some (.mul ty (.mul tx (.value (-1))), fx.length + fy.length + 2) ∧
        fetch u ('-' :: fx ++ '+' :: fy) x fuel 0 =
          some (.sum ty (.mul tx (.value (-1))), fx.length + fy.length + 2)) := by
  obtain ⟨N, hN⟩ := fetch_leading_minus u x fx fy tx ty hx hy
  refine ⟨N, ?_⟩
  intro fuel hfuel
  have h := hN fuel hfuel
  constructor
  · intro ho
    simp only [create_binary_node, ho, if_true] at h
    exact h
  · intro ho
    simp only [create_binary_node, ho, Bool.false_eq_true, if_false] at h
    exact h

/-- C4 with the extern value `a` and the group `(1+2)` as factors, in a left to
right and in a right to left build. -/
theorem C4_leading_minus_witness :
    Factor left_to_right [⟨['a'], 7⟩] ['a'] (.externValue 7) ∧
    Factor left_to_right [⟨['a'], 7⟩] ['(', '1', '+', '2', ')']
      (.braced (.sum (.value 1) (.value 2))) ∧
    Factor right_to_left [⟨['a'], 7⟩] ['(', '1', '+', '2', ')']
      (.braced (.sum (.value 2) (.value 1))) ∧
    fetch left_to_right ['-', 'a', '+', '(', '1', '+', '2', ')'] [⟨['a'], 7⟩] 12 0 =
      some (.sum (.mul (.value (-1)) (.externValue 7)) (.braced (.sum (.value 1) (.value 2))), 8) ∧
    fetch right_to_left ['-', 'a', '+', '(', '1', '+', '2', ')'] [⟨['a'], 7⟩] 12 0 =
      some (.sum (.braced (.sum (.value 2) (.value 1))) (.mul (.externValue 7) (.value (-1))), 8) ∧
    (∃ N, ∀ fuel, N ≤ fuel →
      (left_to_right.binary_in_order = true →
        fetch left_to_right ('-' :: ['a']) [⟨['a'], 7⟩] fuel 0 =
          some (.mul (.value (-1)) (.externValue 7), ['a'].length + 1) ∧
        fetch left_to_right ('-' :: ['a'] ++ '*' :: ['(', '1', '+', '2', ')']) [⟨['a'], 7⟩] fuel 0 =
          some (.mul (.mul (.value (-1)) (.externValue 7)) (.braced (.sum (.value 1) (.value 2))),
            ['a'].length + ['(', '1', '+', '2', ')'].length + 2) ∧
        fetch left_to_right ('-' :: ['a'] ++ '+' :: ['(', '1', '+', '2', ')']) [⟨['a'], 7⟩] fuel 0 =
          some (.sum (.mul (.value (-1)) (.externValue 7)) (.braced (.sum (.value 1) (.value 2))),
            ['a'].length + ['(', '1', '+', '2', ')'].length + 2)) ∧
      (left_to_right.binary_in_order = false →
        fetch left_to_right ('-' :: ['a']) [⟨['a'], 7⟩] fuel 0 =
          some (.mul (.externValue 7) (.value (-1)), ['a'].length + 1) ∧
        fetch left_to_right ('-' :: ['a'] ++ '*' :: ['(', '1', '+', '2', ')']) [⟨['a'], 7⟩] fuel 0 =
          some (.mul (.braced (.sum (.value 1) (.value 2))) (.mul (.externValue 7) (.value (-1))),
            ['a'].length + ['(', '1', '+', '2', ')'].length + 2) ∧
        fetch left_to_right ('-' :: ['a'] ++ '+' :: ['(', '1', '+', '2', ')']) [⟨['a'], 7⟩] fuel 0 =
          some (.sum (.braced (.sum (.value 1) (.value 2))) (.mul (.externValue 7) (.value (-1))),
            ['a'].length + ['(', '1', '+', '2', ')'].length + 2))) :=
  ⟨Factor.extern_value ['a'] 7 (by decide) (by decide) (by intro c r h; cases h; decide)
      (by decide) (by decide),
    Factor.group ['1', '+', '2'] (.sum (.value 1) (.value 2)) 5 (by decide),
    Factor.group ['1', '+', '2'] (.sum (.value 2) (.value 1)) 5 (by decide),
    by decide,
    by decide,
    C4_leading_minus left_to_right [⟨['a'], 7⟩] ['a'] ['(', '1', '+', '2', ')'] (.externValue 7)
      (.braced (.sum (.value 1) (.value 2)))
      (Factor.extern_value ['a'] 7 (by decide) (by decide) (by intro c r h; cases h; decide)
        (by decide) (by decide))
      (Factor.group ['1', '+', '2'] (.sum (.value 1) (.value 2)) 5 (by decide))⟩

/-- C5, as stated, fails in every build: the tree `fetch` returns for `2*-3`
and for `2--3` is Sub(2, 3), which denotes -1, where `create_node` reads its
two arguments in order, and Sub(3, 2), which denotes 1, where it reads the
second argument first, while `2 * (-3)` is -6 and `2 - (-3)` is 5 modulo
`2 ^ 32`. -/
theorem C5_counterexample :
    (fetch left_to_right ['2', '*', '-', '3'] [] 8 0 = some (.sub (.value 2) (.value 3), 4) ∧
      fetch left_to_right ['2', '-', '-', '3'] [] 8 0 = some (.sub (.value 2) (.value 3), 4) ∧
      denote (.sub (.value 2) (.value 3)) = some 4294967295 ∧
      denote (.sub (.value 2) (.value 3)) ≠ some ((2 * (4294967296 - 3)) % 4294967296) ∧
      denote (.sub (.value 2) (.value 3)) ≠
        some ((2 + 4294967296 - (4294967296 - 3)) % 4294967296)) ∧
    (fetch right_to_left ['2', '*', '-', '3'] [] 8 0 = some (.sub (.value 3) (.value 2), 4) ∧
      fetch right_to_left ['2', '-', '-', '3'] [] 8 0 = some (.sub (.value 3) (.value 2), 4) ∧
      denote (.sub (.value 3) (.value 2)) = some 1 ∧
      denote (.sub (.value 3) (.value 2)) ≠ some ((2 * (4294967296 - 3)) % 4294967296) ∧
      denote (.sub (.value 3) (.value 2)) ≠
        some ((2 + 4294967296 - (4294967296 - 3)) % 4294967296)) := by
  decide

/-- C5, amended: a `-` that follows an operator is not a unary minus, it
replaces the pending operator; for all digit strings `a` and `b`, `fetch`
returns for the text `a*-b` and for the text `a--b` the node
`create_node(EXPR_SUB, a, b)`.  Where `create_node` reads its two arguments in
order this is Sub(a, b), which denotes `a - b` modulo `2 ^ 32`; where it reads
the second argument first it is Sub(b, a), which denotes `b - a`. -/
theorem C5_minus_after_operator (u : va_order) (x : List symbol_t) (a b : List Char)
    (ha : is_digits a = true) (hb : is_digits b = true) (fuel : Nat) (hfuel : 6 ≤ fuel) :
    fetch u (a ++ '*' :: '-' :: b) x fuel 0 =
      some (create_binary_node u .EXPR_SUB (literal a) (literal b), a.length + b.length + 2) ∧
    fetch u (a ++ '-' :: '-' :: b) x fuel 0 =
      some (create_binary_node u .EXPR_SUB (literal a) (literal b), a.length + b.length + 2) ∧
    (u.binary_in_order = true →
      create_binary_node u .EXPR_SUB (literal a) (literal b) = .sub (literal a) (literal b) ∧
      denote (create_binary_node u .EXPR_SUB (literal a) (literal b)) =
        some ((decimal a % 4294967296 + 4294967296 - decimal b % 4294967296) % 4294967296)) ∧
    (u.binary_in_order = false →
      create_binary_node u .EXPR_SUB (literal a) (literal b) = .sub (literal b) (literal a) ∧
      denote (create_binary_node u .EXPR_SUB (literal a) (literal b)) =
        some ((decimal b % 4294967296 + 4294967296 - decimal a % 4294967296) % 4294967296)) := by
  obtain ⟨k, rfl⟩ : ∃ k, fuel = k + 1 + 1 + 1 + 1 + 1 + 1 := ⟨fuel - 6, by omega⟩
  have key : ∀ o : Char, (o = '+' ∨ o = '-' ∨ o = '*') →
      fetch u (a ++ o :: '-' :: b) x (k + 1 + 1 + 1 + 1 + 1 + 1) 0 =
        some (create_binary_node u .EXPR_SUB (literal a) (literal b),
          a.length + b.length + 2) := by
    intro o ho
    have hda := fetch_loop_digits_at u (a ++ o :: '-' :: b) [] a (o :: '-' :: b) (by simp) x
      (k + 1 + 1 + 1 + 1) FetchState.init ha (by
        intro c r h
        injection h with h1 h2
        subst h1
        rcases ho with e | e | e <;> subst e <;> decide)
    have ho1 : charAt (a ++ o :: '-' :: b) (0 + a.length) = some o := by
      have := charAt_append_cons a o ('-' :: b)
      simpa using this
    have ho2 : charAt (a ++ o :: '-' :: b) (0 + a.length + 1) = some '-' := by
      have := charAt_append_cons (a ++ [o]) '-' b
      simpa using this
    have hdb := fetch_loop_digits_at u (a ++ o :: '-' :: b) (a ++ [o, '-']) b [] (by simp) x
      (k + 1) ⟨.null, literal a, Char.ofNat 0, '-'⟩ hb (by intro c r h; cases h)
    have hend : charAt (a ++ o :: '-' :: b) ((a ++ [o, '-']).length + b.length) =
        some (Char.ofNat 0) := by
      have := charAt_length (a ++ o :: '-' :: b)
      simp only [List.length_cons, List.length_append, List.length_nil] at this ⊢
      rw [← this]
      congr 1
      omega
    have hm : merge u FetchState.init (literal a) =
        ⟨.null, literal a, Char.ofNat 0, Char.ofNat 0⟩ := by
      simp [merge, FetchState.init]
    have hm2 : merge u ⟨.null, literal a, Char.ofNat 0, '-'⟩ (literal b) =
        ⟨literal a, literal b, '-', '-'⟩ := by
      simp [merge, literal_ne_null]
    have hm3 : (merge u { (⟨literal a, literal b, '-', '-'⟩ : FetchState) with
        last_binary_operation := '+' } .null).prev_addend =
        create_binary_node u .EXPR_SUB (literal a) (literal b) := by
      simp [merge, literal_ne_null]
    simp only [List.length_nil] at hda
    rw [fetch_succ, hda, hm, fetch_loop_operator u _ x _ _ ho1 ho,
      fetch_loop_operator u _ x _ _ ho2 (Or.inr (Or.inl rfl))]
    refine (congrArg (fetch_loop u _ x _ _) ?_).trans (hdb.trans ?_)
    · simp only [List.length_append, List.length_cons, List.length_nil]
      omega
    · rw [fetch_loop_end u _ x _ _ hend (by decide), hm2, hm3]
      simp only [List.length_append, List.length_cons, List.length_nil]
      congr 2
      omega
  refine ⟨key '*' (Or.inr (Or.inr rfl)), key '-' (Or.inr (Or.inl rfl)), ?_, ?_⟩
  · intro ho
    rw [(create_binary_node_in_order ho _ _).2.1]
    refine ⟨rfl, ?_⟩
    simp only [denote, literal, toUInt32_toInt32, Nat.mod_mod, Option.bind, Option.map]
  · intro ho
    rw [(create_binary_node_reversed ho _ _).2.1]
    refine ⟨rfl, ?_⟩
    simp only [denote, literal, toUInt32_toInt32, Nat.mod_mod, Option.bind, Option.map]

/-- C5, amended, at `a = 2` and `b = 3`, in a left to right and in a right to
left build. -/
theorem C5_minus_after_operator_witness :
    (fetch left_to_right (['2'] ++ '*' :: '-' :: ['3']) [] 6 0 =
        some (.sub (.value 2) (.value 3), 4) ∧
      fetch left_to_right (['2'] ++ '-' :: '-' :: ['3']) [] 6 0 =
        some (.sub (.value 2) (.value 3), 4)) ∧
    (fetch right_to_left (['2'] ++ '*' :: '-' :: ['3']) [] 6 0 =
        some (.sub (.value 3) (.value 2), 4) ∧
      fetch right_to_left (['2'] ++ '-' :: '-' :: ['3']) [] 6 0 =
        some (.sub (.value 3) (.value 2), 4)) ∧
    denote (create_binary_node right_to_left .EXPR_SUB (literal ['2']) (literal ['3'])) =
      some ((decimal ['3'] % 4294967296 + 4294967296 - decimal ['2'] % 4294967296) %
        4294967296) :=
  ⟨⟨(C5_minus_after_operator left_to_right [] ['2'] ['3'] (by decide) (by decide) 6
        (by decide)).1,
      (C5_minus_after_operator left_to_right [] ['2'] ['3'] (by decide) (by decide) 6
        (by decide)).2.1⟩,
    ⟨(C5_minus_after_operator right_to_left [] ['2'] ['3'] (by decide) (by decide) 6
        (by decide)).1,
      (C5_minus_after_operator right_to_left [] ['2'] ['3'] (by decide) (by decide) 6
        (by decide)).2.1⟩,
    ((C5_minus_after_operator right_to_left [] ['2'] ['3'] (by decide) (by decide) 6
      (by decide)).2.2.2 rfl).2⟩

theorem args_text_cons (e e' : List Char) (es : List (List Char)) :
    args_text (e :: e' :: es) = e ++ ',' :: args_text (e' :: es) := rfl

theorem fetch_extern_function_args (u : va_order) (x : List symbol_t) (ptr : Nat)
    (es : List (List Char)) (ts : List Node)
    (hargs : List.Forall₂ (fun e t => ∃ fuel, fetch u e x fuel 0 = some (t, e.length)) es ts) :
    es ≠ [] → ∃ N, ∀ (k : Nat) (s pre rest : List Char) (args : List Node),
      s = pre ++ args_text es ++ ')' :: rest →
      args.length + es.length ≤ 4 →
      fetch_extern_function u s x (N + k) ptr args pre.length =
        (create_extern_function_node u ptr (args ++ ts)).map
          (fun node => (node, pre.length + (args_text es).length + 1)) := by
  induction hargs with
  | nil => exact fun h => absurd rfl h
  | @cons e t es ts het hrest ih =>
    intro _
    obtain ⟨fe, hfe⟩ := het
    cases es with
    | nil =>
      cases hrest
      refine ⟨fe + 1, ?_⟩
      intro k s pre rest args hs hlen
      have hf := (fetch_frame u e pre (')' :: rest) x rfl fe k).2.1 0 _ hfe
      simp only [args_text] at hs ⊢
      rw [← hs] at hf
      simp only [Nat.add_zero] at hf
      have hat : charAt s (pre.length + e.length) = some ')' := by
        rw [hs]
        have := charAt_append_cons (pre ++ e) ')' rest
        simpa using this
      have ha : ¬ MAX_ARGS ≤ args.length := by
        simp only [List.length_singleton] at hlen
        simp only [MAX_ARGS]
        omega
      rw [show fe + 1 + k = (fe + k) + 1 from by omega, fetch_extern_function_succ, if_neg ha, hf]
      simp only [hat, if_true]
      cases create_extern_function_node u ptr (args ++ [t]) <;> rfl
    | cons e' es' =>
      obtain ⟨N, hN⟩ := ih (by simp)
      refine ⟨fe + N + 1, ?_⟩
      intro k s pre rest args hs hlen
      rw [args_text_cons] at hs
      have hs1 : s = pre ++ e ++ ',' :: (args_text (e' :: es') ++ ')' :: rest) := by
        rw [hs]
        simp
      have hs2 : s = (pre ++ e ++ [',']) ++ args_text (e' :: es') ++ ')' :: rest := by
        rw [hs]
        simp
      have hf := (fetch_frame u e pre (',' :: (args_text (e' :: es') ++ ')' :: rest)) x rfl fe
        (N + k)).2.1 0 _ hfe
      rw [← hs1] at hf
      simp only [Nat.add_zero] at hf
      have hat : charAt s (pre.length + e.length) = some ',' := by
        rw [hs1]
        have := charAt_append_cons (pre ++ e) ',' (args_text (e' :: es') ++ ')' :: rest)
        simpa using this
      have ha : ¬ MAX_ARGS ≤ args.length := by
        simp only [List.length_cons] at hlen
        simp only [MAX_ARGS]
        omega
      have hrec := hN (fe + k) s (pre ++ e ++ [',']) rest (args ++ [t]) hs2 (by
        simp only [List.length_append, List.length_cons, List.length_nil] at hlen ⊢
        omega)
      rw [show fe + N + 1 + k = (fe + (N + k)) + 1 from by omega, fetch_extern_function_succ,
        if_neg ha, hf]
      simp only [hat, show ¬ (',' = ')') from by decide, if_false]
      rw [show fe + (N + k) = N + (fe + k) from by omega]
      refine (congrArg (fetch_extern_function u s x _ ptr _) ?_).trans (hrec.trans ?_)
      · simp only [List.length_append, List.length_cons, List.length_nil]
      · simp only [List.append_assoc, List.singleton_append, args_text_cons, List.length_append,
          List.length_cons, List.length_nil]
        rw [show pre.length + (e.length + (0 + 1)) + (args_text (e' :: es')).length + 1 =
          pre.length + (e.length + ((args_text (e' :: es')).length + 1)) + 1 from by omega]

/-- C7, as stated, fails for an identifier that fills the name buffer: with a
name of 100 letters bound in the table, `fetch_extern` on `name(1)` writes the
terminating NUL past `extern_name[MAX_LENGTH]` and has no defined result in any
build, though the argument text `1` parses. -/
theorem C7_counterexample :
    lookup_extern (List.replicate 100 'a') [⟨List.replicate 100 'a', 7⟩] = some 7 ∧
    fetch left_to_right ['1'] [⟨List.replicate 100 'a', 7⟩] 3 0 = some (.value 1, 1) ∧
    fetch right_to_left ['1'] [⟨List.replicate 100 'a', 7⟩] 3 0 = some (.value 1, 1) ∧
    ¬ ∃ u fuel r, fetch_extern u (List.replicate 100 'a' ++ ['(', '1', ')'])
      [⟨List.replicate 100 'a', 7⟩] fuel 0 = some r := by
  refine ⟨by decide, by decide, by decide, ?_⟩
  rintro ⟨u, fuel, r, h⟩
  cases fuel with
  | zero =>
    rw [ fetch_extern] at h
    cases h
  | succ n =>
    have hn : fetch_extern_name ((List.replicate 100 'a' ++ ['(', '1', ')']).drop 0) =
        List.replicate 100 'a' := by decide
    rw [fetch_extern_succ, hn] at h
    simp [MAX_LENGTH] at h

/-- C7, amended: for every identifier `f` of fewer than `MAX_LENGTH` (100)
characters bound to `p` in the symbol table and every `k` with `1 <= k <= 4`
argument texts `e1..ek` that `fetch` parses to their ends as `t1..tk`, given
enough fuel `fetch_extern` on `f(e1,...,ek)` returns the node
`create_node(EXPR_EXTERN_FUNCTION, p, k, args)` for the array `args` that holds
`t1..tk` in its first slots and NULL in the others, with the cursor right after
the closing `)`.  Where `create_node` reads its three arguments in order this
is the ExternFunction node with pointer `p`, `args_n = k` and the arguments
`t1..tk` in source order; where it reads them in another order the fields of
the node are exchanged and the call has no defined result. -/
theorem C7_fetch_extern_call (u : va_order) (x : List symbol_t) (f : List Char) (p : Nat)
    (es : List (List Char)) (ts : List Node)
    (halnum : ∀ c ∈ f, c.isAlphanum = true) (hlen : f.length < MAX_LENGTH)
    (hlook : lookup_extern f x = some p)
    (hk1 : 1 ≤ es.length) (hk4 : es.length ≤ 4)
    (hargs : List.Forall₂ (fun e t => ∃ fuel, fetch u e x fuel 0 = some (t, e.length)) es ts) :
    ∃ N, ∀ fuel, N ≤ fuel →
      fetch_extern u (f ++ '(' :: args_text es ++ [')']) x fuel 0 =
        (create_extern_function_node u p ts).map
          (fun node => (node, (f ++ '(' :: args_text es ++ [')']).length)) ∧
      (u.function_in_order = true →
        fetch_extern u (f ++ '(' :: args_text es ++ [')']) x fuel 0 =
          some (.externFunction p es.length (ts.getD 0 .null) (ts.getD 1 .null)
            (ts.getD 2 .null) (ts.getD 3 .null), (f ++ '(' :: args_text es ++ [')']).length)) ∧
      (u.function_in_order = false →
        fetch_extern u (f ++ '(' :: args_text es ++ [')']) x fuel 0 = none) := by
  have hes : es ≠ [] := by
    intro h
    rw [h] at hk1
    cases hk1
  obtain ⟨N, hN⟩ := fetch_extern_function_args u x p es ts hargs hes
  refine ⟨N + 1, ?_⟩
  intro fuel hfuel
  obtain ⟨k, rfl⟩ : ∃ k, fuel = (N + k) + 1 := ⟨fuel - (N + 1), by omega⟩
  have h2 : (f ++ '(' :: args_text es ++ [')']).drop 0 = f ++ ('(' :: args_text es ++ [')']) := by
    simp
  have h3 : fetch_extern_name (f ++ ('(' :: args_text es ++ [')'])) = f :=
    fetch_extern_name_all f _ halnum (by
      intro c r h
      injection h with h1 _
      subst h1
      decide)
  have h4 : charAt (f ++ '(' :: args_text es ++ [')']) (0 + f.length) = some '(' := by
    have := charAt_append_cons f '(' (args_text es ++ [')'])
    simpa using this
  have hrec := hN k (f ++ '(' :: args_text es ++ [')']) (f ++ ['(']) [] [] (by simp)
    (by simpa using hk4)
  have main : fetch_extern u (f ++ '(' :: args_text es ++ [')']) x (N + k + 1) 0 =
      (create_extern_function_node u p ts).map
        (fun node => (node, (f ++ '(' :: args_text es ++ [')']).length)) := by
    rw [fetch_extern_succ, if_neg (Nat.not_lt_zero _), h2, h3, if_neg (Nat.not_le.mpr hlen), hlook]
    simp only [h4, if_true]
    refine (congrArg (fetch_extern_function u (f ++ '(' :: args_text es ++ [')']) x (N + k) p [])
      ?_).trans (hrec.trans ?_)
    · simp
    · simp only [List.nil_append, List.length_append, List.length_cons, List.length_nil]
      rw [show f.length + (0 + 1) + (args_text es).length + 1 =
        f.length + ((args_text es).length + 1) + (0 + 1) from by omega]
  refine ⟨main, ?_, ?_⟩
  · intro ho
    rw [main, create_extern_function_node_in_order ho, hargs.length_eq]
    rfl
  · intro ho
    rw [main, create_extern_function_node_reversed ho]
    rfl

/-- C7, amended, on `add(7,mul(3,4))` in a left to right build and on
`add(7,8)` in a right to left build. -/
theorem C7_fetch_extern_call_witness :
    fetch_extern left_to_right
      ['a', 'd', 'd', '(', '7', ',', 'm', 'u', 'l', '(', '3', ',', '4', ')', ')']
      [⟨['a', 'd', 'd'], 1000⟩, ⟨['m', 'u', 'l'], 2000⟩] 12 0 =
      some (.externFunction 1000 2 (.value 7)
        (.externFunction 2000 2 (.value 3) (.value 4) .null .null) .null .null, 15) ∧
    fetch_extern right_to_left ['a', 'd', 'd', '(', '7', ',', '8', ')']
      [⟨['a', 'd', 'd'], 1000⟩, ⟨['m', 'u', 'l'], 2000⟩] 12 0 = none ∧
    (∃ N, ∀ fuel, N ≤ fuel →
      fetch_extern left_to_right (['a', 'd', 'd'] ++ '(' ::
          args_text [['7'], ['m', 'u', 'l', '(', '3', ',', '4', ')']] ++ [')'])
        [⟨['a', 'd', 'd'], 1000⟩, ⟨['m', 'u', 'l'], 2000⟩] fuel 0 =
        some (.externFunction 1000 2 (.value 7)
          (.externFunction 2000 2 (.value 3) (.value 4) .null .null) .null .null, 15)) ∧
    (∃ N, ∀ fuel, N ≤ fuel →
      fetch_extern right_to_left (['a', 'd', 'd'] ++ '(' :: args_text [['7'], ['8']] ++ [')'])
        [⟨['a', 'd', 'd'], 1000⟩, ⟨['m', 'u', 'l'], 2000⟩] fuel 0 = none) :=
  ⟨by decide, by decide,
    (C7_fetch_extern_call left_to_right [⟨['a', 'd', 'd'], 1000⟩, ⟨['m', 'u', 'l'], 2000⟩]
      ['a', 'd', 'd'] 1000 [['7'], ['m', 'u', 'l', '(', '3', ',', '4', ')']]
      [.value 7, .externFunction 2000 2 (.value 3) (.value 4) .null .null]
      (by decide) (by decide) (by decide) (by decide) (by decide)
      (List.Forall₂.cons ⟨3, by decide⟩ (List.Forall₂.cons ⟨8, by decide⟩
        List.Forall₂.nil))).imp (fun _ h fuel hfuel => (h fuel hfuel).2.1 rfl),
    (C7_fetch_extern_call right_to_left [⟨['a', 'd', 'd'], 1000⟩, ⟨['m', 'u', 'l'], 2000⟩]
      ['a', 'd', 'd'] 1000 [['7'], ['8']] [.value 7, .value 8]
      (by decide) (by decide) (by decide) (by decide) (by decide)
      (List.Forall₂.cons ⟨3, by decide⟩ (List.Forall₂.cons ⟨3, by decide⟩
        List.Forall₂.nil))).imp (fun _ h fuel hfuel => (h fuel hfuel).2.2 rfl)⟩

theorem lookup_extern_first (name : List Char) (p : Nat) (before after : List symbol_t)
    (hbefore : ∀ e ∈ before, e.name ≠ name) :
    lookup_extern name (before ++ ⟨name, p⟩ :: after) = some p := by
  induction before with
  | nil => simp [ lookup_extern]
  | cons e es ih =>
    have h1 : ¬ name = e.name := fun h => hbefore e (List.mem_cons_self _ _) h.symm
    rw [List.cons_append, lookup_extern, if_neg h1]
    exact ih (fun e' h' => hbefore e' (List.mem_cons_of_mem _ h'))

theorem fetch_extern_function_node (u : va_order) (s : List Char) (x : List symbol_t) (ptr fuel : Nat) :
    ∀ (args : List Node) (pos : Nat) (r : Node × Nat),
      fetch_extern_function u s x fuel ptr args pos = some r →
      ∃ args', create_extern_function_node u ptr args' = some r.1 := by
  induction fuel with
  | zero =>
    intro args pos r h
    rw [fetch_extern_function] at h
    cases h
  | succ n ih =>
    intro args pos r h
    rw [fetch_extern_function_succ] at h
    split_ifs at h with h1
    cases hf : fetch u s x n pos with
    | none =>
      rw [hf] at h
      cases h
    | some res =>
      obtain ⟨arg, q⟩ := res
      rw [hf] at h
      simp only at h
      cases hc : charAt s q with
      | none =>
        rw [hc] at h
        cases h
      | some sym =>
        rw [hc] at h
        simp only at h
        split_ifs at h with h2
        · cases hn : create_extern_function_node u ptr (args ++ [arg]) with
          | none =>
            rw [hn] at h
            cases h
          | some node =>
            rw [hn] at h
            cases h
            exact ⟨_, hn⟩
        · exact ih _ _ _ h

/-- What `fetch_extern_function` returns is a node that `create_node` built
with its three reads in order: the ExternFunction node of its pointer. -/
theorem fetch_extern_function_in_order (u : va_order) (s : List Char) (x : List symbol_t)
    (ptr fuel : Nat) (args : List Node) (pos : Nat) (r : Node × Nat)
    (h : fetch_extern_function u s x fuel ptr args pos = some r) :
    u.function_in_order = true ∧ ∃ n a0 a1 a2 a3, r.1 = .externFunction ptr n a0 a1 a2 a3 := by
  obtain ⟨args', e⟩ := fetch_extern_function_node u s x ptr fuel args pos r h
  cases ho : u.function_in_order with
  | false =>
    rw [create_extern_function_node_reversed ho] at e
    cases e
  | true =>
    rw [create_extern_function_node_in_order ho] at e
    injection e with e
    exact ⟨rfl, _, _, _, _, _, e.symm⟩

/-- C8, as stated, fails twice.  The tables `[f ↦ 1, g ↦ 2]` and
`[f ↦ 1, g ↦ 3]` agree on the entries up to and including the first match of
`f`, yet `fetch_extern` on `f(g)` returns different nodes (shown in a left to
right build), because the argument is resolved in the rest of the table.  And
an identifier of 100 letters bound in the table does not fit the name buffer:
the call has no defined result in any build. -/
theorem C8_counterexample :
    ([⟨['f'], 1⟩, ⟨['g'], 2⟩] : List symbol_t).take 1 =
      ([⟨['f'], 1⟩, ⟨['g'], 3⟩] : List symbol_t).take 1 ∧
    fetch_extern left_to_right ['f', '(', 'g', ')'] [⟨['f'], 1⟩, ⟨['g'], 2⟩] 6 0 =
      some (.externFunction 1 1 (.externValue 2) .null .null .null, 4) ∧
    fetch_extern left_to_right ['f', '(', 'g', ')'] [⟨['f'], 1⟩, ⟨['g'], 3⟩] 6 0 =
      some (.externFunction 1 1 (.externValue 3) .null .null .null, 4) ∧
    lookup_extern (List.replicate 100 'b') [⟨List.replicate 100 'b', 7⟩] = some 7 ∧
    ¬ ∃ u fuel r, fetch_extern u (List.replicate 100 'b') [⟨List.replicate 100 'b', 7⟩] fuel 0 =
      some r := by
  refine ⟨by decide, by decide, by decide, by decide, ?_⟩
  rintro ⟨u, fuel, r, h⟩
  cases fuel with
  | zero =>
    rw [ fetch_extern] at h
    cases h
  | succ n =>
    have hn : fetch_extern_name ((List.replicate 100 'b').drop 0) = List.replicate 100 'b' := by
      decide
    rw [fetch_extern_succ, hn] at h
    simp [MAX_LENGTH] at h

/-- C8, amended: for an identifier of fewer than `MAX_LENGTH` (100) characters,
a maximal alphanumeric run in the text, whose first match in the symbol table
binds it to `p`, and for every table with the same entries up to and including
that match, in every build: when the character after the identifier is not
`(`, `fetch_extern` returns the ExternValue node with pointer `p` and the
cursor after the identifier; when that character is `(`, it does what
`fetch_extern_function` does with pointer `p` from the character after the
`(`.  Every node that returns was built by `create_node` reading its three
arguments in order, and is an ExternFunction node with pointer `p`; where
`create_node` reads them in another order, nothing is returned. -/
theorem C8_fetch_extern_resolution (u : va_order) (pre name rest : List Char) (p : Nat)
    (before after after' : List symbol_t)
    (halnum : ∀ c ∈ name, c.isAlphanum = true) (hlen : name.length < MAX_LENGTH)
    (hbefore : ∀ e ∈ before, e.name ≠ name)
    (hmax : ∀ c r, rest = c :: r → c.isAlphanum = false) :
    ((∀ r, rest ≠ '(' :: r) → ∀ fuel,
      fetch_extern u (pre ++ name ++ rest) (before ++ ⟨name, p⟩ :: after) (fuel + 1) pre.length =
        some (.externValue p, pre.length + name.length) ∧
      fetch_extern u (pre ++ name ++ rest) (before ++ ⟨name, p⟩ :: after') (fuel + 1) pre.length =
        some (.externValue p, pre.length + name.length)) ∧
    ((∃ r, rest = '(' :: r) → ∀ fuel,
      fetch_extern u (pre ++ name ++ rest) (before ++ ⟨name, p⟩ :: after) (fuel + 1) pre.length =
        fetch_extern_function u (pre ++ name ++ rest) (before ++ ⟨name, p⟩ :: after) fuel p []
          (pre.length + name.length + 1) ∧
      fetch_extern u (pre ++ name ++ rest) (before ++ ⟨name, p⟩ :: after') (fuel + 1) pre.length =
        fetch_extern_function u (pre ++ name ++ rest) (before ++ ⟨name, p⟩ :: after') fuel p []
          (pre.length + name.length + 1) ∧
      (∀ (table : List symbol_t) (node : Node) (q : Nat),
        fetch_extern_function u (pre ++ name ++ rest) table fuel p []
          (pre.length + name.length + 1) = some (node, q) →
        u.function_in_order = true ∧ ∃ n a0 a1 a2 a3, node = .externFunction p n a0 a1 a2 a3) ∧
      (u.function_in_order = false → ∀ table : List symbol_t,
        fetch_extern_function u (pre ++ name ++ rest) table fuel p []
          (pre.length + name.length + 1) = none)) := by
  constructor
  · intro hparen fuel
    have hrest : ∀ c r, rest = c :: r → c.isAlphanum = false ∧ c ≠ '(' := by
      intro c r h
      refine ⟨hmax c r h, ?_⟩
      intro e
      subst e
      exact hparen r h
    exact ⟨fetch_extern_value u _ pre name rest rfl _ p fuel halnum hlen
        (lookup_extern_first name p before after hbefore) hrest,
      fetch_extern_value u _ pre name rest rfl _ p fuel halnum hlen
        (lookup_extern_first name p before after' hbefore) hrest⟩
  · rintro ⟨r, rfl⟩ fuel
    have key : ∀ T : List symbol_t, lookup_extern name T = some p →
        fetch_extern u (pre ++ name ++ '(' :: r) T (fuel + 1) pre.length =
          fetch_extern_function u (pre ++ name ++ '(' :: r) T fuel p []
            (pre.length + name.length + 1) := by
      intro T hlook
      have h1 : ¬ (pre ++ name ++ '(' :: r).length < pre.length := by
        simp only [List.length_append]
        omega
      have h2 : (pre ++ name ++ '(' :: r).drop pre.length = name ++ '(' :: r := by
        rw [List.append_assoc, List.drop_left]
      have h3 : fetch_extern_name (name ++ '(' :: r) = name :=
        fetch_extern_name_all name _ halnum hmax
      have h4 : charAt (pre ++ name ++ '(' :: r) (pre.length + name.length) = some '(' := by
        rw [charAt_after]
        rfl
      rw [fetch_extern_succ, if_neg h1, h2, h3, if_neg (Nat.not_le.mpr hlen), hlook]
      simp only [h4, if_true]
    refine ⟨key _ (lookup_extern_first name p before after hbefore),
      key _ (lookup_extern_first name p before after' hbefore), ?_, ?_⟩
    · intro table node q h
      exact fetch_extern_function_in_order u _ table p fuel _ _ _ h
    · intro ho table
      cases h : fetch_extern_function u (pre ++ name ++ '(' :: r) table fuel p []
          (pre.length + name.length + 1) with
      | none => rfl
      | some res =>
        have := (fetch_extern_function_in_order u _ table p fuel _ _ _ h).1
        rw [ho] at this
        cases this

/-- C8, amended, for the identifier `g` in `f+g*2` and in `g(1)`, bound second in
two tables that differ after it. -/
theorem C8_fetch_extern_resolution_witness :
    ( fetch_extern left_to_right (['f', '+'] ++ ['g'] ++ ['*', '2'])
        ([⟨['f'], 1⟩] ++ ⟨['g'], 2⟩ :: []) (0 + 1) ['f', '+'].length =
        some (.externValue 2, ['f', '+'].length + ['g'].length) ∧
      fetch_extern left_to_right (['f', '+'] ++ ['g'] ++ ['*', '2'])
        ([⟨['f'], 1⟩] ++ ⟨['g'], 2⟩ :: [⟨['g'], 3⟩]) (0 + 1) ['f', '+'].length =
        some (.externValue 2, ['f', '+'].length + ['g'].length)) ∧
    ( fetch_extern right_to_left (['f', '+'] ++ ['g'] ++ ['*', '2'])
        ([⟨['f'], 1⟩] ++ ⟨['g'], 2⟩ :: []) (0 + 1) ['f', '+'].length =
        some (.externValue 2, ['f', '+'].length + ['g'].length) ∧
      fetch_extern right_to_left (['f', '+'] ++ ['g'] ++ ['*', '2'])
        ([⟨['f'], 1⟩] ++ ⟨['g'], 2⟩ :: [⟨['g'], 3⟩]) (0 + 1) ['f', '+'].length =
        some (.externValue 2, ['f', '+'].length + ['g'].length)) ∧
    fetch_extern left_to_right ['g', '(', '1', ')'] [⟨['f'], 1⟩, ⟨['g'], 2⟩] 5 0 =
      some (.externFunction 2 1 (.value 1) .null .null .null, 4) ∧
    fetch_extern right_to_left ['g', '(', '1', ')'] [⟨['f'], 1⟩, ⟨['g'], 2⟩] 5 0 = none ∧
    fetch_extern left_to_right ([] ++ ['g'] ++ ['(', '1', ')'])
        ([⟨['f'], 1⟩] ++ ⟨['g'], 2⟩ :: []) (4 + 1) ([] : List Char).length =
      fetch_extern_function left_to_right ([] ++ ['g'] ++ ['(', '1', ')'])
        ([⟨['f'], 1⟩] ++ ⟨['g'], 2⟩ :: []) 4 2 [] (([] : List Char).length + ['g'].length + 1) :=
  ⟨(C8_fetch_extern_resolution left_to_right ['f', '+'] ['g'] ['*', '2'] 2 [⟨['f'], 1⟩] []
      [⟨['g'], 3⟩] (by decide) (by decide) (by decide) (by intro c r h; cases h; decide)).1
      (by intro r h; cases h) 0,
    (C8_fetch_extern_resolution right_to_left ['f', '+'] ['g'] ['*', '2'] 2 [⟨['f'], 1⟩] []
      [⟨['g'], 3⟩] (by decide) (by decide) (by decide) (by intro c r h; cases h; decide)).1
      (by intro r h; cases h) 0,
    by decide,
    by decide,
    ((C8_fetch_extern_resolution left_to_right [] ['g'] ['(', '1', ')'] 2 [⟨['f'], 1⟩] []
      [⟨['g'], 3⟩] (by decide) (by decide) (by decide) (by intro c r h; cases h; decide)).2
      ⟨_, rfl⟩ 4).1⟩

theorem fetch_mono (u : va_order) {s : List Char} {x : List symbol_t} {fuel p : Nat} {r : Node × Nat}
    (h : fetch u s x fuel p = some r) (k : Nat) : fetch u s x (fuel + k) p = some r := by
  have e := (fetch_frame u s [] [] x rfl fuel k).2.1 p r h
  simpa using e

theorem strlen_eq_length (e : List Char) (hnul : ∀ c ∈ e, c ≠ Char.ofNat 0) :
    strlen e = e.length := by
  induction e with
  | nil => rfl
  | cons c cs ih =>
    rw [strlen, if_neg (hnul c (List.mem_cons_self _ _)),
      ih (fun c' h' => hnul c' (List.mem_cons_of_mem _ h')), List.length_cons]

theorem remove_spaces_loop_buffer (cs : List Char) (hnul : ∀ c ∈ cs, c ≠ Char.ofNat 0) :
    ∀ (kept : List Char) (m : Nat) (tail : List (Option Char)),
      (cs.filter (fun c => c ≠ ' ')).length ≤ m →
      remove_spaces_loop cs (kept.map some ++ List.replicate m none ++ tail) kept.length =
        (kept ++ cs.filter (fun c => c ≠ ' ')).map some ++
          List.replicate (m - (cs.filter (fun c => c ≠ ' ')).length) none ++ tail := by
  induction cs with
  | nil =>
    intro kept m tail _
    simp [remove_spaces_loop]
  | cons c cs ih =>
    intro kept m tail hm
    have hc : c ≠ Char.ofNat 0 := hnul c (List.mem_cons_self _ _)
    have ih' := ih (fun c' h' => hnul c' (List.mem_cons_of_mem _ h'))
    rw [remove_spaces_loop, if_neg hc]
    by_cases hsp : c = ' '
    · have hf : (c :: cs).filter (fun c => c ≠ ' ') = cs.filter (fun c => c ≠ ' ') := by
        simp [hsp]
      rw [hf] at hm ⊢
      rw [if_neg (by simpa using hsp)]
      exact ih' kept m tail hm
    · have hf : (c :: cs).filter (fun c => c ≠ ' ') = c :: cs.filter (fun c => c ≠ ' ') := by
        simp [hsp]
      rw [hf] at hm ⊢
      rw [if_pos hsp]
      obtain ⟨m', rfl⟩ : ∃ m', m = m' + 1 := ⟨m - 1, by
        simp only [List.length_cons] at hm
        omega⟩
      have hset : (kept.map some ++ List.replicate (m' + 1) none ++ tail).set kept.length (some c) =
          (kept ++ [c]).map some ++ List.replicate m' none ++ tail := by
        rw [List.append_assoc, List.set_append_right _ _ (by simp)]
        simp [List.replicate_succ]
      have hlen : kept.length + 1 = (kept ++ [c]).length := by simp
      rw [hset, hlen, ih' (kept ++ [c]) m' tail (by
        simp only [List.length_cons] at hm
        omega)]
      simp only [List.append_assoc, List.singleton_append, List.length_cons]
      congr 3
      omega

/-- The buffer `remove_spaces` returns for a NUL-free text: the characters kept,
one cell never written for each space removed, and then the NUL. -/
theorem remove_spaces_buffer (e : List Char) (hnul : ∀ c ∈ e, c ≠ Char.ofNat 0) :
    remove_spaces e =
      (e.filter (fun c => c ≠ ' ')).map some ++
        List.replicate (e.length - (e.filter (fun c => c ≠ ' ')).length) none ++
        [some (Char.ofNat 0)] := by
  have hle : (e.filter (fun c => c ≠ ' ')).length ≤ e.length := List.length_filter_le _ _
  have h := remove_spaces_loop_buffer e hnul [] e.length [none] hle
  simp only [List.map_nil, List.nil_append, List.length_nil] at h
  generalize e.filter (fun c => c ≠ ' ') = kept at hle h ⊢
  have hlen : (kept.map some ++ List.replicate (e.length - kept.length) (none : Option Char)).length =
      e.length := by
    simp only [List.length_append, List.length_map, List.length_replicate]
    omega
  rw [remove_spaces, strlen_eq_length e hnul,
    show List.replicate (e.length + 1) (none : Option Char) = List.replicate e.length none ++ [none]
      from List.replicate_succ' .., h, List.set_append_right _ _ (Nat.le_of_eq hlen), hlen,
    Nat.sub_self]
  rfl

/-- C10 fails on the code wherever the text holds a space: on `1 + 2` the
buffer `remove_spaces` returns holds `1+2`, then two cells never written, and
only then the NUL, which is stored at the length of the input instead of the
length of the output; so the returned C string is not the text `1+2`.  A text
without spaces comes back as it is. -/
theorem C10_remove_spaces_misplaced_nul :
    remove_spaces ['1', ' ', '+', ' ', '2'] =
      [some '1', some '+', some '2', none, none, some (Char.ofNat 0)] ∧
    c_string (remove_spaces ['1', ' ', '+', ' ', '2']) = none ∧
    c_string (remove_spaces ['1', ' ', '+', ' ', '2']) ≠
      some (['1', ' ', '+', ' ', '2'].filter (fun c => c ≠ ' ')) ∧
    c_string (remove_spaces ['1', '\t', '+', '2']) = some ['1', '\t', '+', '2'] := by
  decide

/-! ## The words of the emitter -/

theorem mov_value_unfold (dst v : Nat) :
    mov_value dst v =
      [instruction_t (ALWAYS ||| (1 <<< 25) ||| (1 <<< 24) ||| (1 <<< 23) ||| (1 <<< 21) ||| (dst <<< 12)),
       instruction_t (ALWAYS ||| (1 <<< 25) ||| (1 <<< 24) ||| (1 <<< 23) ||| (dst <<< 16) |||
         (dst <<< 12) ||| (0 <<< 8) ||| (v &&& 0xFF) >>> 0),
       instruction_t (ALWAYS ||| (1 <<< 25) ||| (1 <<< 24) ||| (1 <<< 23) ||| (dst <<< 16) |||
         (dst <<< 12) ||| (12 <<< 8) ||| (v &&& 0xFF00) >>> 8),
       instruction_t (ALWAYS ||| (1 <<< 25) ||| (1 <<< 24) ||| (1 <<< 23) ||| (dst <<< 16) |||
         (dst <<< 12) ||| (8 <<< 8) ||| (v &&& 0xFF0000) >>> 16),
       instruction_t (ALWAYS ||| (1 <<< 25) ||| (1 <<< 24) ||| (1 <<< 23) ||| (dst <<< 16) |||
         (dst <<< 12) ||| (4 <<< 8) ||| (v &&& 0xFF000000) >>> 24)] := by
  rfl

theorem orr_prefix (dst rot : Nat) (hdst : dst ≤ 15)
    (hrot : rot = 0 ∨ rot = 12 ∨ rot = 8 ∨ rot = 4) :
    ALWAYS ||| (1 <<< 25) ||| (1 <<< 24) ||| (1 <<< 23) ||| (dst <<< 16) ||| (dst <<< 12) |||
      (rot <<< 8) = 256 * (14909440 + 272 * dst + rot) := by
  interval_cases dst <;> rcases hrot with h | h | h | h <;> subst h <;> rfl

theorem mov_prefix (dst : Nat) (hdst : dst ≤ 15) :
    ALWAYS ||| (1 <<< 25) ||| (1 <<< 24) ||| (1 <<< 23) ||| (1 <<< 21) ||| (dst <<< 12) =
      0xE3A00000 + 4096 * dst := by
  interval_cases dst <;> rfl

/-- The five words of `mov_value` for a register below 16, as sums of their
fields: the `mov` word and four `orr` words that carry the bytes of `v`, the
lowest first, with the rotation fields 0, 12, 8 and 4. -/
theorem mov_value_words (dst v : Nat) (hdst : dst ≤ 15) :
    mov_value dst v =
      [0xE3A00000 + 4096 * dst,
       0xE3800000 + 69632 * dst + 256 * 0 + v / 2 ^ 0 % 256,
       0xE3800000 + 69632 * dst + 256 * 12 + v / 2 ^ 8 % 256,
       0xE3800000 + 69632 * dst + 256 * 8 + v / 2 ^ 16 % 256,
       0xE3800000 + 69632 * dst + 256 * 4 + v / 2 ^ 24 % 256] := by
  have e0 : (v &&& 0xFF) >>> 0 = v / 2 ^ 0 % 256 := byte_extract v 0
  have e1 : (v &&& 0xFF00) >>> 8 = v / 2 ^ 8 % 256 := byte_extract v 8
  have e2 : (v &&& 0xFF0000) >>> 16 = v / 2 ^ 16 % 256 := byte_extract v 16
  have e3 : (v &&& 0xFF000000) >>> 24 = v / 2 ^ 24 % 256 := byte_extract v 24
  have hb0 : v / 2 ^ 0 % 256 < 256 := Nat.mod_lt _ (by decide)
  have hb1 : v / 2 ^ 8 % 256 < 256 := Nat.mod_lt _ (by decide)
  have hb2 : v / 2 ^ 16 % 256 < 256 := Nat.mod_lt _ (by decide)
  have hb3 : v / 2 ^ 24 % 256 < 256 := Nat.mod_lt _ (by decide)
  rw [mov_value_unfold, e0, e1, e2, e3, mov_prefix dst hdst,
    orr_prefix dst 0 hdst (by simp), orr_prefix dst 12 hdst (by simp),
    orr_prefix dst 8 hdst (by simp), orr_prefix dst 4 hdst (by simp),
    or_low_byte _ _ hb0, or_low_byte _ _ hb1, or_low_byte _ _ hb2, or_low_byte _ _ hb3]
  generalize v / 2 ^ 0 % 256 = b0 at *
  generalize v / 2 ^ 8 % 256 = b1 at *
  generalize v / 2 ^ 16 % 256 = b2 at *
  generalize v / 2 ^ 24 % 256 = b3 at *
  simp only [instruction_t]
  congr 1
  · omega
  congr 1
  · omega
  congr 1
  · omega
  congr 1
  · omega
  congr 1
  omega

theorem orr_fields (dst rot b : Nat) (hdst : dst ≤ 15)
    (hrot : rot = 0 ∨ rot = 12 ∨ rot = 8 ∨ rot = 4) (hb : b < 256) :
    0xE3800000 ||| (dst <<< 16) ||| (dst <<< 12) ||| (rot <<< 8) ||| b =
      0xE3800000 + 69632 * dst + 256 * rot + b := by
  have h : 0xE3800000 ||| (dst <<< 16) ||| (dst <<< 12) ||| (rot <<< 8) =
      256 * (14909440 + 272 * dst + rot) := orr_prefix dst rot hdst hrot
  rw [h, or_low_byte _ _ hb]
  omega

theorem or_bytes (b0 b1 b2 b3 : Nat) (h0 : b0 < 256) (h1 : b1 < 256) (h2 : b2 < 256)
    (h3 : b3 < 256) :
    ror32 b0 (2 * 0) ||| ror32 b1 (2 * 12) ||| ror32 b2 (2 * 8) ||| ror32 b3 (2 * 4) =
      b0 + 256 * b1 + 65536 * b2 + 16777216 * b3 := by
  have s1 : b0 ||| b1 * 256 = 256 * b1 + b0 := by
    rw [Nat.lor_comm, Nat.mul_comm]
    exact (Nat.mul_add_lt_is_or (i := 8) (show b0 < 2 ^ 8 by omega) b1).symm
  have s2 : (256 * b1 + b0) ||| b2 * 65536 = 65536 * b2 + (256 * b1 + b0) := by
    rw [Nat.lor_comm, Nat.mul_comm]
    exact (Nat.mul_add_lt_is_or (i := 16) (show 256 * b1 + b0 < 2 ^ 16 by omega) b2).symm
  have s3 : (65536 * b2 + (256 * b1 + b0)) ||| b3 * 16777216 =
      16777216 * b3 + (65536 * b2 + (256 * b1 + b0)) := by
    rw [Nat.lor_comm, Nat.mul_comm]
    exact (Nat.mul_add_lt_is_or (i := 24) (show 65536 * b2 + (256 * b1 + b0) < 2 ^ 24 by omega) b3).symm
  rw [show 2 * 0 = 0 from rfl, show 2 * 12 = 24 from rfl, show 2 * 8 = 16 from rfl,
    show 2 * 4 = 8 from rfl, ror32_zero _ h0, ror32_byte _ 24 h1 (by simp),
    ror32_byte _ 16 h2 (by simp), ror32_byte _ 8 h3 (by simp)]
  norm_num
  rw [s1, s2, s3]
  omega

/-- C11: for every register `dst` in 0..15 and every 32 bit value `v`,
`mov_value` appends exactly five words: `mov dst, #0` (`0xE3A00000 | dst<<12`,
immediate field zero) and four words `0xE3800000 | dst<<16 | dst<<12 | rot<<8 |
imm8` (`orr dst, dst, #imm`), and the bitwise OR of the operands decoded from
those four words, each `imm8` rotated right by `2 * rot` within 32 bits, is `v`. -/
theorem C11_mov_value_materialises (dst v : Nat) (hdst : dst ≤ 15) (hv : v < 4294967296) :
    ∃ b0 b1 b2 b3,
      (b0 < 256 ∧ b1 < 256 ∧ b2 < 256 ∧ b3 < 256) ∧
      mov_value dst v =
        [0xE3A00000 ||| (dst <<< 12),
         0xE3800000 ||| (dst <<< 16) ||| (dst <<< 12) ||| (0 <<< 8) ||| b0,
         0xE3800000 ||| (dst <<< 16) ||| (dst <<< 12) ||| (12 <<< 8) ||| b1,
         0xE3800000 ||| (dst <<< 16) ||| (dst <<< 12) ||| (8 <<< 8) ||| b2,
         0xE3800000 ||| (dst <<< 16) ||| (dst <<< 12) ||| (4 <<< 8) ||| b3] ∧
      (mov_value dst v).length = 5 ∧
      (0xE3A00000 ||| (dst <<< 12)) % 4096 = 0 ∧
      ror32 b0 (2 * 0) ||| ror32 b1 (2 * 12) ||| ror32 b2 (2 * 8) ||| ror32 b3 (2 * 4) = v ∧
      ((mov_value dst v).tail.map
        (fun w => ror32 (w % 256) (2 * (w / 256 % 16)))).foldl (fun a b => a ||| b) 0 = v := by
  have hb0 : v / 2 ^ 0 % 256 < 256 := Nat.mod_lt _ (by decide)
  have hb1 : v / 2 ^ 8 % 256 < 256 := Nat.mod_lt _ (by decide)
  have hb2 : v / 2 ^ 16 % 256 < 256 := Nat.mod_lt _ (by decide)
  have hb3 : v / 2 ^ 24 % 256 < 256 := Nat.mod_lt _ (by decide)
  have hsum : v / 2 ^ 0 % 256 + 256 * (v / 2 ^ 8 % 256) + 65536 * (v / 2 ^ 16 % 256) +
      16777216 * (v / 2 ^ 24 % 256) = v := by
    norm_num
    omega
  have hw := mov_value_words dst v hdst
  have hmov : 0xE3A00000 ||| (dst <<< 12) = 0xE3A00000 + 4096 * dst := mov_prefix dst hdst
  generalize v / 2 ^ 0 % 256 = b0 at *
  generalize v / 2 ^ 8 % 256 = b1 at *
  generalize v / 2 ^ 16 % 256 = b2 at *
  generalize v / 2 ^ 24 % 256 = b3 at *
  have hor := or_bytes b0 b1 b2 b3 hb0 hb1 hb2 hb3
  refine ⟨b0, b1, b2, b3, ⟨hb0, hb1, hb2, hb3⟩, ?_, ?_, ?_, ?_, ?_⟩
  · rw [hw, hmov, orr_fields dst 0 b0 hdst (by simp) hb0, orr_fields dst 12 b1 hdst (by simp) hb1,
      orr_fields dst 8 b2 hdst (by simp) hb2, orr_fields dst 4 b3 hdst (by simp) hb3]
  · rw [hw]
    rfl
  · rw [hmov]
    omega
  · rw [hor, hsum]
  · rw [hw]
    simp only [List.tail_cons, List.map_cons, List.map_nil, List.foldl_cons, List.foldl_nil,
      Nat.zero_or]
    rw [show (3816816640 + 69632 * dst + 256 * 0 + b0) % 256 = b0 from by omega,
      show (3816816640 + 69632 * dst + 256 * 12 + b1) % 256 = b1 from by omega,
      show (3816816640 + 69632 * dst + 256 * 8 + b2) % 256 = b2 from by omega,
      show (3816816640 + 69632 * dst + 256 * 4 + b3) % 256 = b3 from by omega,
      show (3816816640 + 69632 * dst + 256 * 0 + b0) / 256 % 16 = 0 from by omega,
      show (3816816640 + 69632 * dst + 256 * 12 + b1) / 256 % 16 = 12 from by omega,
      show (3816816640 + 69632 * dst + 256 * 8 + b2) / 256 % 16 = 8 from by omega,
      show (3816816640 + 69632 * dst + 256 * 4 + b3) / 256 % 16 = 4 from by omega, hor, hsum]

/-- C11 at `dst = R4` and `v = 0x12345678`. -/
theorem C11_mov_value_materialises_witness :
    mov_value 4 0x12345678 = [0xE3A04000, 0xE3844078, 0xE3844C56, 0xE3844834, 0xE3844412] ∧
    ∃ b0 b1 b2 b3,
      (b0 < 256 ∧ b1 < 256 ∧ b2 < 256 ∧ b3 < 256) ∧
      mov_value 4 0x12345678 =
        [0xE3A00000 ||| (4 <<< 12),
         0xE3800000 ||| (4 <<< 16) ||| (4 <<< 12) ||| (0 <<< 8) ||| b0,
         0xE3800000 ||| (4 <<< 16) ||| (4 <<< 12) ||| (12 <<< 8) ||| b1,
         0xE3800000 ||| (4 <<< 16) ||| (4 <<< 12) ||| (8 <<< 8) ||| b2,
         0xE3800000 ||| (4 <<< 16) ||| (4 <<< 12) ||| (4 <<< 8) ||| b3] ∧
      (mov_value 4 0x12345678).length = 5 ∧
      (0xE3A00000 ||| (4 <<< 12)) % 4096 = 0 ∧
      ror32 b0 (2 * 0) ||| ror32 b1 (2 * 12) ||| ror32 b2 (2 * 8) ||| ror32 b3 (2 * 4) =
        0x12345678 ∧
      ((mov_value 4 0x12345678).tail.map
        (fun w => ror32 (w % 256) (2 * (w / 256 % 16)))).foldl (fun a b => a ||| b) 0 =
        0x12345678 :=
  ⟨by decide, C11_mov_value_materialises 4 0x12345678 (by decide) (by decide)⟩

theorem mov_stage (i : Nat) (hi : i ≤ 11) : mov (4 + i) R0 = 0xE1A00000 ||| ((4 + i) <<< 12) := by
  interval_cases i <;> rfl

theorem mov_move (i : Nat) (hi : i ≤ 11) : mov i (4 + i) = 0xE1A00000 ||| (i <<< 12) ||| (4 + i) := by
  interval_cases i <;> rfl

theorem move_args_eq (n : Nat) (hn : n ≤ 4) :
    (List.range n).map (fun i => mov i (4 + i)) = move_args n := by
  unfold move_args
  apply List.map_congr_left
  intro i hi
  have := List.mem_range.mp hi
  exact mov_move i (by omega)

theorem compile_extern_function_args_some (args : List (Option (List Nat)))
    (hlen : args.length ≤ 4) :
    ∀ n i out, compile_extern_function_args args n i = some out →
      ∃ ws, (args.drop i).take n = ws.map some ∧ ws.length = n ∧ out = stage_args ws i := by
  intro n
  induction n with
  | zero =>
    intro i out h
    rw [compile_extern_function_args] at h
    cases h
    exact ⟨[], by simp, rfl, rfl⟩
  | succ n ih =>
    intro i out h
    rw [compile_extern_function_args] at h
    cases hg : args.get? i with
    | none =>
      rw [hg] at h
      cases h
    | some c =>
      rw [hg] at h
      cases c with
      | none => cases h
      | some w =>
        simp only at h
        cases hr : compile_extern_function_args args n (i + 1) with
        | none =>
          rw [hr] at h
          cases h
        | some rest =>
          rw [hr] at h
          cases h
          obtain ⟨ws, h1, h2, h3⟩ := ih (i + 1) rest hr
          have hi : i < args.length := by
            rw [List.get?_eq_getElem?] at hg
            exact (List.getElem?_eq_some_iff.mp hg).1
          have hd : args.drop i = some w :: args.drop (i + 1) := by
            rw [List.get?_eq_getElem?] at hg
            have := (List.getElem?_eq_some_iff.mp hg).2
            rw [List.drop_eq_getElem_cons hi, this]
          refine ⟨w :: ws, ?_, by simp [h2], ?_⟩
          · rw [hd, List.take_succ_cons, h1]
            rfl
          · rw [h3, stage_args, mov_stage i (by omega)]

theorem compile_extern_function_args_of (args : List (Option (List Nat)))
    (hlen : args.length ≤ 4) :
    ∀ (ws : List (List Nat)) (i : Nat), (args.drop i).take ws.length = ws.map some →
      compile_extern_function_args args ws.length i = some (stage_args ws i) := by
  intro ws
  induction ws with
  | nil =>
    intro i _
    rfl
  | cons w ws ih =>
    intro i h
    have hne : args.drop i ≠ [] := by
      intro e
      rw [e] at h
      simp at h
    obtain ⟨c, tail, hd⟩ := List.exists_cons_of_ne_nil hne
    rw [hd, List.length_cons, List.take_succ_cons, List.map_cons] at h
    injection h with h1 h2
    subst h1
    have hi : i < args.length := by
      by_contra hcon
      exact hne (List.drop_eq_nil_of_le (Nat.le_of_not_lt hcon))
    have hg : args.get? i = some (some w) := by
      rw [List.get?_eq_getElem?, List.getElem?_eq_getElem hi]
      rw [List.drop_eq_getElem_cons hi] at hd
      injection hd with hd1 _
      rw [hd1]
    have htail : args.drop (i + 1) = tail := by
      rw [List.drop_eq_getElem_cons hi] at hd
      injection hd
    rw [List.length_cons, compile_extern_function_args, hg]
    simp only
    rw [ih (i + 1) (by rw [htail]; exact h2)]
    simp only [stage_args, mov_stage i (by omega)]

theorem call_words :
    [push (1 <<< LR),
      instruction_t (ALWAYS ||| (1 <<< 24) ||| (1 <<< 21) ||| (0xFFF <<< 8) ||| (1 <<< 5) |||
        (1 <<< 4) ||| R4),
      pop (1 <<< LR)] = [0xE92D4000, 0xE12FFF34, 0xE8BD4000] := by
  decide

/-- The words `compile` writes for an ExternFunction node, from the words it
writes for the arguments in the first `args_n` slots. -/
theorem compile_function_iff (p n : Nat) (a0 a1 a2 a3 : Node) (out : List Nat) :
    compile (.externFunction p n a0 a1 a2 a3) = some out ↔
      ∃ ws, [compile a0, compile a1, compile a2, compile a3].take n = ws.map some ∧
        ws.length = n ∧
        out = [0xE92D40F0] ++ (stage_args ws 0 ++ move_args n ++ mov_value R4 (p % 4294967296) ++
          [0xE92D4000, 0xE12FFF34, 0xE8BD4000]) ++ [0xE8BD40F0] := by
  have hlen : [compile a0, compile a1, compile a2, compile a3].length ≤ 4 := Nat.le_refl _
  constructor
  · intro h
    rw [compile, compile_extern_function] at h
    cases hr : compile_extern_function_args [compile a0, compile a1, compile a2, compile a3] n 0 with
    | none =>
      rw [hr] at h
      cases h
    | some words =>
      rw [hr] at h
      simp only [Option.map_some', Option.some.injEq] at h
      obtain ⟨ws, h1, h2, h3⟩ := compile_extern_function_args_some _ hlen n 0 words hr
      rw [List.drop_zero] at h1
      have hn : n ≤ 4 := by
        have := congrArg List.length h1
        simp only [List.length_take, List.length_map, List.length_cons, List.length_nil] at this
        omega
      refine ⟨ws, h1, h2, ?_⟩
      rw [← h, h3, move_args_eq n hn, call_words, default_push_eq, default_pop_eq]
  · rintro ⟨ws, h1, h2, h3⟩
    have hn : n ≤ 4 := by
      have := congrArg List.length h1
      simp only [List.length_take, List.length_map, List.length_cons, List.length_nil] at this
      omega
    have hr := compile_extern_function_args_of _ hlen ws 0 (by rw [List.drop_zero, h2]; exact h1)
    rw [h2] at hr
    rw [compile, compile_extern_function, hr]
    simp only [Option.map_some', Option.some.injEq]
    rw [h3, move_args_eq n hn, call_words, default_push_eq, default_pop_eq]

/-- Induction over the trees `compile` is defined on, with the words it writes. -/
theorem compile_rec {P : Node → List Nat → Prop}
    (h_value : ∀ val, P (.value val) ([0xE92D40F0] ++ mov_value R0 (toUInt32 val) ++ [0xE8BD40F0]))
    (h_extern_value : ∀ p, P (.externValue p)
      ([0xE92D40F0] ++ (mov_value R0 (p % 4294967296) ++ [ldr R0 R0]) ++ [0xE8BD40F0]))
    (h_braced : ∀ e w, compile e = some w → P e w →
      P (.braced e) ([0xE92D40F0] ++ w ++ [0xE8BD40F0]))
    (h_sum : ∀ l r wl wr, compile l = some wl → compile r = some wr → P l wl → P r wr →
      P (.sum l r) ([0xE92D40F0] ++ (wr ++ [0xE1A04000] ++ wl ++ [0xE1A01004] ++ [0xE0800001]) ++
        [0xE8BD40F0]))
    (h_sub : ∀ l r wl wr, compile l = some wl → compile r = some wr → P l wl → P r wr →
      P (.sub l r) ([0xE92D40F0] ++ (wr ++ [0xE1A04000] ++ wl ++ [0xE1A01004] ++ [0xE0400001]) ++
        [0xE8BD40F0]))
    (h_mul : ∀ l r wl wr, compile l = some wl → compile r = some wr → P l wl → P r wr →
      P (.mul l r) ([0xE92D40F0] ++ (wr ++ [0xE1A04000] ++ wl ++ [0xE1A01004] ++ [0xE0000091]) ++
        [0xE8BD40F0]))
    (h_function : ∀ p n a0 a1 a2 a3 ws, n ≤ 4 →
      List.Forall₂ (fun a w => compile a = some w ∧ P a w) ([a0, a1, a2, a3].take n) ws →
      P (.externFunction p n a0 a1 a2 a3)
        ([0xE92D40F0] ++ (stage_args ws 0 ++ move_args n ++ mov_value R4 (p % 4294967296) ++
          [0xE92D4000, 0xE12FFF34, 0xE8BD4000]) ++ [0xE8BD40F0])) :
    ∀ t ws, compile t = some ws → P t ws := by
  intro t
  induction t with
  | null =>
    intro ws h
    rw [compile] at h
    cases h
  | value val =>
    intro ws h
    rw [compile] at h
    cases h
    exact h_value val
  | externValue p =>
    intro ws h
    rw [compile] at h
    cases h
    exact h_extern_value p
  | braced e ih =>
    intro ws h
    rw [compile] at h
    cases he : compile e with
    | none =>
      rw [he] at h
      cases h
    | some w =>
      rw [he] at h
      cases h
      exact h_braced e w he (ih w he)
  | sum l r ihl ihr =>
    intro ws h
    rw [compile] at h
    cases hl : compile l with
    | none =>
      rw [hl] at h
      cases hr : compile r <;> rw [hr] at h <;> cases h
    | some wl =>
      cases hr : compile r with
      | none =>
        rw [hl, hr] at h
        cases h
      | some wr =>
        rw [hl, hr] at h
        cases h
        exact h_sum l r wl wr hl hr (ihl wl hl) (ihr wr hr)
  | sub l r ihl ihr =>
    intro ws h
    rw [compile] at h
    cases hl : compile l with
    | none =>
      rw [hl] at h
      cases hr : compile r <;> rw [hr] at h <;> cases h
    | some wl =>
      cases hr : compile r with
      | none =>
        rw [hl, hr] at h
        cases h
      | some wr =>
        rw [hl, hr] at h
        cases h
        exact h_sub l r wl wr hl hr (ihl wl hl) (ihr wr hr)
  | mul l r ihl ihr =>
    intro ws h
    rw [compile] at h
    cases hl : compile l with
    | none =>
      rw [hl] at h
      cases hr : compile r <;> rw [hr] at h <;> cases h
    | some wl =>
      cases hr : compile r with
      | none =>
        rw [hl, hr] at h
        cases h
      | some wr =>
        rw [hl, hr] at h
        cases h
        exact h_mul l r wl wr hl hr (ihl wl hl) (ihr wr hr)
  | externFunction p n a0 a1 a2 a3 ih0 ih1 ih2 ih3 =>
    intro out h
    obtain ⟨ws, h1, h2, h3⟩ := (compile_function_iff p n a0 a1 a2 a3 out).mp h
    have hn : n ≤ 4 := by
      have := congrArg List.length h1
      simp only [List.length_take, List.length_map, List.length_cons, List.length_nil] at this
      omega
    rw [h3]
    apply h_function p n a0 a1 a2 a3 ws hn
    interval_cases n
    · cases ws with
      | nil => exact List.Forall₂.nil
      | cons w ws => cases h2
    · obtain ⟨w0, rfl⟩ : ∃ w0, ws = [w0] := by
        match ws, h2 with
        | [w0], _ => exact ⟨w0, rfl⟩
      simp only [List.take, List.map_cons, List.map_nil, List.cons.injEq, and_true] at h1
      exact List.Forall₂.cons ⟨h1, ih0 _ h1⟩ List.Forall₂.nil
    · obtain ⟨w0, w1, rfl⟩ : ∃ w0 w1, ws = [w0, w1] := by
        match ws, h2 with
        | [w0, w1], _ => exact ⟨w0, w1, rfl⟩
      simp only [List.take, List.map_cons, List.map_nil, List.cons.injEq, and_true] at h1
      exact List.Forall₂.cons ⟨h1.1, ih0 _ h1.1⟩
        (List.Forall₂.cons ⟨h1.2, ih1 _ h1.2⟩ List.Forall₂.nil)
    · obtain ⟨w0, w1, w2, rfl⟩ : ∃ w0 w1 w2, ws = [w0, w1, w2] := by
        match ws, h2 with
        | [w0, w1, w2], _ => exact ⟨w0, w1, w2, rfl⟩
      simp only [List.take, List.map_cons, List.map_nil, List.cons.injEq, and_true] at h1
      exact List.Forall₂.cons ⟨h1.1, ih0 _ h1.1⟩
        (List.Forall₂.cons ⟨h1.2.1, ih1 _ h1.2.1⟩
          (List.Forall₂.cons ⟨h1.2.2, ih2 _ h1.2.2⟩ List.Forall₂.nil))
    · obtain ⟨w0, w1, w2, w3, rfl⟩ : ∃ w0 w1 w2 w3, ws = [w0, w1, w2, w3] := by
        match ws, h2 with
        | [w0, w1, w2, w3], _ => exact ⟨w0, w1, w2, w3, rfl⟩
      simp only [List.take, List.map_cons, List.map_nil, List.cons.injEq, and_true] at h1
      exact List.Forall₂.cons ⟨h1.1, ih0 _ h1.1⟩
        (List.Forall₂.cons ⟨h1.2.1, ih1 _ h1.2.1⟩
          (List.Forall₂.cons ⟨h1.2.2.1, ih2 _ h1.2.2.1⟩
            (List.Forall₂.cons ⟨h1.2.2.2, ih3 _ h1.2.2.2⟩ List.Forall₂.nil)))

theorem binary_words :
    [mov R4 R0, mov R1 R4, add R0 R1, sub R0 R1, mul R0 R1] =
      [0xE1A04000, 0xE1A01004, 0xE0800001, 0xE0400001, 0xE0000091] := by
  decide

theorem exec_sub_word (σ : Machine) :
    exec 0xE0400001 σ = some (σ.setReg 0 (σ.reg 0 + 4294967296 - σ.reg 1)) :=
  rfl

/-- C16: when `compile` writes `wl` for `l` and `wr` for `r`, the words it
writes for the binary node with lhs `l` and rhs `r` are, in order, the push
0xE92D40F0, the words of `r`, 0xE1A04000 (mov r4, r0), the words of `l`,
0xE1A01004 (mov r1, r4), the operation word (0xE0800001 for Add, 0xE0400001
for Sub, 0xE0000091 for Mul) and the pop 0xE8BD40F0.  The right operand is
evaluated first: whenever the words of `r` leave `vr` in R0 and those of `l`
leave `vl`, the body of the Sub node leaves `vl - vr` modulo `2 ^ 32` in R0. -/
theorem C16_compile_binary_words (l r : Node) (wl wr : List Nat)
    (hl : compile l = some wl) (hr : compile r = some wr) :
    compile (.sum l r) =
      some ([0xE92D40F0] ++ wr ++ [0xE1A04000] ++ wl ++ [0xE1A01004, 0xE0800001, 0xE8BD40F0]) ∧
    compile (.sub l r) =
      some ([0xE92D40F0] ++ wr ++ [0xE1A04000] ++ wl ++ [0xE1A01004, 0xE0400001, 0xE8BD40F0]) ∧
    compile (.mul l r) =
      some ([0xE92D40F0] ++ wr ++ [0xE1A04000] ++ wl ++ [0xE1A01004, 0xE0000091, 0xE8BD40F0]) ∧
    (mov R4 R0 = 0xE1A04000 ∧ mov R1 R4 = 0xE1A01004 ∧ add R0 R1 = 0xE0800001 ∧
      sub R0 R1 = 0xE0400001 ∧ mul R0 R1 = 0xE0000091) ∧
    ∀ dl dr vl vr, NodeOK wl dl vl → NodeOK wr dr vr →
      BodyOK (wr ++ [0xE1A04000] ++ wl ++ [0xE1A01004] ++ [0xE0400001]) (max dl dr)
        ((vl + 4294967296 - vr) % 4294967296) := by
  refine ⟨?_, ?_, ?_, by decide, ?_⟩
  · simp [compile, compile_binary, hl, hr, default_push_eq, default_pop_eq]
    decide
  · simp [compile, compile_binary, hl, hr, default_push_eq, default_pop_eq]
    decide
  · simp [compile, compile_binary, hl, hr, default_push_eq, default_pop_eq]
    decide
  · intro dl dr vl vr hwl hwr
    exact body_binary 0xE0400001 (fun a b => a + 4294967296 - b) exec_sub_word wr wl dr dl vr vl
      hwr hwl

/-- C16 at the operands `7` (lhs) and `5` (rhs). -/
theorem C16_compile_binary_words_witness :
    compile (.value 7) = some [0xE92D40F0, 0xE3A00000, 0xE3800007, 0xE3800C00, 0xE3800800,
      0xE3800400, 0xE8BD40F0] ∧
    compile (.value 5) = some [0xE92D40F0, 0xE3A00000, 0xE3800005, 0xE3800C00, 0xE3800800,
      0xE3800400, 0xE8BD40F0] ∧
    compile (.sub (.value 7) (.value 5)) =
      some [0xE92D40F0,
        0xE92D40F0, 0xE3A00000, 0xE3800005, 0xE3800C00, 0xE3800800, 0xE3800400, 0xE8BD40F0,
        0xE1A04000,
        0xE92D40F0, 0xE3A00000, 0xE3800007, 0xE3800C00, 0xE3800800, 0xE3800400, 0xE8BD40F0,
        0xE1A01004, 0xE0400001, 0xE8BD40F0] :=
  ⟨by decide, by decide,
    (C16_compile_binary_words (.value 7) (.value 5)
      [0xE92D40F0, 0xE3A00000, 0xE3800007, 0xE3800C00, 0xE3800800, 0xE3800400, 0xE8BD40F0]
      [0xE92D40F0, 0xE3A00000, 0xE3800005, 0xE3800C00, 0xE3800800, 0xE3800400, 0xE8BD40F0]
      (by decide) (by decide)).2.1⟩

theorem compile_args_of_forall {l : List Node} {ws : List (List Nat)}
    (h : List.Forall₂ (fun a w => compile a = some w) l ws) : l.map compile = ws.map some := by
  induction h with
  | nil => rfl
  | cons hd _ ih => rw [List.map_cons, List.map_cons, hd, ih]

theorem exec_stage_word (i : Nat) (hi : i ≤ 3) (σ : Machine) :
    exec (0xE1A00000 ||| ((4 + i) <<< 12)) σ = some (σ.setReg (4 + i) (σ.reg 0)) := by
  interval_cases i <;> rfl

theorem exec_move_word (i : Nat) (hi : i ≤ 3) (σ : Machine) :
    exec (0xE1A00000 ||| (i <<< 12) ||| (4 + i)) σ = some (σ.setReg i (σ.reg (4 + i))) := by
  interval_cases i <;> rfl

theorem exec_orr_imm_R4 (rot b : Nat) (hrot : rot < 16) (hb : b < 256) (σ : Machine) :
    exec (0xE3800000 + 69632 * 4 + 256 * rot + b) σ =
      some (σ.setReg 4 (σ.reg 4 ||| ror32 b (2 * rot))) := by
  have h1 : (3816816640 + 69632 * 4 + 256 * rot + b) / 268435456 = 14 := by omega
  have h2 : (3816816640 + 69632 * 4 + 256 * rot + b) / 33554432 % 8 = 1 := by omega
  have h3 : (3816816640 + 69632 * 4 + 256 * rot + b) / 4194304 % 64 = 14 := by omega
  have h4 : (3816816640 + 69632 * 4 + 256 * rot + b) / 67108864 % 4 = 0 := by omega
  have h5 : (3816816640 + 69632 * 4 + 256 * rot + b) / 2097152 % 16 = 12 := by omega
  have h6 : (3816816640 + 69632 * 4 + 256 * rot + b) / 65536 % 16 = 4 := by omega
  have h7 : (3816816640 + 69632 * 4 + 256 * rot + b) / 4096 % 16 = 4 := by omega
  have h8 : (3816816640 + 69632 * 4 + 256 * rot + b) / 1048576 % 2 = 0 := by omega
  have h9 : (3816816640 + 69632 * 4 + 256 * rot + b) / 33554432 % 2 = 1 := by omega
  have h10 : (3816816640 + 69632 * 4 + 256 * rot + b) % 256 = b := by omega
  have h11 : (3816816640 + 69632 * 4 + 256 * rot + b) / 256 % 16 = rot := by omega
  simp [exec, h1, h2, h3, h4, h5, h6, h7, h8, h9, h10, h11]

/-- Running the words of `mov_value(R4, v)` leaves `v` in R4 and changes
nothing else. -/
theorem run_mov_value_R4 (v : Nat) (hv : v < 4294967296) (σ : Machine) :
    ∃ σ', run (mov_value R4 v) σ = some σ' ∧ σ'.reg 4 = v ∧
      (∀ r, r ≠ 4 → σ'.reg r = σ.reg r) ∧ σ'.mem = σ.mem := by
  have hb0 : v / 2 ^ 0 % 256 < 256 := Nat.mod_lt _ (by decide)
  have hb1 : v / 2 ^ 8 % 256 < 256 := Nat.mod_lt _ (by decide)
  have hb2 : v / 2 ^ 16 % 256 < 256 := Nat.mod_lt _ (by decide)
  have hb3 : v / 2 ^ 24 % 256 < 256 := Nat.mod_lt _ (by decide)
  have hsum : v / 2 ^ 0 % 256 + 256 * (v / 2 ^ 8 % 256) + 65536 * (v / 2 ^ 16 % 256) +
      16777216 * (v / 2 ^ 24 % 256) = v := by
    norm_num
    omega
  have w0 : exec (0xE3A00000 + 4096 * 4) σ = some (σ.setReg 4 0) := by rfl
  rw [show R4 = 4 from rfl, mov_value_words 4 v (by decide)]
  generalize v / 2 ^ 0 % 256 = b0 at *
  generalize v / 2 ^ 8 % 256 = b1 at *
  generalize v / 2 ^ 16 % 256 = b2 at *
  generalize v / 2 ^ 24 % 256 = b3 at *
  have hor := or_bytes b0 b1 b2 b3 hb0 hb1 hb2 hb3
  simp only [run, w0, exec_orr_imm_R4 0 _ (by decide) hb0, exec_orr_imm_R4 12 _ (by decide) hb1,
    exec_orr_imm_R4 8 _ (by decide) hb2, exec_orr_imm_R4 4 _ (by decide) hb3]
  refine ⟨_, rfl, ?_, ?_, rfl⟩
  · have r0 : ror32 b0 (2 * 0) < 4294967296 := by
      rw [show 2 * 0 = 0 from rfl, ror32_zero _ hb0]
      omega
    have r1 : ror32 b1 (2 * 12) = b1 * 256 := by
      rw [show 2 * 12 = 24 from rfl, ror32_byte _ 24 hb1 (by simp)]
      rfl
    have r2 : ror32 b2 (2 * 8) = b2 * 65536 := by
      rw [show 2 * 8 = 16 from rfl, ror32_byte _ 16 hb2 (by simp)]
      rfl
    have r3 : ror32 b3 (2 * 4) = b3 * 16777216 := by
      rw [show 2 * 4 = 8 from rfl, ror32_byte _ 8 hb3 (by simp)]
      rfl
    have e0 : ror32 b0 (2 * 0) = b0 := by
      rw [show 2 * 0 = 0 from rfl, ror32_zero _ hb0]
    simp only [Machine.setReg, if_true, Nat.zero_mod, Nat.zero_or]
    rw [e0, r1, r2, r3] at hor ⊢
    have s1 : b0 ||| b1 * 256 < 4294967296 :=
      Nat.or_lt_two_pow (n := 32) (by omega) (by omega)
    have s2 : b0 ||| b1 * 256 ||| b2 * 65536 < 4294967296 :=
      Nat.or_lt_two_pow (n := 32) s1 (by omega)
    rw [Nat.mod_eq_of_lt (show b0 < 4294967296 by omega), Nat.mod_eq_of_lt s1,
      Nat.mod_eq_of_lt s2, hor]
    omega
  · intro r hr
    simp [Machine.setReg, hr]

theorem exec_push_lr (σ : Machine) :
    exec 0xE92D4000 σ =
      some ((store_multiple [14] ((σ.reg 13 + 4294967296 - 4) % 4294967296) σ).setReg 13
        ((σ.reg 13 + 4294967296 - 4) % 4294967296)) := by
  rfl

/-- Running the first loop of `compile_extern_function` from index `i`: when
the words of each argument leave its value in R0 and keep R4 to R7, SP and LR,
the value of argument `j` ends in `r(4+i+j)`, and the registers staged before
are kept. -/
theorem run_stage_args {ws : List (List Nat)} {vs : List Nat}
    (h : List.Forall₂ (fun w v => ∃ d, NodeOK w d v) ws vs) :
    ∀ (i : Nat), i + ws.length ≤ 4 → ∀ σ : Machine,
      ∃ σ', run (stage_args ws i) σ = some σ' ∧
        (∀ j, j < ws.length → σ'.reg (4 + i + j) = vs.getD j 0) ∧
        (∀ r, 4 ≤ r → r < 4 + i → σ'.reg r = σ.reg r) ∧
        σ'.reg 13 = σ.reg 13 ∧ σ'.reg 14 = σ.reg 14 := by
  induction h with
  | nil =>
    intro i _ σ
    exact ⟨σ, rfl, fun j hj => absurd hj (Nat.not_lt_zero _), fun _ _ _ => rfl, rfl, rfl⟩
  | @cons w v ws vs hd _ ih =>
    intro i hi σ
    simp only [List.length_cons] at hi
    obtain ⟨d, hw⟩ := hd
    obtain ⟨σ1, r1, hv, hp, _⟩ := hw σ
    obtain ⟨σ', r', hvals, hkeep, hsp, hlr⟩ := ih (i + 1) (by omega) (σ1.setReg (4 + i) (σ1.reg 0))
    have hlt : σ1.reg 0 % 4294967296 = σ1.reg 0 := Nat.mod_eq_of_lt (σ1.reg_lt 0)
    have hset : ∀ r, r ≠ 4 + i → (σ1.setReg (4 + i) (σ1.reg 0)).reg r = σ1.reg r := by
      intro r hr
      simp [Machine.setReg, hr]
    have hself : (σ1.setReg (4 + i) (σ1.reg 0)).reg (4 + i) = v := by
      simp only [Machine.setReg, if_true]
      rw [hlt, hv]
    have h47 : ∀ r, 4 ≤ r → r < 8 → σ1.reg r = σ.reg r := by
      intro r h4 h8
      interval_cases r
      · exact hp.2.1
      · exact hp.2.2.1
      · exact hp.2.2.2.1
      · exact hp.2.2.2.2.1
    refine ⟨σ', ?_, ?_, ?_, ?_, ?_⟩
    · rw [stage_args, run_append, run_append, r1, Option.bind, run_cons,
        exec_stage_word i (by omega), Option.bind, run, Option.bind]
      exact r'
    · intro j hj
      cases j with
      | zero =>
        rw [Nat.add_zero, hkeep (4 + i) (by omega) (by omega), hself]
        rfl
      | succ j' =>
        have := hvals j' (by simp only [List.length_cons] at hj; omega)
        rw [show 4 + i + (j' + 1) = 4 + (i + 1) + j' from by omega, this]
        rfl
    · intro r h4 hr
      rw [hkeep r h4 (by omega), hset r (by omega), h47 r h4 (by omega)]
    · rw [hsp, hset 13 (by omega), hp.1]
    · rw [hlr, hset 14 (by omega), hp.2.2.2.2.2]

/-- Running the second loop of `compile_extern_function`: `r(i)` receives
`r(4+i)` for `i` below `k`, and the registers from R4 on are kept. -/
theorem run_move_args (k : Nat) (hk : k ≤ 4) (σ : Machine) :
    ∃ σ', run (move_args k) σ = some σ' ∧ (∀ i, i < k → σ'.reg i = σ.reg (4 + i)) ∧
      (∀ r, 4 ≤ r → σ'.reg r = σ.reg r) := by
  have h4 := Nat.mod_eq_of_lt (σ.reg_lt 4)
  have h5 := Nat.mod_eq_of_lt (σ.reg_lt 5)
  have h6 := Nat.mod_eq_of_lt (σ.reg_lt 6)
  have h7 := Nat.mod_eq_of_lt (σ.reg_lt 7)
  interval_cases k
  · exact ⟨σ, rfl, fun i hi => absurd hi (Nat.not_lt_zero _), fun _ _ => rfl⟩
  · refine ⟨σ.setReg 0 (σ.reg 4), rfl, ?_, ?_⟩
    · intro i hi
      interval_cases i
      simp [Machine.setReg, h4]
    · intro r hr
      have : r ≠ 0 := by omega
      simp [Machine.setReg, this]
  · refine ⟨(σ.setReg 0 (σ.reg 4)).setReg 1 (σ.reg 5), rfl, ?_, ?_⟩
    · intro i hi
      interval_cases i <;> simp [Machine.setReg, h4, h5]
    · intro r hr
      have : r ≠ 0 := by omega
      have : r ≠ 1 := by omega
      simp [Machine.setReg, *]
  · refine ⟨((σ.setReg 0 (σ.reg 4)).setReg 1 (σ.reg 5)).setReg 2 (σ.reg 6), rfl, ?_, ?_⟩
    · intro i hi
      interval_cases i <;> simp [Machine.setReg, h4, h5, h6]
    · intro r hr
      have : r ≠ 0 := by omega
      have : r ≠ 1 := by omega
      have : r ≠ 2 := by omega
      simp [Machine.setReg, *]
  · refine ⟨(((σ.setReg 0 (σ.reg 4)).setReg 1 (σ.reg 5)).setReg 2 (σ.reg 6)).setReg 3 (σ.reg 7),
      rfl, ?_, ?_⟩
    · intro i hi
      interval_cases i <;> simp [Machine.setReg, h4, h5, h6, h7]
    · intro r hr
      have : r ≠ 0 := by omega
      have : r ≠ 1 := by omega
      have : r ≠ 2 := by omega
      have : r ≠ 3 := by omega
      simp [Machine.setReg, *]

/-- The words of an ExternFunction node up to its `blx r4`, run from any
state: the value of argument `i` is in `r(i)` and the pointer in R4. -/
theorem run_call_setup (p : Nat) {ws : List (List Nat)} {vs : List Nat}
    (h : List.Forall₂ (fun w v => ∃ d, NodeOK w d v) ws vs) (hk : ws.length ≤ 4)
    (σ : Machine) :
    ∃ σ', run (stage_args ws 0 ++ move_args ws.length ++ mov_value R4 (p % 4294967296) ++
        [0xE92D4000]) σ = some σ' ∧
      (∀ i, i < ws.length → σ'.reg i = vs.getD i 0) ∧ σ'.reg 4 = p % 4294967296 := by
  obtain ⟨σ1, r1, hvals, _, _, _⟩ := run_stage_args h 0 (by omega) σ
  obtain ⟨σ2, r2, hmoved, _⟩ := run_move_args ws.length hk σ1
  obtain ⟨σ3, r3, hptr, hrest, _⟩ :=
    run_mov_value_R4 (p % 4294967296) (Nat.mod_lt _ (by decide)) σ2
  refine ⟨(store_multiple [14] ((σ3.reg 13 + 4294967296 - 4) % 4294967296) σ3).setReg 13
    ((σ3.reg 13 + 4294967296 - 4) % 4294967296), ?_, ?_, ?_⟩
  · rw [run_append, run_append, run_append, r1, Option.bind, r2, Option.bind, r3, Option.bind,
      run_cons, exec_push_lr, Option.bind, run]
  · intro i hi
    have h1 : i ≠ 13 := by omega
    have h2 : i ≠ 4 := by omega
    simp only [Machine.setReg, if_neg h1, store_multiple, Machine.store]
    rw [hrest i h2, hmoved i hi, ← hvals i hi]
  · simp only [Machine.setReg, if_neg (show ¬ (4 = 13) by decide), store_multiple, Machine.store]
    exact hptr

/-- C17: for an ExternFunction node with pointer `p` and `k <= 4` arguments
for which `compile` writes the word lists `ws`, `compile` writes in order: the
push 0xE92D40F0; for `i = 0..k-1` the words of argument `i` followed by
`0xE1A00000 | (4+i)<<12` (mov r(4+i), r0); for `i = 0..k-1` the word
`0xE1A00000 | i<<12 | (4+i)` (mov r(i), r(4+i)); the five words of
`mov_value(R4, p)`; 0xE92D4000, 0xE12FFF34, 0xE8BD4000; the pop 0xE8BD40F0.
The staging word copies R0 to r(4+i) and the move word copies r(4+i) to r(i).
Run on the machine from any state, the words that come before `blx r4`
evaluate the arguments in source order and reach the call with the value of
argument `i` in `r(i)` and `p` in R4, whenever the words of each argument leave
its value in R0 and keep R4 to R7, SP and LR. -/
theorem C17_compile_extern_function_words (p k : Nat) (a0 a1 a2 a3 : Node)
    (ws : List (List Nat)) (hk : k ≤ 4)
    (hargs : List.Forall₂ (fun a w => compile a = some w) ([a0, a1, a2, a3].take k) ws) :
    compile (.externFunction p k a0 a1 a2 a3) =
      some ([0xE92D40F0] ++ stage_args ws 0 ++ move_args k ++ mov_value R4 (p % 4294967296) ++
        [0xE92D4000, 0xE12FFF34, 0xE8BD4000] ++ [0xE8BD40F0]) ∧
    ws.length = k ∧
    (mov_value R4 (p % 4294967296)).length = 5 ∧
    (∀ i, i < k → mov (4 + i) R0 = 0xE1A00000 ||| ((4 + i) <<< 12) ∧
      mov i (4 + i) = 0xE1A00000 ||| (i <<< 12) ||| (4 + i)) ∧
    (∀ i, i < k → ∀ σ : Machine,
      exec (0xE1A00000 ||| ((4 + i) <<< 12)) σ = some (σ.setReg (4 + i) (σ.reg 0)) ∧
      exec (0xE1A00000 ||| (i <<< 12) ||| (4 + i)) σ = some (σ.setReg i (σ.reg (4 + i)))) ∧
    ∀ vs : List Nat, List.Forall₂ (fun w v => ∃ d, NodeOK w d v) ws vs → ∀ σ : Machine,
      ∃ σ1 σ2, run [0xE92D40F0] σ = some σ1 ∧
        run (stage_args ws 0 ++ move_args k ++ mov_value R4 (p % 4294967296) ++ [0xE92D4000]) σ1 =
          some σ2 ∧
        (∀ i, i < k → σ2.reg i = vs.getD i 0) ∧ σ2.reg R4 = p % 4294967296 := by
  have hlen : ws.length = k := by
    have := hargs.length_eq
    simp only [List.length_take, List.length_cons, List.length_nil] at this
    omega
  refine ⟨?_, hlen, rfl, ?_, ?_, ?_⟩
  · apply (compile_function_iff p k a0 a1 a2 a3 _).mpr
    refine ⟨ws, ?_, hlen, ?_⟩
    · have h := compile_args_of_forall hargs
      rw [← h, List.map_take]
      rfl
    · simp only [List.append_assoc]
  · intro i hi
    exact ⟨mov_stage i (by omega), mov_move i (by omega)⟩
  · intro i hi σ
    exact ⟨exec_stage_word i (by omega) σ, exec_move_word i (by omega) σ⟩
  · intro vs hvs σ
    obtain ⟨σ2, r2, hvals, hptr⟩ := run_call_setup p hvs (by omega)
      ((store_multiple [4, 5, 6, 7, 14] ((σ.reg 13 + 4294967296 - 20) % 4294967296) σ).setReg 13
        ((σ.reg 13 + 4294967296 - 20) % 4294967296))
    rw [hlen] at r2 hvals
    exact ⟨_, σ2, by rw [run_cons, exec_push]; rfl, r2, hvals, hptr⟩

/-- C17 at the node of `f(7,g)` with `f` at 0x12345678 and the value `g` at 9,
and, on the machine, at the node of `f(7,8)`: the call is reached with 7 in R0,
8 in R1 and the pointer in R4. -/
theorem C17_compile_extern_function_words_witness :
    compile (.externFunction 0x12345678 2 (.value 7) (.externValue 9) .null .null) =
      some [0xE92D40F0,
        0xE92D40F0, 0xE3A00000, 0xE3800007, 0xE3800C00, 0xE3800800, 0xE3800400, 0xE8BD40F0,
        0xE1A04000,
        0xE92D40F0, 0xE3A00000, 0xE3800009, 0xE3800C00, 0xE3800800, 0xE3800400, 0xE4100000,
        0xE8BD40F0,
        0xE1A05000,
        0xE1A00004, 0xE1A01005,
        0xE3A04000, 0xE3844078, 0xE3844C56, 0xE3844834, 0xE3844412,
        0xE92D4000, 0xE12FFF34, 0xE8BD4000,
        0xE8BD40F0] ∧
    ∃ σ1 σ2, run [0xE92D40F0] sample_machine = some σ1 ∧
      run (stage_args [[0xE92D40F0, 0xE3A00000, 0xE3800007, 0xE3800C00, 0xE3800800, 0xE3800400,
            0xE8BD40F0],
          [0xE92D40F0, 0xE3A00000, 0xE3800008, 0xE3800C00, 0xE3800800, 0xE3800400,
            0xE8BD40F0]] 0 ++ move_args 2 ++ mov_value R4 (0x12345678 % 4294967296) ++
          [0xE92D4000]) σ1 = some σ2 ∧
      (∀ i, i < 2 → σ2.reg i = [7, 8].getD i 0) ∧ σ2.reg R4 = 0x12345678 % 4294967296 :=
  ⟨(C17_compile_extern_function_words 0x12345678 2 (.value 7) (.externValue 9) .null .null
      [[0xE92D40F0, 0xE3A00000, 0xE3800007, 0xE3800C00, 0xE3800800, 0xE3800400, 0xE8BD40F0],
        [0xE92D40F0, 0xE3A00000, 0xE3800009, 0xE3800C00, 0xE3800800, 0xE3800400, 0xE4100000,
          0xE8BD40F0]]
      (by decide)
      (List.Forall₂.cons (by decide) (List.Forall₂.cons (by decide) List.Forall₂.nil))).1.trans
      (by decide),
    (C17_compile_extern_function_words 0x12345678 2 (.value 7) (.value 8) .null .null
      [[0xE92D40F0, 0xE3A00000, 0xE3800007, 0xE3800C00, 0xE3800800, 0xE3800400, 0xE8BD40F0],
        [0xE92D40F0, 0xE3A00000, 0xE3800008, 0xE3800C00, 0xE3800800, 0xE3800400, 0xE8BD40F0]]
      (by decide)
      (List.Forall₂.cons (by decide) (List.Forall₂.cons (by decide)
        List.Forall₂.nil))).2.2.2.2.2 [7, 8]
      (List.Forall₂.cons ⟨1, node_of_body _ 0 _ (body_value 7) (by decide)⟩
        (List.Forall₂.cons ⟨1, node_of_body _ 0 _ (body_value 8) (by decide)⟩ List.Forall₂.nil))
      sample_machine⟩

/-- A tree without NULL nodes, in which every ExternFunction has at most
`MAX_ARGS` arguments, has words. -/
theorem compile_well_formed (t : Node) : well_formed t = true → ∃ ws, compile t = some ws := by
  induction t with
  | null =>
    intro h
    cases h
  | value val => exact fun _ => ⟨_, rfl⟩
  | externValue p => exact fun _ => ⟨_, rfl⟩
  | braced e ih =>
    intro h
    obtain ⟨w, hw⟩ := ih h
    exact ⟨_, by rw [compile, hw]; rfl⟩
  | sum l r ihl ihr =>
    intro h
    simp only [well_formed, Bool.and_eq_true] at h
    obtain ⟨wl, hl⟩ := ihl h.1
    obtain ⟨wr, hr⟩ := ihr h.2
    exact ⟨_, by rw [compile, hl, hr]; rfl⟩
  | sub l r ihl ihr =>
    intro h
    simp only [well_formed, Bool.and_eq_true] at h
    obtain ⟨wl, hl⟩ := ihl h.1
    obtain ⟨wr, hr⟩ := ihr h.2
    exact ⟨_, by rw [compile, hl, hr]; rfl⟩
  | mul l r ihl ihr =>
    intro h
    simp only [well_formed, Bool.and_eq_true] at h
    obtain ⟨wl, hl⟩ := ihl h.1
    obtain ⟨wr, hr⟩ := ihr h.2
    exact ⟨_, by rw [compile, hl, hr]; rfl⟩
  | externFunction p n a0 a1 a2 a3 ih0 ih1 ih2 ih3 =>
    intro h
    simp only [well_formed, Bool.and_eq_true, decide_eq_true_eq] at h
    obtain ⟨hn, hall⟩ := h
    interval_cases n
    · exact ⟨_, (compile_function_iff p 0 a0 a1 a2 a3 _).mpr ⟨[], rfl, rfl, rfl⟩⟩
    · simp only [List.take, List.all_cons, List.all_nil, id, Bool.and_true] at hall
      obtain ⟨w0, h0⟩ := ih0 hall
      exact ⟨_, (compile_function_iff p 1 a0 a1 a2 a3 _).mpr ⟨[w0], by simp [h0], rfl, rfl⟩⟩
    · simp only [List.take, List.all_cons, List.all_nil, id, Bool.and_true,
        Bool.and_eq_true] at hall
      obtain ⟨w0, h0⟩ := ih0 hall.1
      obtain ⟨w1, h1⟩ := ih1 hall.2
      exact ⟨_, (compile_function_iff p 2 a0 a1 a2 a3 _).mpr
        ⟨[w0, w1], by simp [h0, h1], rfl, rfl⟩⟩
    · simp only [List.take, List.all_cons, List.all_nil, id, Bool.and_true,
        Bool.and_eq_true] at hall
      obtain ⟨w0, h0⟩ := ih0 hall.1
      obtain ⟨w1, h1⟩ := ih1 hall.2.1
      obtain ⟨w2, h2⟩ := ih2 hall.2.2
      exact ⟨_, (compile_function_iff p 3 a0 a1 a2 a3 _).mpr
        ⟨[w0, w1, w2], by simp [h0, h1, h2], rfl, rfl⟩⟩
    · simp only [List.take, List.all_cons, List.all_nil, id, Bool.and_true,
        Bool.and_eq_true] at hall
      obtain ⟨w0, h0⟩ := ih0 hall.1
      obtain ⟨w1, h1⟩ := ih1 hall.2.1
      obtain ⟨w2, h2⟩ := ih2 hall.2.2.1
      obtain ⟨w3, h3⟩ := ih3 hall.2.2.2
      exact ⟨_, (compile_function_iff p 4 a0 a1 a2 a3 _).mpr
        ⟨[w0, w1, w2, w3], by simp [h0, h1, h2, h3], rfl, rfl⟩⟩

/-- Every word of `mov_value` is a data-processing word with an immediate
operand: its top byte is 0xE3. -/
theorem mov_value_top (dst v : Nat) (hdst : dst ≤ 15) :
    ∀ w ∈ mov_value dst v, w / 16777216 = 227 := by
  intro w hw
  rw [mov_value_words dst v hdst] at hw
  have b0 := Nat.mod_lt (v / 2 ^ 0) (show 0 < 256 by decide)
  have b1 := Nat.mod_lt (v / 2 ^ 8) (show 0 < 256 by decide)
  have b2 := Nat.mod_lt (v / 2 ^ 16) (show 0 < 256 by decide)
  have b3 := Nat.mod_lt (v / 2 ^ 24) (show 0 < 256 by decide)
  simp only [List.mem_cons, List.mem_singleton, List.not_mem_nil, or_false] at hw
  rcases hw with e | e | e | e | e <;> subst e <;> omega

theorem stage_word_top (i : Nat) (hi : i ≤ 3) :
    (0xE1A00000 ||| ((4 + i) <<< 12)) / 16777216 = 225 := by
  interval_cases i <;> rfl

theorem move_args_top (k : Nat) (hk : k ≤ 4) : ∀ w ∈ move_args k, w / 16777216 = 225 := by
  interval_cases k <;> decide

theorem bx_lr_word : instruction_t (ALWAYS ||| 0x12FFF1E) = 0xE12FFF1E := by
  decide

theorem jit_words (u : va_order) {expression : List Char} {externs : List symbol_t} {fuel : Nat}
    {program : List Nat} (h : jit_compile_expression_to_arm u expression externs fuel = some program) :
    ∃ tree position words,
      fetch_buffer u (remove_spaces expression) externs fuel = some (tree, position) ∧
      compile tree = some words ∧ program = words ++ [0xE12FFF1E] := by
  rw [jit_compile_expression_to_arm] at h
  cases hf : fetch_buffer u (remove_spaces expression) externs fuel with
  | none =>
    rw [hf] at h
    cases h
  | some r =>
    obtain ⟨tree, position⟩ := r
    rw [hf] at h
    dsimp only at h
    cases hc : compile tree with
    | none =>
      rw [hc] at h
      cases h
    | some words =>
      rw [hc] at h
      simp only [Option.some.injEq] at h
      exact ⟨tree, position, words, rfl, hc, by rw [← h, bx_lr_word]⟩

theorem forall_of_forall₂ {Q : Node → List Nat → Prop} {R : List Nat → Prop}
    (hQR : ∀ a w, Q a w → R w) {l : List Node} {ws : List (List Nat)}
    (h : List.Forall₂ (fun a w => compile a = some w ∧ Q a w) l ws) : ∀ w ∈ ws, R w := by
  induction h with
  | nil =>
    intro w hw
    cases hw
  | @cons a w l ws hd _ ih =>
    intro w' hw'
    rcases List.mem_cons.mp hw' with e | e
    · rw [e]
      exact hQR a w hd.2
    · exact ih w' e

theorem stage_args_top : ∀ (ws : List (List Nat)) (i : Nat), i + ws.length ≤ 4 →
    (∀ w ∈ ws, ∀ x ∈ w, x / 268435456 = 14) → ∀ x ∈ stage_args ws i, x / 268435456 = 14
  | [], _, _, _ => by
    intro x hx
    cases hx
  | w :: rest, i, hi, hw => by
    intro x hx
    simp only [List.length_cons] at hi
    simp only [stage_args, List.mem_append, List.mem_singleton] at hx
    rcases hx with (hx | hx) | hx
    · exact hw w (List.mem_cons_self _ _) x hx
    · have := stage_word_top i (by omega)
      rw [hx]
      omega
    · exact stage_args_top rest (i + 1) (by omega)
        (fun w' h' => hw w' (List.mem_cons_of_mem _ h')) x hx

theorem compile_top : ∀ t ws, compile t = some ws → ∀ w ∈ ws, w / 268435456 = 14 := by
  apply compile_rec
  · intro val w hw
    simp only [List.mem_append, List.mem_singleton] at hw
    rcases hw with (hw | hw) | hw
    · rw [hw]
    · have := mov_value_top R0 (toUInt32 val) (by decide) w hw
      omega
    · rw [hw]
  · intro p w hw
    simp only [List.mem_append, List.mem_singleton] at hw
    rcases hw with (hw | hw | hw) | hw
    · rw [hw]
    · have := mov_value_top R0 (p % 4294967296) (by decide) w hw
      omega
    · rw [hw]
      decide
    · rw [hw]
  · intro e w _ ih x hx
    simp only [List.mem_append, List.mem_singleton] at hx
    rcases hx with (hx | hx) | hx
    · rw [hx]
    · exact ih x hx
    · rw [hx]
  all_goals first
    | (intro l r wl wr _ _ ihl ihr x hx
       simp only [List.mem_append, List.mem_singleton] at hx
       rcases hx with (hx | (((hx | hx) | hx) | hx) | hx) | hx
       · rw [hx]
       · exact ihr x hx
       · rw [hx]
       · exact ihl x hx
       · rw [hx]
       · rw [hx]
       · rw [hx])
    | skip
  intro p n a0 a1 a2 a3 ws hn hargs x hx
  have hlen : ws.length = n := by
    have := hargs.length_eq
    simp only [List.length_take, List.length_cons, List.length_nil] at this
    omega
  simp only [List.mem_append, List.mem_singleton, List.mem_cons, List.not_mem_nil,
    or_false] at hx
  rcases hx with (hx | ((hx | hx) | hx) | hx) | hx
  · rw [hx]
  · exact stage_args_top ws 0 (by omega)
      (forall_of_forall₂ (R := fun w => ∀ x ∈ w, x / 268435456 = 14) (fun _ _ h => h) hargs) x hx
  · have := move_args_top n hn x hx
    omega
  · have := mov_value_top R4 (p % 4294967296) (by decide) x hx
    omega
  · rcases hx with hx | hx | hx <;> rw [hx]
  · rw [hx]

/-- C12: for every tree without NULL nodes in which each ExternFunction has at
most 4 arguments, `compile` writes words and each of them has its top four bits
equal to 0xE; so has the `bx lr` word, and so has every word of a program
written by `jit_compile_expression_to_arm`. -/
theorem C12_top_nibble (u : va_order) (t : Node) (h : well_formed t = true) :
    (∃ ws, compile t = some ws ∧ ∀ w ∈ ws, w / 2 ^ 28 = 0xE) ∧
    instruction_t (ALWAYS ||| 0x12FFF1E) / 2 ^ 28 = 0xE ∧
    ∀ expression externs fuel program,
      jit_compile_expression_to_arm u expression externs fuel = some program →
      ∀ w ∈ program, w / 2 ^ 28 = 0xE := by
  refine ⟨?_, by decide, ?_⟩
  · obtain ⟨ws, hws⟩ := compile_well_formed t h
    exact ⟨ws, hws, compile_top t ws hws⟩
  · intro expression externs fuel program hp w hw
    obtain ⟨tree, position, words, _, hc, rfl⟩ := jit_words u hp
    rcases List.mem_append.mp hw with hw | hw
    · exact compile_top tree words hc w hw
    · rw [List.mem_singleton.mp hw]
      decide

/-- C12 at the node of `f(7,g)-1`, and the program of `1+2` in a left to
right and in a right to left build. -/
theorem C12_top_nibble_witness :
    well_formed (.sub (.externFunction 0x12345678 2 (.value 7) (.externValue 9) .null .null)
      (.value 1)) = true ∧
    (∃ ws, compile (.sub (.externFunction 0x12345678 2 (.value 7) (.externValue 9) .null .null)
        (.value 1)) = some ws ∧ ∀ w ∈ ws, w / 2 ^ 28 = 0xE) ∧
    jit_compile_expression_to_arm left_to_right ['1', '+', '2'] [] 6 =
      some [0xE92D40F0,
        0xE92D40F0, 0xE3A00000, 0xE3800002, 0xE3800C00, 0xE3800800, 0xE3800400, 0xE8BD40F0,
        0xE1A04000,
        0xE92D40F0, 0xE3A00000, 0xE3800001, 0xE3800C00, 0xE3800800, 0xE3800400, 0xE8BD40F0,
        0xE1A01004, 0xE0800001, 0xE8BD40F0, 0xE12FFF1E] ∧
    jit_compile_expression_to_arm right_to_left ['1', '+', '2'] [] 6 =
      some [0xE92D40F0,
        0xE92D40F0, 0xE3A00000, 0xE3800001, 0xE3800C00, 0xE3800800, 0xE3800400, 0xE8BD40F0,
        0xE1A04000,
        0xE92D40F0, 0xE3A00000, 0xE3800002, 0xE3800C00, 0xE3800800, 0xE3800400, 0xE8BD40F0,
        0xE1A01004, 0xE0800001, 0xE8BD40F0, 0xE12FFF1E] :=
  ⟨by decide,
    (C12_top_nibble left_to_right
      (.sub (.externFunction 0x12345678 2 (.value 7) (.externValue 9) .null .null) (.value 1))
      (by decide)).1,
    by decide, by decide⟩

theorem stage_args_length : ∀ (ws : List (List Nat)) (i : Nat),
    (stage_args ws i).length = (ws.map List.length).sum + ws.length
  | [], _ => rfl
  | w :: rest, i => by
    simp only [stage_args, List.length_append, List.length_singleton, List.map_cons,
      List.sum_cons, List.length_cons, List.length_nil, stage_args_length rest (i + 1)]
    omega

theorem map_of_forall₂ {Q : Node → List Nat → Prop} {f : Node → Nat} {g : List Nat → Nat}
    (hQ : ∀ a w, Q a w → g w = f a) {l : List Node} {ws : List (List Nat)}
    (h : List.Forall₂ (fun a w => compile a = some w ∧ Q a w) l ws) : ws.map g = l.map f := by
  induction h with
  | nil => rfl
  | @cons a w l ws hd _ ih => rw [List.map_cons, List.map_cons, hQ a w hd.2, ih]

theorem compile_length : ∀ t ws, compile t = some ws → ws.length = word_count t := by
  apply compile_rec
  · intro val
    rfl
  · intro p
    rfl
  · intro e w _ ih
    simp only [List.length_append, List.length_singleton, word_count, ih]
    omega
  all_goals first
    | (intro l r wl wr _ _ ihl ihr
       simp only [List.length_append, List.length_singleton, word_count, ihl, ihr]
       omega)
    | skip
  intro p n a0 a1 a2 a3 ws hn hargs
  have hlen : ws.length = n := by
    have := hargs.length_eq
    simp only [List.length_take, List.length_cons, List.length_nil] at this
    omega
  have hmap := map_of_forall₂ (f := word_count) (g := List.length) (fun _ _ h => h) hargs
  have hmov : (mov_value R4 (p % 4294967296)).length = 5 := rfl
  have hmove : (move_args n).length = n := by simp [move_args]
  have htake : [word_count a0, word_count a1, word_count a2, word_count a3].take n =
      ([a0, a1, a2, a3].take n).map word_count := by
    rw [List.map_take]
    rfl
  simp only [List.length_append, List.length_singleton, List.length_cons, List.length_nil,
    word_count, stage_args_length, hmap, hlen, hmov, hmove, htake]
  omega

/-- C14: for every tree without NULL nodes in which each ExternFunction has at
most 4 arguments, the number of words `compile` writes is `W` of the tree, where
`W` is 7 for a Literal, 8 for an ExternValue, `W(e) + 2` for Parenthesised,
`W(l) + W(r) + 5` for Add, Sub and Mul and `10 + 2k + W(a1) + ... + W(ak)` for an
ExternFunction with `k` arguments, whatever the literal values and host
addresses; a program written by `jit_compile_expression_to_arm` is one word
longer than `W` of the parsed tree. -/
theorem C14_word_count (u : va_order) (t : Node) (h : well_formed t = true) :
    (∃ ws, compile t = some ws ∧ ws.length = word_count t) ∧
    (∀ val, word_count (.value val) = 7) ∧
    (∀ p, word_count (.externValue p) = 8) ∧
    (∀ e, word_count (.braced e) = word_count e + 2) ∧
    (∀ l r, word_count (.sum l r) = word_count l + word_count r + 5 ∧
      word_count (.sub l r) = word_count l + word_count r + 5 ∧
      word_count (.mul l r) = word_count l + word_count r + 5) ∧
    (∀ p a0 a1 a2 a3,
      word_count (.externFunction p 1 a0 a1 a2 a3) = 10 + 2 * 1 + word_count a0 ∧
      word_count (.externFunction p 2 a0 a1 a2 a3) = 10 + 2 * 2 + (word_count a0 + word_count a1) ∧
      word_count (.externFunction p 3 a0 a1 a2 a3) =
        10 + 2 * 3 + (word_count a0 + word_count a1 + word_count a2) ∧
      word_count (.externFunction p 4 a0 a1 a2 a3) =
        10 + 2 * 4 + (word_count a0 + word_count a1 + word_count a2 + word_count a3)) ∧
    ∀ expression externs fuel program,
      jit_compile_expression_to_arm u expression externs fuel = some program →
      ∃ tree position,
        fetch_buffer u (remove_spaces expression) externs fuel = some (tree, position) ∧
        program.length = word_count tree + 1 := by
  refine ⟨?_, fun _ => rfl, fun _ => rfl, fun _ => rfl, fun _ _ => ⟨rfl, rfl, rfl⟩, ?_, ?_⟩
  · obtain ⟨ws, hws⟩ := compile_well_formed t h
    exact ⟨ws, hws, compile_length t ws hws⟩
  · intro p a0 a1 a2 a3
    simp only [word_count, List.take, List.sum_cons, List.sum_nil]
    omega
  · intro expression externs fuel program hp
    obtain ⟨tree, position, words, hf, hc, rfl⟩ := jit_words u hp
    refine ⟨tree, position, hf, ?_⟩
    rw [List.length_append, compile_length tree words hc]
    rfl

/-- C14 at the node of `f(7,g)*(1)`: 10 + 2 * 2 + 7 + 8 words for the call, 9
for the group, 5 for the product. -/
theorem C14_word_count_witness :
    well_formed (.mul (.externFunction 0x12345678 2 (.value 7) (.externValue 9) .null .null)
      (.braced (.value 1))) = true ∧
    word_count (.mul (.externFunction 0x12345678 2 (.value 7) (.externValue 9) .null .null)
      (.braced (.value 1))) = 43 ∧
    ∃ ws, compile (.mul (.externFunction 0x12345678 2 (.value 7) (.externValue 9) .null .null)
        (.braced (.value 1))) = some ws ∧
      ws.length = word_count (.mul (.externFunction 0x12345678 2 (.value 7) (.externValue 9)
        .null .null) (.braced (.value 1))) :=
  ⟨by decide, by decide,
    (C14_word_count left_to_right (.mul (.externFunction 0x12345678 2 (.value 7) (.externValue 9) .null .null)
      (.braced (.value 1))) (by decide)).1⟩

theorem well_nested_of_eq {ws : List Nat} {k k' : Nat} (h : well_nested ws k) (e : k = k') :
    well_nested ws k' :=
  e ▸ h

theorem well_nested_plain (ws : List Nat)
    (h : ∀ w ∈ ws, w ≠ 0xE92D40F0 ∧ w ≠ 0xE8BD40F0) : well_nested ws 0 := by
  refine ⟨?_, ?_, ?_⟩
  · exact List.count_eq_zero.mpr (fun hm => (h _ hm).1 rfl)
  · exact List.count_eq_zero.mpr (fun hm => (h _ hm).2 rfl)
  · intro n
    have : (ws.take n).count 0xE8BD40F0 = 0 :=
      List.count_eq_zero.mpr (fun hm => (h _ (List.mem_of_mem_take hm)).2 rfl)
    omega

theorem well_nested_append {a b : List Nat} {j k : Nat} (ha : well_nested a j)
    (hb : well_nested b k) : well_nested (a ++ b) (j + k) := by
  obtain ⟨a1, a2, a3⟩ := ha
  obtain ⟨b1, b2, b3⟩ := hb
  refine ⟨?_, ?_, ?_⟩
  · rw [List.count_append, a1, b1]
  · rw [List.count_append, a2, b2]
  · intro n
    rw [List.take_append_eq_append_take, List.count_append, List.count_append]
    have := a3 n
    have := b3 (n - a.length)
    omega

theorem well_nested_wrap {a : List Nat} {k : Nat} (ha : well_nested a k) :
    well_nested ([0xE92D40F0] ++ a ++ [0xE8BD40F0]) (k + 1) := by
  obtain ⟨a1, a2, a3⟩ := ha
  show well_nested (0xE92D40F0 :: (a ++ [0xE8BD40F0])) (k + 1)
  have hne : (3904717040 : Nat) ≠ 3912057072 := by decide
  refine ⟨?_, ?_, ?_⟩
  · rw [List.count_cons_self, List.count_append, a1]
    rfl
  · rw [List.count_cons_of_ne hne, List.count_append, a2]
    rfl
  · intro n
    cases n with
    | zero => simp
    | succ m =>
      have h1 := a3 m
      have h2 : (List.take (m - a.length) [3904717040]).count 3904717040 ≤ 1 :=
        (List.count_le_length _ _).trans (by
          rw [List.length_take]
          exact Nat.min_le_right _ _)
      rw [List.take_succ_cons, List.count_cons_self, List.count_cons_of_ne hne,
        List.take_append_eq_append_take, List.count_append, List.count_append]
      omega

theorem plain_of_top {w b : Nat} (h : w / 16777216 = b) (hb : b = 227 ∨ b = 225) :
    w ≠ 0xE92D40F0 ∧ w ≠ 0xE8BD40F0 := by
  constructor <;> intro e <;> subst e <;> rcases hb with hb | hb <;> subst hb <;> cases h

theorem stage_args_nested {P : Node → List Nat → Prop}
    (hP : ∀ a w, P a w → well_nested w (nodes a)) {l : List Node} {ws : List (List Nat)}
    (h : List.Forall₂ (fun a w => compile a = some w ∧ P a w) l ws) :
    ∀ i, i + ws.length ≤ 4 → well_nested (stage_args ws i) (l.map nodes).sum := by
  induction h with
  | nil =>
    intro i _
    exact well_nested_plain [] (fun w hw => by cases hw)
  | @cons a w l ws hd _ ih =>
    intro i hi
    simp only [List.length_cons] at hi
    have h1 := hP a w hd.2
    have h2 : well_nested [0xE1A00000 ||| ((4 + i) <<< 12)] 0 :=
      well_nested_plain _ (fun x hx => by
        rw [List.mem_singleton.mp hx]
        exact plain_of_top (stage_word_top i (by omega)) (Or.inr rfl))
    have h3 := ih (i + 1) (by omega)
    exact well_nested_of_eq (well_nested_append (well_nested_append h1 h2) h3)
      (by simp only [List.map_cons, List.sum_cons]; omega)

theorem compile_nested : ∀ t ws, compile t = some ws →
    ws.head? = some 0xE92D40F0 ∧ ws.getLast? = some 0xE8BD40F0 ∧ well_nested ws (nodes t) := by
  have hmv : ∀ dst v, dst ≤ 15 → well_nested (mov_value dst v) 0 := fun dst v hdst =>
    well_nested_plain _ (fun w hw => plain_of_top (mov_value_top dst v hdst w hw) (Or.inl rfl))
  have hone : ∀ w : Nat, w ≠ 0xE92D40F0 ∧ w ≠ 0xE8BD40F0 → well_nested [w] 0 := fun w hw =>
    well_nested_plain _ (fun x hx => by rw [List.mem_singleton.mp hx]; exact hw)
  apply compile_rec
  · intro val
    refine ⟨rfl, List.getLast?_concat _, ?_⟩
    exact well_nested_wrap (hmv R0 _ (by decide))
  · intro p
    refine ⟨rfl, List.getLast?_concat _, ?_⟩
    exact well_nested_wrap
      (well_nested_append (hmv R0 _ (by decide)) (hone (ldr R0 R0) (by decide)))
  · intro e w _ ih
    refine ⟨rfl, List.getLast?_concat _, ?_⟩
    exact well_nested_wrap ih.2.2
  all_goals first
    | (intro l r wl wr _ _ ihl ihr
       refine ⟨rfl, List.getLast?_concat _, ?_⟩
       exact well_nested_of_eq
         (well_nested_wrap (well_nested_append (well_nested_append (well_nested_append
           (well_nested_append ihr.2.2 (hone _ (by decide))) ihl.2.2) (hone _ (by decide)))
           (hone _ (by decide))))
         (by simp only [nodes]; omega))
    | skip
  intro p n a0 a1 a2 a3 ws hn hargs
  have hlen : ws.length = n := by
    have := hargs.length_eq
    simp only [List.length_take, List.length_cons, List.length_nil] at this
    omega
  refine ⟨rfl, List.getLast?_concat _, ?_⟩
  have h1 := stage_args_nested (fun _ _ h => h.2.2) hargs 0 (by omega)
  have h2 : well_nested (move_args n) 0 :=
    well_nested_plain _ (fun w hw => plain_of_top (move_args_top n hn w hw) (Or.inr rfl))
  have h3 := hmv R4 (p % 4294967296) (by decide)
  have h4 : well_nested [0xE92D4000, 0xE12FFF34, 0xE8BD4000] 0 :=
    well_nested_plain _ (by decide)
  have htake : [nodes a0, nodes a1, nodes a2, nodes a3].take n =
      ([a0, a1, a2, a3].take n).map nodes := by
    rw [List.map_take]
    rfl
  exact well_nested_of_eq
    (well_nested_wrap (well_nested_append (well_nested_append (well_nested_append h1 h2) h3) h4))
    (by simp only [nodes, htake])

/-- C13: for every tree without NULL nodes in which each ExternFunction has at
most 4 arguments, the words `compile` writes begin with the push 0xE92D40F0
and end with the pop 0xE8BD40F0, and these two words are well nested in them:
every prefix holds at least as many pushes as pops, and the whole holds as many
pushes as pops, each as many as the tree has nodes. -/
theorem C13_push_pop_nested (t : Node) (h : well_formed t = true) :
    ∃ ws, compile t = some ws ∧
      ws.head? = some 0xE92D40F0 ∧ ws.getLast? = some 0xE8BD40F0 ∧
      ws.count 0xE92D40F0 = nodes t ∧ ws.count 0xE8BD40F0 = nodes t ∧
      (∀ n, (ws.take n).count 0xE8BD40F0 ≤ (ws.take n).count 0xE92D40F0) ∧
      default_push = 0xE92D40F0 ∧ default_pop = 0xE8BD40F0 := by
  obtain ⟨ws, hws⟩ := compile_well_formed t h
  obtain ⟨h1, h2, h3, h4, h5⟩ := compile_nested t ws hws
  exact ⟨ws, hws, h1, h2, h3, h4, h5, default_push_eq, default_pop_eq⟩

/-- C13 at the node of `f(7,g)-(1)`, which has six nodes. -/
theorem C13_push_pop_nested_witness :
    well_formed (.sub (.externFunction 0x12345678 2 (.value 7) (.externValue 9) .null .null)
      (.braced (.value 1))) = true ∧
    nodes (.sub (.externFunction 0x12345678 2 (.value 7) (.externValue 9) .null .null)
      (.braced (.value 1))) = 6 ∧
    ∃ ws, compile (.sub (.externFunction 0x12345678 2 (.value 7) (.externValue 9) .null .null)
        (.braced (.value 1))) = some ws ∧
      ws.head? = some 0xE92D40F0 ∧ ws.getLast? = some 0xE8BD40F0 ∧
      ws.count 0xE92D40F0 = nodes (.sub (.externFunction 0x12345678 2 (.value 7) (.externValue 9)
        .null .null) (.braced (.value 1))) ∧
      ws.count 0xE8BD40F0 = nodes (.sub (.externFunction 0x12345678 2 (.value 7) (.externValue 9)
        .null .null) (.braced (.value 1))) ∧
      (∀ n, (ws.take n).count 0xE8BD40F0 ≤ (ws.take n).count 0xE92D40F0) ∧
      default_push = 0xE92D40F0 ∧ default_pop = 0xE8BD40F0 :=
  ⟨by decide, by decide,
    C13_push_pop_nested (.sub (.externFunction 0x12345678 2 (.value 7) (.externValue 9) .null
      .null) (.braced (.value 1))) (by decide)⟩

/-! ## The entry point -/

theorem buffer_text_written (kept : List Char) (hnul : ∀ c ∈ kept, c ≠ Char.ofNat 0) (n : Nat) :
    buffer_text (kept.map some ++ List.replicate n none ++ [some (Char.ofNat 0)]) =
      (kept, decide (n = 0)) := by
  induction kept with
  | nil =>
    cases n with
    | zero => rfl
    | succ m => rfl
  | cons c cs ih =>
    have h1 := hnul c (List.mem_cons_self _ _)
    have h2 := ih (fun c' h' => hnul c' (List.mem_cons_of_mem _ h'))
    show buffer_text (some c ::
      (cs.map some ++ List.replicate n none ++ [some (Char.ofNat 0)])) = _
    rw [buffer_text, if_neg h1, h2]

/-- What `fetch` can read of the buffer `remove_spaces` returns for a NUL-free
text: the characters kept, which a NUL ends only when no space was removed. -/
theorem buffer_text_remove_spaces (e : List Char) (hnul : ∀ c ∈ e, c ≠ Char.ofNat 0) :
    buffer_text (remove_spaces e) =
      (e.filter (fun c => c ≠ ' '),
        decide (e.length - (e.filter (fun c => c ≠ ' ')).length = 0)) := by
  rw [remove_spaces_buffer e hnul]
  exact buffer_text_written _ (fun c hc => hnul c (List.mem_of_mem_filter hc)) _

theorem fetch_of_fetch_buffer (u : va_order) {buffer : List (Option Char)} {externs : List symbol_t}
    {fuel : Nat} {r : Node × Nat} (h : fetch_buffer u buffer externs fuel = some r) :
    fetch u (buffer_text buffer).1 externs fuel 0 = some r ∧
      ((buffer_text buffer).2 = true ∨ r.2 < (buffer_text buffer).1.length) := by
  rw [fetch_buffer] at h
  cases hf : fetch u (buffer_text buffer).1 externs fuel 0 with
  | none =>
    rw [hf] at h
    cases h
  | some r' =>
    obtain ⟨tree, position⟩ := r'
    rw [hf] at h
    dsimp only at h
    by_cases hc : (buffer_text buffer).2 = true ∨ position < (buffer_text buffer).1.length
    · rw [if_pos hc] at h
      cases h
      exact ⟨rfl, hc⟩
    · rw [if_neg hc] at h
      cases h

/-- C15: whenever the parser returns a tree on the buffer of
`remove_spaces(expression)`, the program `jit_compile_expression_to_arm` writes
is exactly the words `compile` writes for that tree followed by the single word
0xE12FFF1E (bx lr), with no word after it, and there is no program when
`compile` has no words for the tree.  For a NUL-free expression the tree is the
one `fetch` returns on the expression without its spaces, from position 0. -/
theorem C15_jit_program (u : va_order) (expression : List Char) (externs : List symbol_t) (fuel : Nat)
    (tree : Node) (position : Nat)
    (h : fetch_buffer u (remove_spaces expression) externs fuel = some (tree, position)) :
    jit_compile_expression_to_arm u expression externs fuel =
      (compile tree).map (fun words => words ++ [0xE12FFF1E]) ∧
    (∀ words, compile tree = some words →
      ∃ program, jit_compile_expression_to_arm u expression externs fuel = some program ∧
        program.take words.length = words ∧ program.drop words.length = [0xE12FFF1E] ∧
        program.length = words.length + 1) ∧
    ((∀ c ∈ expression, c ≠ Char.ofNat 0) →
      fetch u (expression.filter (fun c => c ≠ ' ')) externs fuel 0 = some (tree, position)) := by
  have hjit : jit_compile_expression_to_arm u expression externs fuel =
      (compile tree).map (fun words => words ++ [0xE12FFF1E]) := by
    rw [jit_compile_expression_to_arm, h]
    dsimp only
    cases compile tree with
    | none => rfl
    | some words =>
      dsimp only
      rw [bx_lr_word]
      rfl
  refine ⟨hjit, ?_, ?_⟩
  · intro words hw
    refine ⟨words ++ [0xE12FFF1E], ?_, ?_, ?_, ?_⟩
    · rw [hjit, hw]
      rfl
    · simp
    · simp
    · simp
  · intro hnul
    have h1 := (fetch_of_fetch_buffer u h).1
    rw [buffer_text_remove_spaces expression hnul] at h1
    exact h1

/-- C15 on `2*(3+4)`, in a left to right and in a right to left build. -/
theorem C15_jit_program_witness :
    fetch_buffer left_to_right (remove_spaces ['2', '*', '(', '3', '+', '4', ')']) [] 10 =
      some (.mul (.value 2) (.braced (.sum (.value 3) (.value 4))), 7) ∧
    jit_compile_expression_to_arm left_to_right ['2', '*', '(', '3', '+', '4', ')'] [] 10 =
      (compile (.mul (.value 2) (.braced (.sum (.value 3) (.value 4))))).map
        (fun words => words ++ [0xE12FFF1E]) ∧
    (jit_compile_expression_to_arm left_to_right ['2', '*', '(', '3', '+', '4', ')'] [] 10).map
      List.length = some 34 ∧
    fetch_buffer right_to_left (remove_spaces ['2', '*', '(', '3', '+', '4', ')']) [] 10 =
      some (.mul (.braced (.sum (.value 4) (.value 3))) (.value 2), 7) ∧
    jit_compile_expression_to_arm right_to_left ['2', '*', '(', '3', '+', '4', ')'] [] 10 =
      (compile (.mul (.braced (.sum (.value 4) (.value 3))) (.value 2))).map
        (fun words => words ++ [0xE12FFF1E]) :=
  ⟨by decide,
    (C15_jit_program left_to_right ['2', '*', '(', '3', '+', '4', ')'] [] 10
      (.mul (.value 2) (.braced (.sum (.value 3) (.value 4)))) 7 (by decide)).1,
    by decide,
    by decide,
    (C15_jit_program right_to_left ['2', '*', '(', '3', '+', '4', ')'] [] 10
      (.mul (.braced (.sum (.value 4) (.value 3))) (.value 2)) 7 (by decide)).1⟩

/-! ## The encoder of `ldr` -/

/-- C18 fails on the code.  The word `compile_extern_value` writes after the
address is `ldr(R0, R0) = 0xE4100000`: a single-data-transfer load (bit 26 and
the L bit 20 set) with immediate offset 0 (I bit 25 clear, offset field zero),
W bit 21 clear, base R0 and target R0, but with the P bit 24 clear, which is
the post-indexed form, not the pre-indexed one.  And `ldr` never reads `src`:
`ldr(R1, R2) = 0xE4111000` has R1, not R2, in the base field. -/
theorem C18_ldr_word :
    (∀ p, compile_extern_value p = mov_value R0 (p % 4294967296) ++ [ldr R0 R0]) ∧
    ldr R0 R0 = 0xE4100000 ∧
    (ldr R0 R0 / 2 ^ 26) % 4 = 1 ∧ (ldr R0 R0 / 2 ^ 20) % 2 = 1 ∧
    (ldr R0 R0 / 2 ^ 25) % 2 = 0 ∧ ldr R0 R0 % 2 ^ 12 = 0 ∧ (ldr R0 R0 / 2 ^ 21) % 2 = 0 ∧
    (ldr R0 R0 / 2 ^ 16) % 16 = R0 ∧ (ldr R0 R0 / 2 ^ 12) % 16 = R0 ∧
    (ldr R0 R0 / 2 ^ 24) % 2 = 0 ∧
    ldr R1 R2 = 0xE4111000 ∧ (ldr R1 R2 / 2 ^ 12) % 16 = R1 ∧ (ldr R1 R2 / 2 ^ 16) % 16 = R1 ∧
    (ldr R1 R2 / 2 ^ 16) % 16 ≠ R2 ∧
    ∀ dst src1 src2, ldr dst src1 = ldr dst src2 := by
  refine ⟨fun _ => rfl, by decide, by decide, by decide, by decide, by decide, by decide,
    by decide, by decide, by decide, by decide, by decide, by decide, by decide,
    fun _ _ _ => rfl⟩

/-! ## Edge cases of the parser -/

/-- C19 does not hold in every build.  A `+` at the start of the text is
treated like a leading `-`: for every digit string `a`, with fuel 4 or more
`fetch` returns on `+a` the node `create_node(EXPR_MUL, Literal(-1), Literal(a))`,
the tree it returns on `-a`, with the cursor at the end of the text, and in
every build that tree denotes `-a` modulo `2 ^ 32`.  Where `create_node` reads
its two arguments in order the tree is Mul(Literal(-1), Literal(a)); where it
reads the second argument first it is Mul(Literal(a), Literal(-1)). -/
theorem C19_leading_plus (u : va_order) (x : List symbol_t) (a : List Char)
    (ha : is_digits a = true) (fuel : Nat) (hfuel : 4 ≤ fuel) :
    fetch u ('+' :: a) x fuel 0 =
      some (create_binary_node u .EXPR_MUL (.value (-1)) (literal a), a.length + 1) ∧
    fetch u ('-' :: a) x fuel 0 =
      some (create_binary_node u .EXPR_MUL (.value (-1)) (literal a), a.length + 1) ∧
    fetch u ('+' :: a) x fuel 0 = fetch u ('-' :: a) x fuel 0 ∧
    denote (create_binary_node u .EXPR_MUL (.value (-1)) (literal a)) =
      some ((4294967295 * (decimal a % 4294967296)) % 4294967296) ∧
    (u.binary_in_order = true →
      create_binary_node u .EXPR_MUL (.value (-1)) (literal a) =
        .mul (.value (-1)) (literal a)) ∧
    (u.binary_in_order = false →
      create_binary_node u .EXPR_MUL (.value (-1)) (literal a) =
        .mul (literal a) (.value (-1))) := by
  obtain ⟨k, rfl⟩ : ∃ k, fuel = k + 1 + 1 + 1 + 1 := ⟨fuel - 4, by omega⟩
  have key : ∀ o : Char, (o = '+' ∨ o = '-') →
      fetch u (o :: a) x (k + 1 + 1 + 1 + 1) 0 =
        some (create_binary_node u .EXPR_MUL (.value (-1)) (literal a), a.length + 1) := by
    intro o ho
    have h0 : charAt (o :: a) 0 = some o := charAt_append_cons [] o a
    have hop : o = '+' ∨ o = '-' ∨ o = '*' := by
      rcases ho with e | e
      · exact Or.inl e
      · exact Or.inr (Or.inl e)
    have hd := fetch_loop_digits_at u (o :: a) [o] a [] (by simp) x (k + 1)
      ⟨.null, .null, Char.ofNat 0, o⟩ ha (by intro c r h; cases h)
    have hend : charAt (o :: a) ([o].length + a.length) = some (Char.ofNat 0) := by
      have := charAt_length (o :: a)
      simp only [List.length_cons, List.length_nil] at this ⊢
      rw [← this]
      congr 1
      omega
    have hm : merge u ⟨.null, .null, Char.ofNat 0, o⟩ (literal a) =
        ⟨.null, create_binary_node u .EXPR_MUL (.value (-1)) (literal a), Char.ofNat 0, o⟩ := by
      rcases ho with e | e <;> subst e <;> simp [merge]
    rw [fetch_succ, fetch_loop_operator u _ x _ _ h0 hop]
    refine hd.trans ?_
    rw [hm, fetch_loop_end u _ x _ _ hend (by decide)]
    simp [merge, create_binary_node_ne_null]
    omega
  refine ⟨key '+' (Or.inl rfl), key '-' (Or.inr rfl), ?_, ?_,
    fun ho => (create_binary_node_in_order ho _ _).2.2,
    fun ho => (create_binary_node_reversed ho _ _).2.2⟩
  · rw [key '+' (Or.inl rfl), key '-' (Or.inr rfl)]
  · cases ho : u.binary_in_order with
    | true =>
      rw [(create_binary_node_in_order ho _ _).2.2]
      simp only [denote, literal, toUInt32_toInt32, Nat.mod_mod, Option.bind, Option.map]
      rfl
    | false =>
      rw [(create_binary_node_reversed ho _ _).2.2]
      simp only [denote, literal, toUInt32_toInt32, Nat.mod_mod, Option.bind, Option.map]
      rw [Nat.mul_comm]
      rfl

/-- C19 at `a = 42`: in a left to right build `+42` and `-42` both give
Mul(Literal(-1), Literal(42)), in a right to left build both give
Mul(Literal(42), Literal(-1)). -/
theorem C19_leading_plus_witness :
    is_digits ['4', '2'] = true ∧
    fetch left_to_right ['+', '4', '2'] [] 4 0 = some (.mul (.value (-1)) (.value 42), 3) ∧
    fetch left_to_right ['-', '4', '2'] [] 4 0 = some (.mul (.value (-1)) (.value 42), 3) ∧
    fetch right_to_left ['+', '4', '2'] [] 4 0 = some (.mul (.value 42) (.value (-1)), 3) ∧
    fetch right_to_left ['-', '4', '2'] [] 4 0 = some (.mul (.value 42) (.value (-1)), 3) ∧
    denote (.mul (.value (-1)) (.value 42)) = some (4294967296 - 42) ∧
    denote (.mul (.value 42) (.value (-1))) = some (4294967296 - 42) ∧
    fetch left_to_right ('+' :: ['4', '2']) [] 4 0 =
      fetch left_to_right ('-' :: ['4', '2']) [] 4 0 ∧
    fetch right_to_left ('+' :: ['4', '2']) [] 4 0 =
      fetch right_to_left ('-' :: ['4', '2']) [] 4 0 :=
  ⟨by decide, by decide, by decide, by decide, by decide, by decide, by decide,
    (C19_leading_plus left_to_right [] ['4', '2'] (by decide) 4 (by decide)).2.2.1,
    (C19_leading_plus right_to_left [] ['4', '2'] (by decide) 4 (by decide)).2.2.1⟩

theorem fetch_at_terminator (u : va_order) (s : List Char) (x : List symbol_t) (position : Nat) (c : Char)
    (hc : charAt s position = some c) (hend : c = Char.ofNat 0 ∨ c = ')' ∨ c = ',') (k : Nat) :
    fetch u s x (k + 2) position = some (.null, position) := by
  rw [fetch_succ, fetch_loop_end u s x k _ hc ((is_parse_end_iff c).mpr hend)]
  rfl

/-- C20 does not hold in every build.  When the character at the starting
cursor is a terminator (the NUL that ends the text, `)` or `,`), `fetch` with
fuel 2 or more returns the null tree and leaves the cursor where it was; so the
empty expression gives the null tree, for which `compile` has no words and the
entry point no program, and `()` gives a Parenthesised node with a null child;
these hold in every build.  On `f()`, for `f` bound to `p`, `fetch` returns the
node `create_node(EXPR_EXTERN_FUNCTION, p, 1, args)` for the array whose only
filled slot holds NULL: where `create_node` reads its three arguments in order
this is an ExternFunction node with `args_n = 1` whose only argument is null;
where it reads them in another order the fields of the node are exchanged and
the call has no defined result. -/
theorem C20_fetch_at_terminator (u : va_order) (s : List Char) (x : List symbol_t)
    (position : Nat) (c : Char)
    (hc : charAt s position = some c) (hend : c = Char.ofNat 0 ∨ c = ')' ∨ c = ',')
    (fuel : Nat) (hfuel : 2 ≤ fuel) :
    fetch u s x fuel position = some (.null, position) ∧
    (fetch u [] x fuel 0 = some (.null, 0) ∧ compile .null = none ∧
      jit_compile_expression_to_arm u [] x fuel = none) ∧
    fetch u ['(', ')'] x (fuel + 2) 0 = some (.braced .null, 2) ∧
    (∀ p, lookup_extern ['f'] x = some p →
      fetch u ['f', '(', ')'] x (fuel + 4) 0 =
        (create_extern_function_node u p [.null]).map (fun node => (node, 3))) ∧
    (u.function_in_order = true → ∀ p, lookup_extern ['f'] x = some p →
      fetch u ['f', '(', ')'] x (fuel + 4) 0 =
        some (.externFunction p 1 .null .null .null .null, 3)) ∧
    (u.function_in_order = false → ∀ p, lookup_extern ['f'] x = some p →
      fetch u ['f', '(', ')'] x (fuel + 4) 0 = none) := by
  obtain ⟨k, rfl⟩ : ∃ k, fuel = k + 2 := ⟨fuel - 2, by omega⟩
  have hempty : fetch u [] x (k + 2) 0 = some (.null, 0) :=
    fetch_at_terminator u [] x 0 (Char.ofNat 0) rfl (Or.inl rfl) k
  have hcall : ∀ p, lookup_extern ['f'] x = some p →
      fetch u ['f', '(', ')'] x (k + 2 + 4) 0 =
        (create_extern_function_node u p [.null]).map (fun node => (node, 3)) := by
    intro p hp
    have h0 : charAt ['f', '(', ')'] 0 = some 'f' := rfl
    have h1 : charAt ['f', '(', ')'] (0 + ['f'].length) = some '(' := rfl
    have h2 : charAt ['f', '(', ')'] 2 = some ')' := rfl
    have h3 : charAt ['f', '(', ')'] 3 = some (Char.ofNat 0) := rfl
    have hname : fetch_extern_name (['f', '(', ')'].drop 0) = ['f'] := by decide
    have harg : fetch u ['f', '(', ')'] x (k + 2) 2 = some (.null, 2) :=
      fetch_at_terminator u _ x 2 ')' h2 (Or.inr (Or.inl rfl)) k
    have hfun : fetch_extern_function u ['f', '(', ')'] x (k + 2 + 1) p []
        (0 + ['f'].length + 1) =
        (create_extern_function_node u p [.null]).map (fun node => (node, 3)) := by
      rw [fetch_extern_function_succ, if_neg (by decide)]
      show (match fetch u ['f', '(', ')'] x (k + 2) 2 with
        | none => none
        | some (arg, position) =>
          match charAt ['f', '(', ')'] position with
          | none => none
          | some symbol =>
            if symbol = ')' then
              match create_extern_function_node u p ([] ++ [arg]) with
              | none => none
              | some node => some (node, position + 1)
            else fetch_extern_function u ['f', '(', ')'] x (k + 2) p ([] ++ [arg])
              (position + 1)) = _
      rw [harg]
      show (match create_extern_function_node u p [.null] with
        | none => none
        | some node => some (node, 2 + 1)) = _
      cases create_extern_function_node u p [.null] <;> rfl
    have hext : fetch_extern u ['f', '(', ')'] x (k + 2 + 1 + 1) 0 =
        (create_extern_function_node u p [.null]).map (fun node => (node, 3)) := by
      rw [fetch_extern_succ, if_neg (by decide), hname, if_neg (by decide), hp]
      dsimp only
      rw [if_pos h1, hfun]
    rw [show k + 2 + 4 = (k + 2 + 1 + 1 + 1) + 1 from rfl, fetch_succ, fetch_loop_succ, h0]
    have he : is_parse_end 'f' = false := by decide
    have hop : ¬ ('f' = '+' ∨ 'f' = '-' ∨ 'f' = '*') := by decide
    have hpar : ¬ ('f' = '(') := by decide
    have hdig : 'f'.isDigit = false := by decide
    simp only [he, hop, hpar, hdig, if_true, Bool.false_eq_true, if_false, hext]
    cases ho : u.function_in_order with
    | false =>
      rw [create_extern_function_node_reversed ho]
      rfl
    | true =>
      rw [create_extern_function_node_in_order ho]
      show fetch_loop u ['f', '(', ')'] x ((k + 3) + 1)
        (merge u FetchState.init (.externFunction p 1 .null .null .null .null)) 3 = _
      rw [fetch_loop_end u _ x _ _ h3 (by decide)]
      rfl
  refine ⟨fetch_at_terminator u s x position c hc hend k, ⟨hempty, rfl, ?_⟩, ?_, hcall, ?_, ?_⟩
  · have hb : buffer_text (remove_spaces []) = ([], true) := by decide
    rw [jit_compile_expression_to_arm, fetch_buffer, hb]
    dsimp only
    rw [hempty]
    rfl
  · have h1 := fetch_loop_paren u ['(', ')'] [] [] [] rfl x .null (k + 2) 0 FetchState.init hempty
    have h2 : charAt ['(', ')'] 2 = some (Char.ofNat 0) := rfl
    rw [fetch_succ]
    refine h1.trans ?_
    show fetch_loop u ['(', ')'] x ((k + 1) + 1) (merge u FetchState.init (.braced .null)) 2 = _
    rw [fetch_loop_end u _ x _ _ h2 (by decide)]
    rfl
  · intro ho p hp
    rw [hcall p hp, create_extern_function_node_in_order ho]
    rfl
  · intro ho p hp
    rw [hcall p hp, create_extern_function_node_reversed ho]
    rfl

/-- C20 at the `)` of `1)`, with `f` bound to 7, in a left to right and in a
right to left build. -/
theorem C20_fetch_at_terminator_witness :
    charAt ['1', ')'] 1 = some ')' ∧
    fetch left_to_right ['1', ')'] [⟨['f'], 7⟩] 2 1 = some (.null, 1) ∧
    fetch right_to_left ['1', ')'] [⟨['f'], 7⟩] 2 1 = some (.null, 1) ∧
    fetch right_to_left [] [⟨['f'], 7⟩] 2 0 = some (.null, 0) ∧
    fetch right_to_left ['(', ')'] [⟨['f'], 7⟩] 4 0 = some (.braced .null, 2) ∧
    fetch left_to_right ['f', '(', ')'] [⟨['f'], 7⟩] 6 0 =
      some (.externFunction 7 1 .null .null .null .null, 3) ∧
    fetch right_to_left ['f', '(', ')'] [⟨['f'], 7⟩] 6 0 = none :=
  ⟨by decide,
    (C20_fetch_at_terminator left_to_right ['1', ')'] [⟨['f'], 7⟩] 1 ')' (by decide)
      (Or.inr (Or.inl rfl)) 2 (by decide)).1,
    (C20_fetch_at_terminator right_to_left ['1', ')'] [⟨['f'], 7⟩] 1 ')' (by decide)
      (Or.inr (Or.inl rfl)) 2 (by decide)).1,
    by decide, by decide, by decide,
    (C20_fetch_at_terminator right_to_left ['1', ')'] [⟨['f'], 7⟩] 1 ')' (by decide)
      (Or.inr (Or.inl rfl)) 2 (by decide)).2.2.2.2.2 rfl 7 (by decide)⟩

end Jit
